import Mathlib

/-!
# The subtask queue of the multicore runtime (`rts/c/subtask_queue.h`)

A shallow embedding of the bounded ring buffer of subtask descriptors and of its
operations `subtask_queue_init`, `subtask_queue_destroy`, `subtask_queue_enqueue`,
`subtask_queue_dequeue`, `subtask_queue_steal` and of the chunk splitting routine
`jobqueue_get_subtask_chunk`.

Modelling conventions.

* Pointers are natural numbers, `NULL` is `0`.  Subtask objects live in a heap
  `mem : Ptr → Option subtask` (`none`: no subtask object at that address); the `int`
  cells that `counter` fields point to live in `ints : Ptr → Int`.
* C `int` is 32 bits wide.  The additions and subtractions whose result can leave the `int`
  range are carried out in two's complement (`wrap32`): `end - start`, `end - chunk`,
  `start + chunk` and `start += chunk` in the splitting routine, `(*counter)++`, and
  `first + num_used` in enqueue.  The steps `first + 1`, `num_used + 1` and `num_used - 1`
  are written without `wrap32`: under the invariant `0 <= first < capacity`,
  `0 <= num_used <= capacity` of the queue record, `capacity` being an `int`, their results
  are `int` values.  `%` is C's truncating remainder (`Int.tmod`) and is undefined for a zero
  divisor.  The `uint64_t` profiling totals wrap modulo `2 ^ 64`.
* Every operation runs with the queue mutex held from the moment its wait loop is left
  until it returns, so an operation is one atomic transition of the state.  An operation
  whose wait loop cannot be left in the current state is `Outcome.blocked`: it is parked
  in `pthread_cond_wait` and the state is unchanged.
* A failed `assert`, a dereference of `NULL` or of an address without an object, an
  increment through a `NULL` counter pointer, an out-of-bounds slot access and a remainder
  by zero are `Outcome.crashed`.
* The `pthread_*` calls are taken to succeed (`CHECK_ERR` aborts the process otherwise).
  The order in which an operation makes them is given by the `*_sync` functions.
* `free` releases storage without changing it: a read through a dangling pointer sees the
  contents the storage had when it was released.
* The values handed in by the environment are explicit arguments (`Env`): the two
  readings of `get_wall_time` and the address returned by `malloc` in a split.
-/

namespace SubtaskQueue

/-- Addresses. -/
abbrev Ptr := Nat

/-- The null pointer. -/
def NULL : Ptr := 0

/-- The record `struct subtask`; the field `end` is written `end_`. -/
structure subtask where
  fn : Ptr
  args : Ptr
  start : Int
  end_ : Int
  chunk : Int
  counter : Ptr
  mutex : Ptr
  cond : Ptr
  deriving DecidableEq, Repr

/-- The record `struct subtask_queue`.  `buffer` is the slot array (its length is the number of
allocated slots; a `NULL` buffer is the empty list); the queue's own mutex and condition variable
carry no data and are left out. -/
structure subtask_queue where
  capacity : Int
  first : Int
  num_used : Int
  buffer : List Ptr
  dead : Int
  time_enqueue : Nat
  time_dequeue : Nat
  n_dequeues : Nat
  n_enqueues : Nat
  profile : Int
  deriving DecidableEq, Repr

/-- The memory the operations work on: the queue record, the subtask objects and the `int`
cells addressed by the `counter` fields. -/
structure World where
  q : subtask_queue
  mem : Ptr → Option subtask
  ints : Ptr → Int

/-- What the environment supplies to one call: the reading of `get_wall_time` at entry, the
reading taken when profiling is on, and the address `malloc` returns if the call splits. -/
structure Env where
  t_start : Nat
  t_end : Nat
  fresh : Ptr
  deriving DecidableEq, Repr

/-- How a call ends: it returns, it is parked in `pthread_cond_wait`, or the process dies. -/
inductive Outcome (α : Type) where
  | returned : α → Outcome α
  | blocked : Outcome α
  | crashed : Outcome α

/-- What a returning queue operation leaves behind: its return code, the pointer it stored
through its output argument (`none`: the output slot was not written) and the memory. -/
structure Ret where
  code : Int
  out : Option Ptr
  w : World

/-- Reading through a subtask pointer: `NULL` and addresses without an object have no value. -/
def deref (w : World) (p : Ptr) : Option subtask :=
  if p = NULL then none else w.mem p

/-- The access `buffer[i]` for reading. -/
def slot_read (buffer : List Ptr) (i : Int) : Option Ptr :=
  if i < 0 then none else buffer[i.toNat]?

/-- The assignment `buffer[i] = p`. -/
def slot_write (buffer : List Ptr) (i : Int) (p : Ptr) : Option (List Ptr) :=
  if i < 0 ∨ (buffer.length : Int) ≤ i then none else some (buffer.set i.toNat p)

/-- C's `a % b` on `int`. -/
def c_mod (a b : Int) : Option Int :=
  if b = 0 then none else some (Int.tmod a b)

/-- Whole-object assignment `*p = v`. -/
def store (mem : Ptr → Option subtask) (p : Ptr) (v : subtask) : Ptr → Option subtask :=
  fun x => if x = p then some v else mem x

/-- Field assignment through `p`. -/
def modify (mem : Ptr → Option subtask) (p : Ptr) (f : subtask → subtask) :
    Ptr → Option subtask :=
  fun x => if x = p then (mem x).map f else mem x

/-- Field read through a pointer known to address an object. -/
def peek (mem : Ptr → Option subtask) (p : Ptr) (hd : subtask) : subtask :=
  (mem p).getD hd

/-- The largest value of a 32-bit `int`. -/
def INT_MAX : Int := 2147483647

/-- The smallest value of a 32-bit `int`. -/
def INT_MIN : Int := -2147483648

/-- The value lies in the range of a 32-bit `int`. -/
def in_int (x : Int) : Prop := INT_MIN ≤ x ∧ x ≤ INT_MAX

/-- The 32-bit two's complement result of an arithmetic operation whose mathematical value
is `x`. -/
def wrap32 (x : Int) : Int := (x + 2147483648) % 4294967296 - 2147483648

/-- The increment `(*c)++` of the `int` cell at the address `c`: from `INT_MAX` it goes to
`INT_MIN`.  The caller checks that `c` is not `NULL`. -/
def bump (ints : Ptr → Int) (c : Ptr) : Ptr → Int :=
  fun x => if x = c then wrap32 (ints x + 1) else ints x

/-- Unsigned 64-bit `total += (t_end - t_start)`. -/
def add_elapsed (total t_start t_end : Nat) : Nat :=
  (total + (t_end % 2 ^ 64 + 2 ^ 64 - t_start % 2 ^ 64)) % 2 ^ 64

/-- Unsigned 64-bit `n++`. -/
def incr64 (n : Nat) : Nat := (n + 1) % 2 ^ 64

/-- The routine `setup_subtask`: allocate a descriptor at the address `fresh` that `malloc`
returns and fill in its fields; a failed allocation trips the assert.  Returns the pointer and
the new subtask heap. -/
def setup_subtask (mem : Ptr → Option subtask) (fresh : Ptr) (fn args mutex cond counter : Ptr)
    (start end_ chunk : Int) : Outcome (Ptr × (Ptr → Option subtask)) :=
  if fresh = NULL then .crashed
  else
    .returned (fresh, store mem fresh
      { fn := fn, args := args, start := start, end_ := end_, chunk := chunk,
        counter := counter, mutex := mutex, cond := cond })

/-- The profiling update of enqueue: `time_enqueue += (end - start); n_enqueues++`. -/
def record_enqueue (q : subtask_queue) (env : Env) : subtask_queue :=
  { q with time_enqueue := add_elapsed q.time_enqueue env.t_start env.t_end,
           n_enqueues := incr64 q.n_enqueues }

/-- The profiling update of dequeue and steal: `time_dequeue += (end - start); n_dequeues++`. -/
def record_dequeue (q : subtask_queue) (env : Env) : subtask_queue :=
  { q with time_dequeue := add_elapsed q.time_dequeue env.t_start env.t_end,
           n_dequeues := incr64 q.n_dequeues }

/-- The routine `jobqueue_get_subtask_chunk`: carve a chunk off the head entry (from its end
when `from_end` is non-zero, from its start otherwise) or remove the head entry whole.  The
arithmetic on `start`, `end` and `chunk` is that of `int`; the increment of the shared counter
goes through the pointer `cur_head->counter`, which must not be `NULL`. -/
def jobqueue_get_subtask_chunk (w : World) (from_end : Int) (fresh : Ptr) :
    Outcome (Ptr × World) :=
  match slot_read w.q.buffer w.q.first with
  | none => .crashed
  | some cur_head =>
    match deref w cur_head with
    | none => .crashed
    | some hd =>
      let remaining_iter := wrap32 (hd.end_ - hd.start)
      if ¬ (remaining_iter > 0) then .crashed
      else if hd.chunk > 0 ∧ remaining_iter > hd.chunk then
        if fresh = NULL then .crashed
        else
          let m0 := store w.mem fresh hd
          let m2 :=
            if from_end ≠ 0 then
              let m1 := modify m0 fresh (fun s =>
                { s with start :=
                    wrap32 ((peek m0 cur_head hd).end_ - (peek m0 cur_head hd).chunk) })
              modify m1 cur_head (fun s => { s with end_ := (peek m1 fresh hd).start })
            else
              let m1 := modify m0 fresh (fun s =>
                { s with end_ :=
                    wrap32 ((peek m0 cur_head hd).start + (peek m0 cur_head hd).chunk) })
              modify m1 cur_head (fun s => { s with start := wrap32 (s.start + s.chunk) })
          if (peek m2 cur_head hd).counter = NULL then .crashed
          else
            .returned (fresh,
              { w with mem := m2, ints := bump w.ints (peek m2 cur_head hd).counter })
      else
        match c_mod (w.q.first + 1) w.q.capacity with
        | none => .crashed
        | some first1 =>
          .returned (cur_head,
            { w with q := { w.q with num_used := w.q.num_used - 1, first := first1 } })

/-- The routine `jobqueue_get_subtask_chunk` with the arithmetic on `start`, `end` and `chunk`
(`end - start`, `end - chunk`, `start + chunk` and `start += chunk`) carried out on the
mathematical integers instead of `int`; everything else is as in the routine itself. -/
def jobqueue_get_subtask_chunk_exact (w : World) (from_end : Int) (fresh : Ptr) :
    Outcome (Ptr × World) :=
  match slot_read w.q.buffer w.q.first with
  | none => .crashed
  | some cur_head =>
    match deref w cur_head with
    | none => .crashed
    | some hd =>
      let remaining_iter := hd.end_ - hd.start
      if ¬ (remaining_iter > 0) then .crashed
      else if hd.chunk > 0 ∧ remaining_iter > hd.chunk then
        if fresh = NULL then .crashed
        else
          let m0 := store w.mem fresh hd
          let m2 :=
            if from_end ≠ 0 then
              let m1 := modify m0 fresh (fun s =>
                { s with start := (peek m0 cur_head hd).end_ - (peek m0 cur_head hd).chunk })
              modify m1 cur_head (fun s => { s with end_ := (peek m1 fresh hd).start })
            else
              let m1 := modify m0 fresh (fun s =>
                { s with end_ := (peek m0 cur_head hd).start + (peek m0 cur_head hd).chunk })
              modify m1 cur_head (fun s => { s with start := s.start + s.chunk })
          if (peek m2 cur_head hd).counter = NULL then .crashed
          else
            .returned (fresh,
              { w with mem := m2, ints := bump w.ints (peek m2 cur_head hd).counter })
      else
        match c_mod (w.q.first + 1) w.q.capacity with
        | none => .crashed
        | some first1 =>
          .returned (cur_head,
            { w with q := { w.q with num_used := w.q.num_used - 1, first := first1 } })

/-- The routine `subtask_queue_init`; `oom` says that `calloc` fails (it also fails for a
negative element count).  Returns the code and the initialised record. -/
def subtask_queue_init (capacity : Int) (oom : Bool) : Int × subtask_queue :=
  let failed : Bool := oom || decide (capacity < 0)
  let q : subtask_queue :=
    { capacity := capacity, first := 0, num_used := 0,
      buffer := if failed then [] else List.replicate capacity.toNat NULL,
      dead := 0, time_enqueue := 0, time_dequeue := 0, n_dequeues := 0, n_enqueues := 0,
      profile := 0 }
  (if failed then -1 else 0, q)

/-- The routine `subtask_queue_destroy`: waits until the queue is empty, then marks it dead and
releases the slot array.  Released storage keeps its contents in this model, which is what a
later read through the dangling `buffer` pointer observes. -/
def subtask_queue_destroy (w : World) : Outcome (Int × World) :=
  if w.q.num_used ≠ 0 then .blocked
  else .returned (0, { w with q := { w.q with dead := 1 } })

/-- The routine `subtask_queue_enqueue`.  The slot index is `(first + num_used) % capacity`
with the sum formed in `int`. -/
def subtask_queue_enqueue (w : World) (p : Ptr) (env : Env) : Outcome Ret :=
  if w.q.num_used = w.q.capacity ∧ w.q.dead = 0 then .blocked
  else if w.q.dead ≠ 0 then .returned ⟨-1, none, w⟩
  else
    match c_mod (wrap32 (w.q.first + w.q.num_used)) w.q.capacity with
    | none => .crashed
    | some i =>
      match slot_write w.q.buffer i p with
      | none => .crashed
      | some buffer1 =>
        let q1 : subtask_queue := { w.q with buffer := buffer1, num_used := w.q.num_used + 1 }
        .returned ⟨0, none,
          { w with q := if q1.profile ≠ 0 then record_enqueue q1 env else q1 }⟩

/-- The routine `subtask_queue_dequeue`. -/
def subtask_queue_dequeue (w : World) (env : Env) : Outcome Ret :=
  if w.q.num_used = 0 ∧ w.q.dead = 0 then .blocked
  else if w.q.dead ≠ 0 then .returned ⟨-1, none, w⟩
  else
    match jobqueue_get_subtask_chunk w 0 env.fresh with
    | .blocked => .blocked
    | .crashed => .crashed
    | .returned (p, w1) =>
      if p = NULL then .crashed
      else
        .returned ⟨0, some p,
          { w1 with q := if w1.q.profile ≠ 0 then record_dequeue w1.q env else w1.q }⟩

/-- The routine `subtask_queue_is_empty`. -/
def subtask_queue_is_empty (q : subtask_queue) : Bool :=
  decide (q.num_used = 0) && decide (q.dead = 0)

/-- The routine `subtask_queue_steal`. -/
def subtask_queue_steal (w : World) (env : Env) : Outcome Ret :=
  let was_profiling := w.q.profile
  if subtask_queue_is_empty w.q then .returned ⟨0, none, w⟩
  else
    match slot_read w.q.buffer w.q.first with
    | none => .crashed
    | some head =>
      match deref w head with
      | none => .crashed
      | some hd =>
        if hd.chunk = 0 then .returned ⟨0, none, w⟩
        else if w.q.dead ≠ 0 then .returned ⟨-1, none, w⟩
        else
          match jobqueue_get_subtask_chunk w 1 env.fresh with
          | .blocked => .blocked
          | .crashed => .crashed
          | .returned (p, w1) =>
            if p = NULL then .returned ⟨-1, some p, w1⟩
            else
              .returned ⟨0, some p,
                { w1 with q := if w1.q.profile ≠ 0 ∧ was_profiling ≠ 0
                               then record_dequeue w1.q env else w1.q }⟩

/-! ## Derived states -/

/-- The head entry after a chunk was carved off its start. -/
def shrink_front (hd : subtask) : subtask := { hd with start := hd.start + hd.chunk }

/-- The head entry after a chunk was carved off its end. -/
def shrink_back (hd : subtask) : subtask := { hd with end_ := hd.end_ - hd.chunk }

/-- The chunk carved off the start of an entry. -/
def piece_front (hd : subtask) : subtask := { hd with end_ := hd.start + hd.chunk }

/-- The chunk carved off the end of an entry. -/
def piece_back (hd : subtask) : subtask := { hd with start := hd.end_ - hd.chunk }

/-- The memory after a split that handed out `piece` at `fresh` and left `rest` at `hp`. -/
def after_split (w : World) (hp fresh : Ptr) (piece rest : subtask) : World :=
  { w with mem := store (store w.mem fresh piece) hp rest, ints := bump w.ints rest.counter }

/-- The memory after the head entry was removed whole. -/
def after_removal (w : World) : World :=
  { w with q := { w.q with num_used := w.q.num_used - 1,
                           first := Int.tmod (w.q.first + 1) w.q.capacity } }

/-- The state a returning dequeue leaves, given the state the chunk routine left. -/
def dequeue_exit (w1 : World) (env : Env) : World :=
  { w1 with q := if w1.q.profile ≠ 0 then record_dequeue w1.q env else w1.q }

/-- The state a returning steal leaves, given the state the chunk routine left. -/
def steal_exit (was_profiling : Int) (w1 : World) (env : Env) : World :=
  { w1 with q := if w1.q.profile ≠ 0 ∧ was_profiling ≠ 0
                 then record_dequeue w1.q env else w1.q }

/-! ## Observations and worked states -/

/-- What an observer `f` sees of a call that returned; `none` if it did not return. -/
def Outcome.view {α β : Type} (f : α → β) : Outcome α → Option β
  | .returned a => some (f a)
  | .blocked => none
  | .crashed => none

/-- Whether the call killed the process. -/
def Outcome.is_crashed {α : Type} : Outcome α → Bool
  | .crashed => true
  | _ => false

/-- Whether the call returned. -/
def Outcome.is_returned {α : Type} : Outcome α → Bool
  | .returned _ => true
  | _ => false

/-- Whether the call is parked in its wait loop. -/
def Outcome.is_blocked {α : Type} : Outcome α → Bool
  | .blocked => true
  | _ => false

/-- A descriptor with the given range and chunk size, as `setup_subtask` fills it in. -/
def demo_subtask (s e c : Int) : subtask :=
  { fn := 100, args := 200, start := s, end_ := e, chunk := c,
    counter := 300, mutex := 400, cond := 500 }

/-- A live queue of capacity 4 whose single entry is the object at address 1. -/
def demo_queue : subtask_queue :=
  { capacity := 4, first := 0, num_used := 1, buffer := [1, 0, 0, 0], dead := 0,
    time_enqueue := 0, time_dequeue := 0, n_dequeues := 0, n_enqueues := 0, profile := 0 }

/-- The memory holding `demo_queue` and, at address 1, a descriptor `[s, e)` with chunk `c`;
the shared counter is zero. -/
def demo_world (s e c : Int) : World :=
  { q := demo_queue,
    mem := fun p => if p = 1 then some (demo_subtask s e c) else none,
    ints := fun _ => 0 }

/-- An environment whose `malloc` hands out address 2. -/
def demo_env : Env := { t_start := 0, t_end := 0, fresh := 2 }

/-- The states in which steal finds nothing to take: the queue is empty, or its head entry has
`chunk == 0`. -/
def no_work (w : World) : Prop :=
  w.q.num_used = 0 ∨
    ∃ hp hd, slot_read w.q.buffer w.q.first = some hp ∧ deref w hp = some hd ∧ hd.chunk = 0

/-- The memory right after `subtask_queue_init` succeeded with the given capacity, with the
subtask objects `mem` and all counter cells zero. -/
def init_world (capacity : Int) (mem : Ptr → Option subtask) : World :=
  { q := (subtask_queue_init capacity false).2, mem := mem, ints := fun _ => 0 }

/-- The range of the descriptor is a range of `int` indices whose width is an `int` as well:
`start` and `end` are `int` values, `start < end`, and `end - start` does not exceed
`INT_MAX`. -/
def well_ranged (d : subtask) : Prop :=
  in_int d.start ∧ in_int d.end_ ∧ d.start < d.end_ ∧ d.end_ - d.start ≤ INT_MAX

/-- The value of an `int` cell that held `x` after `n` increments `(*c)++`. -/
def incremented : Nat → Int → Int
  | 0, x => x
  | n + 1, x => incremented n (wrap32 (x + 1))

/-- The chunk a split hands out: off the end for a steal, off the start for a dequeue. -/
def piece_of (steal : Bool) (hd : subtask) : subtask :=
  if steal then piece_back hd else piece_front hd

/-- The entry a split leaves queued. -/
def rest_of (steal : Bool) (hd : subtask) : subtask :=
  if steal then shrink_back hd else shrink_front hd

/-- Two descriptors belong to the same submission: they agree on everything but the range. -/
def same_job (a b : subtask) : Prop :=
  a.fn = b.fn ∧ a.args = b.args ∧ a.chunk = b.chunk ∧ a.counter = b.counter ∧
    a.mutex = b.mutex ∧ a.cond = b.cond

/-! ## Sequences of calls -/

/-- One extraction call: by a thief (`steal`) or by the owner (dequeue), together with what
the environment supplies to it. -/
structure Call where
  steal : Bool
  env : Env
  deriving DecidableEq, Repr

/-- The extraction call `c` applied to the memory `w`. -/
def extract (w : World) (c : Call) : Outcome Ret :=
  if c.steal then subtask_queue_steal w c.env else subtask_queue_dequeue w c.env

/-- The calls of a list made one after the other.  Returns what each call returned, in order,
and the final memory; the run is blocked or crashed as soon as one call is. -/
def run : World → List Call → Outcome (List Ret × World)
  | w, [] => .returned ([], w)
  | w, c :: cs =>
    match extract w c with
    | .blocked => .blocked
    | .crashed => .crashed
    | .returned r =>
      match run r.w cs with
      | .blocked => .blocked
      | .crashed => .crashed
      | .returned (rs, w1) => .returned (r :: rs, w1)

/-- A descriptor handed out by a split: which call produced it (`steal`: off the end of the
entry), the pointer returned and the descriptor as it was when returned. -/
structure Piece where
  steal : Bool
  ptr : Ptr
  desc : subtask
  deriving DecidableEq, Repr

/-- What a run of extraction calls on one queue entry produced: the pieces split off, in
return order, the entry itself if a call removed it from the queue, and the memory left. -/
structure Drained where
  pieces : List Piece
  removed : Option subtask
  w : World

/-- The calls of a list made one after the other until one of them removes an entry from the
queue (`num_used` changes) or the list is exhausted.  A call that hands out nothing is
skipped. -/
def consume : World → List Call → Outcome Drained
  | w, [] => .returned ⟨[], none, w⟩
  | w, c :: cs =>
    match extract w c with
    | .blocked => .blocked
    | .crashed => .crashed
    | .returned r =>
      match r.out with
      | none => consume r.w cs
      | some p =>
        match deref r.w p with
        | none => .crashed
        | some d =>
          if r.w.q.num_used ≠ w.q.num_used then .returned ⟨[], some d, r.w⟩
          else
            match consume r.w cs with
            | .blocked => .blocked
            | .crashed => .crashed
            | .returned dr => .returned ⟨⟨c.steal, p, d⟩ :: dr.pieces, dr.removed, dr.w⟩

/-- The number of descriptors a run on one entry handed out: the split pieces and, if it was
reached, the entry itself. -/
def returned_total (dr : Drained) : Nat :=
  dr.pieces.length + (if dr.removed.isSome then 1 else 0)

/-- A dequeue, a steal and a dequeue, each with `malloc` handing out address 2. -/
def demo_calls : List Call :=
  [⟨false, demo_env⟩, ⟨true, demo_env⟩, ⟨false, demo_env⟩]

/-- The half-open range of a descriptor. -/
def range_of (d : subtask) : Int × Int := (d.start, d.end_)

/-- The ranges of the pieces split off the start of the entry, in return order. -/
def fronts (ps : List Piece) : List (Int × Int) :=
  (ps.filter (fun p => !p.steal)).map (fun p => range_of p.desc)

/-- The ranges of the pieces split off the end of the entry, in return order. -/
def backs (ps : List Piece) : List (Int × Int) :=
  (ps.filter (fun p => p.steal)).map (fun p => range_of p.desc)

/-- The ranges of a list are non-empty and laid end to end from `s` to `e`. -/
def Tiles : Int → Int → List (Int × Int) → Prop
  | s, e, [] => s = e
  | s, e, r :: rs => r.1 = s ∧ r.1 < r.2 ∧ Tiles r.2 e rs

/-- The index `i` lies in one of the ranges. -/
def Covered (rs : List (Int × Int)) (i : Int) : Prop :=
  ∃ r, r ∈ rs ∧ r.1 ≤ i ∧ i < r.2

/-- Two half-open ranges have no index in common. -/
def Disjoint2 (a b : Int × Int) : Prop :=
  a.2 ≤ b.1 ∨ b.2 ≤ a.1

/-- The queue records reachable from `subtask_queue_init capacity` by calls that return; the
subtask objects, counter cells and environment of each call are arbitrary. -/
inductive Reachable (capacity : Int) : subtask_queue → Prop
  | init (oom : Bool) (q : subtask_queue) :
      subtask_queue_init capacity oom = (0, q) → Reachable capacity q
  | enqueue (w : World) (p : Ptr) (env : Env) (r : Ret) :
      Reachable capacity w.q → subtask_queue_enqueue w p env = .returned r →
      Reachable capacity r.w.q
  | dequeue (w : World) (env : Env) (r : Ret) :
      Reachable capacity w.q → subtask_queue_dequeue w env = .returned r →
      Reachable capacity r.w.q
  | steal (w : World) (env : Env) (r : Ret) :
      Reachable capacity w.q → subtask_queue_steal w env = .returned r →
      Reachable capacity r.w.q
  | destroy (w : World) (code : Int) (w1 : World) :
      Reachable capacity w.q → subtask_queue_destroy w = .returned (code, w1) →
      Reachable capacity w1.q

/-- What the scenario records of a returning call: its code, the pointer handed out, the range
of the descriptor handed out, the range of the entry at address 1, `num_used`, and the counter
cell at address 300. -/
def observe (r : Ret) : Int × Option Ptr × Option (Int × Int) × Option (Int × Int) × Int × Int :=
  (r.code, r.out, (r.out.bind (deref r.w)).map range_of, (deref r.w 1).map range_of,
    r.w.q.num_used, r.w.ints 300)

/-- The start of the scenario: a queue just created with capacity 4, and at address 1 a
descriptor `[0, 100)` with chunk 10 whose counter cell (address 300) is zero. -/
def scenario_start : World :=
  init_world 4 (fun p => if p = 1 then some (demo_subtask 0 100 10) else none)

/-- The calls of the scenario after the enqueue: a dequeue, a steal, and eight more dequeues;
`malloc` hands out the addresses 2, 3, 4, ... in turn. -/
def scenario_calls : List Call :=
  [⟨false, ⟨0, 0, 2⟩⟩, ⟨true, ⟨0, 0, 3⟩⟩, ⟨false, ⟨0, 0, 4⟩⟩, ⟨false, ⟨0, 0, 5⟩⟩,
   ⟨false, ⟨0, 0, 6⟩⟩, ⟨false, ⟨0, 0, 7⟩⟩, ⟨false, ⟨0, 0, 8⟩⟩, ⟨false, ⟨0, 0, 9⟩⟩,
   ⟨false, ⟨0, 0, 10⟩⟩, ⟨false, ⟨0, 0, 11⟩⟩]

/-- The quotient `n / c` rounded up, for positive `c`. -/
def ceil_div (n c : Int) : Int := (n + c - 1) / c

/-- The chunk routine applied once per element of `dirs` (the direction flag and the address
`malloc` returns) until a call removes the head entry from the queue.  Returns the number of
calls made when the entry was removed, `none` when the list ran out first. -/
def extractions : World → List (Int × Ptr) → Outcome (Option Nat)
  | _, [] => .returned none
  | w, d :: ds =>
    match jobqueue_get_subtask_chunk w d.1 d.2 with
    | .blocked => .blocked
    | .crashed => .crashed
    | .returned (_, w1) =>
      if w1.q.num_used ≠ w.q.num_used then .returned (some 1)
      else
        match extractions w1 ds with
        | .blocked => .blocked
        | .crashed => .crashed
        | .returned none => .returned none
        | .returned (some k) => .returned (some (k + 1))

/-- The result of a call under a change of what is observed of it. -/
def Outcome.map {α β : Type} (f : α → β) : Outcome α → Outcome β
  | .returned a => .returned (f a)
  | .blocked => .blocked
  | .crashed => .crashed

/-- Everything a returning call leaves behind except the profiling fields of the queue
(`time_enqueue`, `time_dequeue`, `n_enqueues`, `n_dequeues`, `profile`). -/
structure Visible where
  code : Int
  out : Option Ptr
  capacity : Int
  first : Int
  num_used : Int
  buffer : List Ptr
  dead : Int
  mem : Ptr → Option subtask
  ints : Ptr → Int

/-- The part of a call's result that is not profiling data. -/
def visible (r : Ret) : Visible :=
  { code := r.code, out := r.out, capacity := r.w.q.capacity, first := r.w.q.first,
    num_used := r.w.q.num_used, buffer := r.w.q.buffer, dead := r.w.q.dead,
    mem := r.w.mem, ints := r.w.ints }

/-- Two memories differ at most in the profiling fields of the queue. -/
def same_but_profiling (w w2 : World) : Prop :=
  w2.q.capacity = w.q.capacity ∧ w2.q.first = w.q.first ∧ w2.q.num_used = w.q.num_used ∧
    w2.q.buffer = w.q.buffer ∧ w2.q.dead = w.q.dead ∧ w2.mem = w.mem ∧ w2.ints = w.ints

/-- The pointer `p` is held by one of the queued slots, the slots at the offsets
`0, ..., num_used - 1` behind `first`. -/
def queued (w : World) (p : Ptr) : Prop :=
  ∃ m : Nat, (m : Int) < w.q.num_used ∧
    slot_read w.q.buffer ((w.q.first + (m : Int)) % w.q.capacity) = some p

/-- Every queued slot points to a descriptor with `start < end`. -/
def entries_nonempty (w : World) : Prop :=
  ∀ m : Nat, (m : Int) < w.q.num_used →
    ∃ p d, slot_read w.q.buffer ((w.q.first + (m : Int)) % w.q.capacity) = some p ∧
      deref w p = some d ∧ d.start < d.end_

/-- Every queued slot points to a descriptor whose range is `well_ranged`. -/
def entries_well_ranged (w : World) : Prop :=
  ∀ m : Nat, (m : Int) < w.q.num_used →
    ∃ p d, slot_read w.q.buffer ((w.q.first + (m : Int)) % w.q.capacity) = some p ∧
      deref w p = some d ∧ well_ranged d

/-- The range of the descriptor is not empty: `start < end`. -/
def nonempty_range (d : subtask) : Prop := d.start < d.end_

/-- The memories reachable from a successful `subtask_queue_init capacity` when every
descriptor passed to enqueue is a valid object that satisfies `ok`, `malloc` hands out blocks
that hold no live descriptor, and the rest of the program changes subtask objects that are not
queued (and counter cells) in any way it likes. -/
inductive Execution (ok : subtask → Prop) (capacity : Int) : World → Prop
  | init (q : subtask_queue) (mem : Ptr → Option subtask) (ints : Ptr → Int) :
      subtask_queue_init capacity false = (0, q) → Execution ok capacity ⟨q, mem, ints⟩
  | enqueue (w : World) (p : Ptr) (d : subtask) (env : Env) (r : Ret) :
      Execution ok capacity w → deref w p = some d → ok d →
      subtask_queue_enqueue w p env = .returned r → Execution ok capacity r.w
  | dequeue (w : World) (env : Env) (r : Ret) :
      Execution ok capacity w → w.mem env.fresh = none →
      subtask_queue_dequeue w env = .returned r → Execution ok capacity r.w
  | steal (w : World) (env : Env) (r : Ret) :
      Execution ok capacity w → w.mem env.fresh = none →
      subtask_queue_steal w env = .returned r → Execution ok capacity r.w
  | destroy (w : World) (code : Int) (w1 : World) :
      Execution ok capacity w → subtask_queue_destroy w = .returned (code, w1) →
      Execution ok capacity w1
  | outside (w : World) (mem2 : Ptr → Option subtask) (ints2 : Ptr → Int) :
      Execution ok capacity w → (∀ p, queued w p → mem2 p = w.mem p) →
      Execution ok capacity { w with mem := mem2, ints := ints2 }

/-- The calls on mutexes and condition variables: on the queue's own pair, and on the pair a
descriptor shares with the other pieces of its submission.  `wait_queue` is
`pthread_cond_wait` on the queue's pair: it gives up the queue mutex while asleep and holds it
again when it returns. -/
inductive Sync where
  | lock_queue : Sync
  | unlock_queue : Sync
  | wait_queue : Sync
  | broadcast_queue : Sync
  | lock_subtask : Ptr → Sync
  | unlock_subtask : Ptr → Sync
  | broadcast_subtask : Ptr → Sync
  deriving DecidableEq, Repr

/-- The synchronisation calls `jobqueue_get_subtask_chunk` makes, in order: in the split branch
it locks the head's mutex, broadcasts on the head's condition variable and unlocks; otherwise
(and when it dies before reaching them) none.  With a `NULL` counter pointer it dies at the
increment, right after locking the head's mutex.  The fields `mutex`, `cond` and `counter` of
the head are not written by the routine, so they are read from the head as found. -/
def jobqueue_get_subtask_chunk_sync (w : World) (fresh : Ptr) : List Sync :=
  match slot_read w.q.buffer w.q.first with
  | none => []
  | some cur_head =>
    match deref w cur_head with
    | none => []
    | some hd =>
      let remaining_iter := wrap32 (hd.end_ - hd.start)
      if ¬ (remaining_iter > 0) then []
      else if hd.chunk > 0 ∧ remaining_iter > hd.chunk then
        if fresh = NULL then []
        else if hd.counter = NULL then [.lock_subtask hd.mutex]
        else [.lock_subtask hd.mutex, .broadcast_subtask hd.cond, .unlock_subtask hd.mutex]
      else []

/-- The synchronisation calls of `subtask_queue_destroy` when its wait loop ran `waits` times
before the memory was `w`. -/
def subtask_queue_destroy_sync (waits : Nat) (w : World) : List Sync :=
  [.lock_queue] ++ List.replicate waits .wait_queue ++
    (if w.q.num_used ≠ 0 then [.wait_queue]
     else [.broadcast_queue, .unlock_queue])

/-- The synchronisation calls of `subtask_queue_enqueue` when its wait loop ran `waits` times
before the memory was `w`. -/
def subtask_queue_enqueue_sync (waits : Nat) (w : World) (p : Ptr) (env : Env) : List Sync :=
  [.lock_queue] ++ List.replicate waits .wait_queue ++
    (if w.q.num_used = w.q.capacity ∧ w.q.dead = 0 then [.wait_queue]
     else if w.q.dead ≠ 0 then [.unlock_queue]
     else
       match subtask_queue_enqueue w p env with
       | .returned _ => [.broadcast_queue, .unlock_queue]
       | _ => [])

/-- The synchronisation calls of `subtask_queue_dequeue` when its wait loop ran `waits` times
before the memory was `w`. -/
def subtask_queue_dequeue_sync (waits : Nat) (w : World) (env : Env) : List Sync :=
  [.lock_queue] ++ List.replicate waits .wait_queue ++
    (if w.q.num_used = 0 ∧ w.q.dead = 0 then [.wait_queue]
     else if w.q.dead ≠ 0 then [.unlock_queue]
     else
       jobqueue_get_subtask_chunk_sync w env.fresh ++
         (match jobqueue_get_subtask_chunk w 0 env.fresh with
          | .returned (p, _) => if p = NULL then [] else [.broadcast_queue, .unlock_queue]
          | _ => []))

/-- The synchronisation calls of `subtask_queue_steal` on the memory `w`. -/
def subtask_queue_steal_sync (w : World) (env : Env) : List Sync :=
  [.lock_queue] ++
    (if subtask_queue_is_empty w.q then [.broadcast_queue, .unlock_queue]
     else
       match slot_read w.q.buffer w.q.first with
       | none => []
       | some head =>
         match deref w head with
         | none => []
         | some hd =>
           if hd.chunk = 0 then [.broadcast_queue, .unlock_queue]
           else if w.q.dead ≠ 0 then [.unlock_queue]
           else
             jobqueue_get_subtask_chunk_sync w env.fresh ++
               (match jobqueue_get_subtask_chunk w 1 env.fresh with
                | .returned (p, _) =>
                  if p = NULL then [.unlock_queue] else [.broadcast_queue, .unlock_queue]
                | _ => []))

/-- The locks a thread holds: whether it holds the queue mutex, and which subtask mutex, if
any. -/
structure Held where
  queue : Bool
  subtask : Option Ptr
  deriving DecidableEq, Repr

/-- One synchronisation call under the lock discipline.  The queue mutex is taken only with no
lock held; a subtask mutex is taken only with the queue mutex held and no other subtask mutex;
the queue mutex is released, and the queue's condition variable waited on, only with the queue
mutex held and no subtask mutex; a subtask mutex is released only by its holder; broadcasts
need the matching mutex.  `none`: the call breaks the discipline. -/
def Held.step (h : Held) : Sync → Option Held
  | .lock_queue =>
    if h.queue = false ∧ h.subtask = none then some { h with queue := true } else none
  | .unlock_queue =>
    if h.queue = true ∧ h.subtask = none then some { h with queue := false } else none
  | .wait_queue => if h.queue = true ∧ h.subtask = none then some h else none
  | .broadcast_queue => if h.queue = true then some h else none
  | .lock_subtask m =>
    if h.queue = true ∧ h.subtask = none then some { h with subtask := some m } else none
  | .unlock_subtask m =>
    if h.queue = true ∧ h.subtask = some m then some { h with subtask := none } else none
  | .broadcast_subtask _ => if h.subtask.isSome then some h else none

/-- The locks held after a sequence of synchronisation calls that keeps the discipline;
`none` if one of the calls breaks it. -/
def Held.after : Held → List Sync → Option Held
  | h, [] => some h
  | h, e :: es =>
    match h.step e with
    | none => none
    | some h2 => h2.after es

/-! ## The chunk splitting routine in closed form -/

theorem deref_some {w : World} {p : Ptr} {hd : subtask} (h : deref w p = some hd) :
    p ≠ NULL ∧ w.mem p = some hd := by
  unfold deref at h
  by_cases hp : p = NULL
  · simp [hp] at h
  · simp [hp] at h
    exact ⟨hp, h⟩

theorem wrap32_of_in_int {x : Int} (h : in_int x) : wrap32 x = x := by
  unfold in_int INT_MIN INT_MAX at h
  unfold wrap32
  omega

theorem well_ranged_width {d : subtask} (h : well_ranged d) :
    wrap32 (d.end_ - d.start) = d.end_ - d.start := by
  unfold well_ranged in_int INT_MIN INT_MAX at h
  unfold wrap32
  omega

theorem well_ranged_cut {d : subtask} (h : well_ranged d) (hc : 0 < d.chunk)
    (hr : d.chunk < d.end_ - d.start) :
    wrap32 (d.end_ - d.chunk) = d.end_ - d.chunk ∧
      wrap32 (d.start + d.chunk) = d.start + d.chunk := by
  unfold well_ranged in_int INT_MIN INT_MAX at h
  unfold wrap32
  omega

theorem well_ranged_rest (b : Bool) {d : subtask} (h : well_ranged d) (hc : 0 < d.chunk)
    (hr : d.chunk < d.end_ - d.start) : well_ranged (rest_of b d) := by
  unfold well_ranged in_int INT_MIN INT_MAX at h
  unfold well_ranged in_int INT_MIN INT_MAX rest_of
  cases b <;> simp [shrink_front, shrink_back] <;> omega

/-- A range of `int` indices wider than `INT_MAX` fails the assertion of the routine. -/
theorem wide_range_wraps {d : subtask} (hs : in_int d.start) (he : in_int d.end_)
    (hw : ¬ d.end_ - d.start ≤ INT_MAX) : ¬ 0 < wrap32 (d.end_ - d.start) := by
  unfold in_int INT_MIN INT_MAX at hs he
  unfold INT_MAX at hw
  unfold wrap32
  omega

theorem incremented_exact (n : Nat) : ∀ (x : Int), in_int x → x + (n : Int) ≤ INT_MAX →
    incremented n x = x + (n : Int) := by
  induction n with
  | zero => intro x _ _; simp [incremented]
  | succ k ih =>
    intro x hx hle
    have h1 : wrap32 (x + 1) = x + 1 := by
      apply wrap32_of_in_int
      unfold in_int INT_MIN INT_MAX at hx ⊢
      unfold INT_MAX at hle
      push_cast at hle
      omega
    show incremented k (wrap32 (x + 1)) = x + ((k + 1 : Nat) : Int)
    rw [h1, ih (x + 1)]
    · push_cast
      ring
    · unfold in_int INT_MIN INT_MAX at hx ⊢
      unfold INT_MAX at hle
      push_cast at hle
      omega
    · push_cast at hle ⊢
      omega

/-- The routine does not write the `counter` field of the head entry. -/
theorem split_counter {mem : Ptr → Option subtask} {hp fresh : Ptr} {hd : subtask}
    (hmem : mem hp = some hd) (f g : subtask → subtask)
    (hf : ∀ s, (f s).counter = s.counter) (hg : ∀ s, (g s).counter = s.counter) :
    (peek (modify (modify (store mem fresh hd) fresh f) hp g) hp hd).counter = hd.counter := by
  unfold peek modify store
  by_cases h : hp = fresh
  · simp [h, hf, hg]
  · simp [h, hmem, hg]

/-- Where the three range computations of the routine do not leave the `int` range, the
routine does what the routine with exact arithmetic does. -/
theorem chunk_exact_eq {w : World} {hp : Ptr} {hd : subtask} (from_end : Int) (fresh : Ptr)
    (hs : slot_read w.q.buffer w.q.first = some hp) (hm : deref w hp = some hd)
    (h1 : wrap32 (hd.end_ - hd.start) = hd.end_ - hd.start)
    (h2 : 0 < hd.chunk → hd.chunk < hd.end_ - hd.start →
      wrap32 (hd.end_ - hd.chunk) = hd.end_ - hd.chunk ∧
      wrap32 (hd.start + hd.chunk) = hd.start + hd.chunk) :
    jobqueue_get_subtask_chunk w from_end fresh
      = jobqueue_get_subtask_chunk_exact w from_end fresh := by
  have hmem := (deref_some hm).2
  unfold jobqueue_get_subtask_chunk jobqueue_get_subtask_chunk_exact
  simp only [hs, hm, h1]
  split
  · rfl
  · split
    · rename_i hsplit
      obtain ⟨hw2, hw3⟩ := h2 hsplit.1 hsplit.2
      split
      · rfl
      · by_cases hfh : fresh = hp
        · subst hfh
          have e0 : peek (store w.mem fresh hd) fresh hd = hd := by simp [peek, store]
          simp only [e0, hw2, hw3]
          by_cases hfe : from_end ≠ 0
          · simp only [if_pos hfe]
          · simp only [if_neg hfe]
            have e1 : modify (modify (store w.mem fresh hd) fresh
                  (fun s => { s with end_ := hd.start + hd.chunk })) fresh
                  (fun s => { s with start := wrap32 (s.start + s.chunk) })
                = modify (modify (store w.mem fresh hd) fresh
                  (fun s => { s with end_ := hd.start + hd.chunk })) fresh
                  (fun s => { s with start := s.start + s.chunk }) := by
              funext x
              by_cases hx : x = fresh
              · subst hx
                simp [modify, store, hw3]
              · simp [modify, hx]
            rw [e1]
        · have hne2 : ¬ hp = fresh := fun h => hfh h.symm
          have e0 : peek (store w.mem fresh hd) hp hd = hd := by
            simp [peek, store, hne2, hmem]
          simp only [e0, hw2, hw3]
          by_cases hfe : from_end ≠ 0
          · simp only [if_pos hfe]
          · simp only [if_neg hfe]
            have e1 : modify (modify (store w.mem fresh hd) fresh
                  (fun s => { s with end_ := hd.start + hd.chunk })) hp
                  (fun s => { s with start := wrap32 (s.start + s.chunk) })
                = modify (modify (store w.mem fresh hd) fresh
                  (fun s => { s with end_ := hd.start + hd.chunk })) hp
                  (fun s => { s with start := s.start + s.chunk }) := by
              funext x
              by_cases hx : x = hp
              · subst hx
                simp [modify, store, hne2, hmem, hw3]
              · simp [modify, hx]
            rw [e1]
    · rfl

theorem chunk_exact_of_well_ranged {w : World} {hp : Ptr} {hd : subtask} (from_end : Int)
    (fresh : Ptr) (hs : slot_read w.q.buffer w.q.first = some hp) (hm : deref w hp = some hd)
    (hwr : well_ranged hd) :
    jobqueue_get_subtask_chunk w from_end fresh
      = jobqueue_get_subtask_chunk_exact w from_end fresh :=
  chunk_exact_eq from_end fresh hs hm (well_ranged_width hwr)
    (fun hc hr => well_ranged_cut hwr hc hr)

theorem chunk_split_front {w : World} {hp fresh : Ptr} {hd : subtask}
    (hs : slot_read w.q.buffer w.q.first = some hp) (hm : deref w hp = some hd)
    (hwr : well_ranged hd) (hc : 0 < hd.chunk) (hr : hd.chunk < hd.end_ - hd.start)
    (hctr : hd.counter ≠ NULL) (hf : fresh ≠ NULL) (hne : fresh ≠ hp) :
    jobqueue_get_subtask_chunk w 0 fresh
      = .returned (fresh, after_split w hp fresh (piece_front hd) (shrink_front hd)) := by
  rw [chunk_exact_of_well_ranged 0 fresh hs hm hwr]
  have hpos : 0 < hd.end_ - hd.start := by omega
  have hne2 : ¬ hp = fresh := fun h => hne h.symm
  have hmem := (deref_some hm).2
  have e1 : peek (store w.mem fresh hd) hp hd = hd := by simp [peek, store, hne2, hmem]
  simp only [jobqueue_get_subtask_chunk_exact, hs, hm, after_split]
  simp only [gt_iff_lt, hpos, not_true_eq_false, if_false, hc, hr, and_self, if_true, hf,
    ne_eq, e1, one_ne_zero, not_false_eq_true]
  split
  · rename_i hnull
    refine absurd (Eq.trans (Eq.symm (split_counter hmem _ _ ?_ ?_)) hnull) hctr <;>
      intro s <;> rfl
  · congr 3
    · funext x
      by_cases hx : x = hp
      · subst hx
        simp [modify, store, hne2, hmem, shrink_front]
      · by_cases hy : x = fresh
        · subst hy
          simp [modify, store, hx, piece_front]
        · simp [modify, store, hx, hy]
    · simp [peek, modify, store, hne2, hmem, shrink_front]

theorem chunk_split_back {w : World} {hp fresh : Ptr} {hd : subtask}
    (hs : slot_read w.q.buffer w.q.first = some hp) (hm : deref w hp = some hd)
    (hwr : well_ranged hd) (hc : 0 < hd.chunk) (hr : hd.chunk < hd.end_ - hd.start)
    (hctr : hd.counter ≠ NULL) (hf : fresh ≠ NULL) (hne : fresh ≠ hp) :
    jobqueue_get_subtask_chunk w 1 fresh
      = .returned (fresh, after_split w hp fresh (piece_back hd) (shrink_back hd)) := by
  rw [chunk_exact_of_well_ranged 1 fresh hs hm hwr]
  have hpos : 0 < hd.end_ - hd.start := by omega
  have hne2 : ¬ hp = fresh := fun h => hne h.symm
  have hmem := (deref_some hm).2
  have e1 : peek (store w.mem fresh hd) hp hd = hd := by simp [peek, store, hne2, hmem]
  simp only [jobqueue_get_subtask_chunk_exact, hs, hm, after_split]
  simp only [gt_iff_lt, hpos, not_true_eq_false, if_false, hc, hr, and_self, if_true, hf,
    ne_eq, e1, one_ne_zero, not_false_eq_true]
  split
  · rename_i hnull
    refine absurd (Eq.trans (Eq.symm (split_counter hmem _ _ ?_ ?_)) hnull) hctr <;>
      intro s <;> rfl
  · congr 3
    · funext x
      by_cases hx : x = hp
      · subst hx
        simp [modify, store, hne2, hmem, shrink_back, peek]
      · by_cases hy : x = fresh
        · subst hy
          simp [modify, store, hx, piece_back]
        · simp [modify, store, hx, hy]
    · simp [peek, modify, store, hne2, hmem, shrink_back]

theorem chunk_whole {w : World} {hp fresh : Ptr} {hd : subtask} (from_end : Int)
    (hs : slot_read w.q.buffer w.q.first = some hp) (hm : deref w hp = some hd)
    (hwr : well_ranged hd) (hno : ¬ (0 < hd.chunk ∧ hd.chunk < hd.end_ - hd.start))
    (hcap : w.q.capacity ≠ 0) :
    jobqueue_get_subtask_chunk w from_end fresh = .returned (hp, after_removal w) := by
  have hpos2 : 0 < hd.end_ - hd.start := by
    have := hwr.2.2.1
    omega
  simp only [jobqueue_get_subtask_chunk, hs, hm, after_removal, c_mod, well_ranged_width hwr]
  simp [hpos2, hno, hcap]

/-- A head entry whose `int` width is not positive trips the assertion. -/
theorem chunk_assert_fails {w : World} {hp : Ptr} {hd : subtask} (from_end : Int) (fresh : Ptr)
    (hs : slot_read w.q.buffer w.q.first = some hp) (hm : deref w hp = some hd)
    (hw : ¬ 0 < wrap32 (hd.end_ - hd.start)) :
    jobqueue_get_subtask_chunk w from_end fresh = .crashed := by
  simp only [jobqueue_get_subtask_chunk, hs, hm]
  simp [hw]

/-- A split through a `NULL` counter pointer kills the process. -/
theorem chunk_null_counter {w : World} {hp : Ptr} {hd : subtask} (fe : Int) (fresh : Ptr)
    (hs : slot_read w.q.buffer w.q.first = some hp) (hm : deref w hp = some hd)
    (hpos : ¬ ¬ (wrap32 (hd.end_ - hd.start) > 0))
    (hsplit : hd.chunk > 0 ∧ wrap32 (hd.end_ - hd.start) > hd.chunk)
    (hc : hd.counter = NULL) :
    jobqueue_get_subtask_chunk w fe fresh = .crashed := by
  have hmem := (deref_some hm).2
  unfold jobqueue_get_subtask_chunk
  simp only [hs, hm]
  rw [if_neg hpos, if_pos hsplit]
  split
  · rfl
  by_cases hfe : fe ≠ 0
  · simp only [if_pos hfe]
    split
    · rfl
    · rename_i hnull
      apply absurd _ hnull
      refine Eq.trans (split_counter hmem _ _ ?_ ?_) hc <;> intro s <;> rfl
  · simp only [if_neg hfe]
    split
    · rfl
    · rename_i hnull
      apply absurd _ hnull
      refine Eq.trans (split_counter hmem _ _ ?_ ?_) hc <;> intro s <;> rfl

/-! ## The queue operations on top of the chunk routine -/

@[simp] theorem dequeue_exit_mem (w1 : World) (env : Env) :
    (dequeue_exit w1 env).mem = w1.mem := rfl

@[simp] theorem dequeue_exit_ints (w1 : World) (env : Env) :
    (dequeue_exit w1 env).ints = w1.ints := rfl

@[simp] theorem dequeue_exit_core (w1 : World) (env : Env) :
    (dequeue_exit w1 env).q.capacity = w1.q.capacity ∧
    (dequeue_exit w1 env).q.first = w1.q.first ∧
    (dequeue_exit w1 env).q.num_used = w1.q.num_used ∧
    (dequeue_exit w1 env).q.buffer = w1.q.buffer ∧
    (dequeue_exit w1 env).q.dead = w1.q.dead ∧
    (dequeue_exit w1 env).q.profile = w1.q.profile := by
  unfold dequeue_exit
  by_cases h : w1.q.profile ≠ 0 <;> simp [h, record_dequeue]

@[simp] theorem steal_exit_mem (k : Int) (w1 : World) (env : Env) :
    (steal_exit k w1 env).mem = w1.mem := rfl

@[simp] theorem steal_exit_ints (k : Int) (w1 : World) (env : Env) :
    (steal_exit k w1 env).ints = w1.ints := rfl

@[simp] theorem steal_exit_core (k : Int) (w1 : World) (env : Env) :
    (steal_exit k w1 env).q.capacity = w1.q.capacity ∧
    (steal_exit k w1 env).q.first = w1.q.first ∧
    (steal_exit k w1 env).q.num_used = w1.q.num_used ∧
    (steal_exit k w1 env).q.buffer = w1.q.buffer ∧
    (steal_exit k w1 env).q.dead = w1.q.dead ∧
    (steal_exit k w1 env).q.profile = w1.q.profile := by
  unfold steal_exit
  by_cases h : w1.q.profile ≠ 0 ∧ k ≠ 0 <;> simp [h, record_dequeue]

theorem dequeue_of_chunk {w w1 : World} {env : Env} {p : Ptr}
    (hlive : w.q.dead = 0) (hne : w.q.num_used ≠ 0)
    (hg : jobqueue_get_subtask_chunk w 0 env.fresh = .returned (p, w1)) (hp : p ≠ NULL) :
    subtask_queue_dequeue w env = .returned ⟨0, some p, dequeue_exit w1 env⟩ := by
  simp [subtask_queue_dequeue, hlive, hne, hg, hp, dequeue_exit]

theorem steal_of_chunk {w w1 : World} {env : Env} {p hp : Ptr} {hd : subtask}
    (hlive : w.q.dead = 0) (hne : w.q.num_used ≠ 0)
    (hs : slot_read w.q.buffer w.q.first = some hp) (hm : deref w hp = some hd)
    (hc : hd.chunk ≠ 0)
    (hg : jobqueue_get_subtask_chunk w 1 env.fresh = .returned (p, w1)) (hpn : p ≠ NULL) :
    subtask_queue_steal w env = .returned ⟨0, some p, steal_exit w.q.profile w1 env⟩ := by
  simp [subtask_queue_steal, subtask_queue_is_empty, hlive, hne, hs, hm, hc, hg, hpn, steal_exit]

theorem dequeue_split {w : World} {env : Env} {hp : Ptr} {hd : subtask}
    (hlive : w.q.dead = 0) (hne : w.q.num_used ≠ 0)
    (hs : slot_read w.q.buffer w.q.first = some hp) (hm : deref w hp = some hd)
    (hwr : well_ranged hd) (hc : 0 < hd.chunk) (hr : hd.chunk < hd.end_ - hd.start)
    (hctr : hd.counter ≠ NULL) (hf : env.fresh ≠ NULL) (hfr : env.fresh ≠ hp) :
    subtask_queue_dequeue w env = .returned ⟨0, some env.fresh,
      dequeue_exit (after_split w hp env.fresh (piece_front hd) (shrink_front hd)) env⟩ :=
  dequeue_of_chunk hlive hne (chunk_split_front hs hm hwr hc hr hctr hf hfr) hf

theorem steal_split {w : World} {env : Env} {hp : Ptr} {hd : subtask}
    (hlive : w.q.dead = 0) (hne : w.q.num_used ≠ 0)
    (hs : slot_read w.q.buffer w.q.first = some hp) (hm : deref w hp = some hd)
    (hwr : well_ranged hd) (hc : 0 < hd.chunk) (hr : hd.chunk < hd.end_ - hd.start)
    (hctr : hd.counter ≠ NULL) (hf : env.fresh ≠ NULL) (hfr : env.fresh ≠ hp) :
    subtask_queue_steal w env = .returned ⟨0, some env.fresh,
      steal_exit w.q.profile
        (after_split w hp env.fresh (piece_back hd) (shrink_back hd)) env⟩ :=
  steal_of_chunk hlive hne hs hm (by omega) (chunk_split_back hs hm hwr hc hr hctr hf hfr) hf

theorem dequeue_whole {w : World} {env : Env} {hp : Ptr} {hd : subtask}
    (hlive : w.q.dead = 0) (hne : w.q.num_used ≠ 0)
    (hs : slot_read w.q.buffer w.q.first = some hp) (hm : deref w hp = some hd)
    (hpos : well_ranged hd) (hno : ¬ (0 < hd.chunk ∧ hd.chunk < hd.end_ - hd.start))
    (hcap : w.q.capacity ≠ 0) :
    subtask_queue_dequeue w env
      = .returned ⟨0, some hp, dequeue_exit (after_removal w) env⟩ :=
  dequeue_of_chunk hlive hne (chunk_whole 0 hs hm hpos hno hcap) (deref_some hm).1

theorem steal_whole {w : World} {env : Env} {hp : Ptr} {hd : subtask}
    (hlive : w.q.dead = 0) (hne : w.q.num_used ≠ 0)
    (hs : slot_read w.q.buffer w.q.first = some hp) (hm : deref w hp = some hd)
    (hc : hd.chunk ≠ 0)
    (hpos : well_ranged hd) (hno : ¬ (0 < hd.chunk ∧ hd.chunk < hd.end_ - hd.start))
    (hcap : w.q.capacity ≠ 0) :
    subtask_queue_steal w env
      = .returned ⟨0, some hp, steal_exit w.q.profile (after_removal w) env⟩ :=
  steal_of_chunk hlive hne hs hm hc (chunk_whole 1 hs hm hpos hno hcap) (deref_some hm).1

theorem steal_empty {w : World} (env : Env) (hlive : w.q.dead = 0) (he : w.q.num_used = 0) :
    subtask_queue_steal w env = .returned ⟨0, none, w⟩ := by
  simp [subtask_queue_steal, subtask_queue_is_empty, hlive, he]

theorem steal_unsplittable {w : World} (env : Env) {hp : Ptr} {hd : subtask}
    (hne : w.q.num_used ≠ 0)
    (hs : slot_read w.q.buffer w.q.first = some hp) (hm : deref w hp = some hd)
    (hc : hd.chunk = 0) :
    subtask_queue_steal w env = .returned ⟨0, none, w⟩ := by
  simp [subtask_queue_steal, subtask_queue_is_empty, hne, hs, hm, hc]

theorem enqueue_dead {w : World} (p : Ptr) (env : Env) (hd : w.q.dead ≠ 0) :
    subtask_queue_enqueue w p env = .returned ⟨-1, none, w⟩ := by
  simp [subtask_queue_enqueue, hd]

theorem dequeue_dead {w : World} (env : Env) (hd : w.q.dead ≠ 0) :
    subtask_queue_dequeue w env = .returned ⟨-1, none, w⟩ := by
  simp [subtask_queue_dequeue, hd]

/-! ## What a returning call can have done -/

theorem chunk_cases {w : World} {from_end : Int} {fresh p : Ptr} {w1 : World}
    (h : jobqueue_get_subtask_chunk w from_end fresh = .returned (p, w1)) :
    ∃ hp hd, slot_read w.q.buffer w.q.first = some hp ∧ deref w hp = some hd ∧
      0 < wrap32 (hd.end_ - hd.start) ∧
      ((0 < hd.chunk ∧ hd.chunk < wrap32 (hd.end_ - hd.start) ∧ p = fresh ∧ fresh ≠ NULL ∧
          w1.q = w.q ∧ (∀ x, x ≠ hp → x ≠ fresh → w1.mem x = w.mem x) ∧
          hd.counter ≠ NULL ∧ w1.ints = bump w.ints hd.counter) ∨
       (¬ (0 < hd.chunk ∧ hd.chunk < wrap32 (hd.end_ - hd.start)) ∧ p = hp ∧
          w.q.capacity ≠ 0 ∧ w1 = after_removal w)) := by
  unfold jobqueue_get_subtask_chunk at h
  cases hs : slot_read w.q.buffer w.q.first with
  | none => simp [hs] at h
  | some hp =>
    cases hm : deref w hp with
    | none => simp [hs, hm] at h
    | some hd =>
      simp only [hs, hm] at h
      have hmem := (deref_some hm).2
      refine ⟨hp, hd, rfl, hm, ?_⟩
      split at h
      · exact Outcome.noConfusion h
      · rename_i hpos
        have hpos2 : 0 < wrap32 (hd.end_ - hd.start) := by
          simpa using hpos
        refine ⟨hpos2, ?_⟩
        split at h
        · rename_i hsplit
          split at h
          · exact Outcome.noConfusion h
          · rename_i hfn
            left
            refine ⟨hsplit.1, hsplit.2, ?_⟩
            by_cases hfe : from_end ≠ 0
            · simp only [if_pos hfe] at h
              split at h
              · exact Outcome.noConfusion h
              · rename_i hctr
                have hctr2 : hd.counter ≠ NULL := by
                  intro h0
                  apply hctr
                  refine Eq.trans (split_counter hmem _ _ ?_ ?_) h0 <;> intro s <;> rfl
                cases h
                refine ⟨rfl, hfn, rfl, ?_, hctr2, ?_⟩
                · intro x hx1 hx2
                  simp [modify, store, hx1, hx2]
                · refine congrArg (bump w.ints) ?_
                  refine split_counter hmem _ _ ?_ ?_ <;> intro s <;> rfl
            · simp only [if_neg hfe] at h
              split at h
              · exact Outcome.noConfusion h
              · rename_i hctr
                have hctr2 : hd.counter ≠ NULL := by
                  intro h0
                  apply hctr
                  refine Eq.trans (split_counter hmem _ _ ?_ ?_) h0 <;> intro s <;> rfl
                cases h
                refine ⟨rfl, hfn, rfl, ?_, hctr2, ?_⟩
                · intro x hx1 hx2
                  simp [modify, store, hx1, hx2]
                · refine congrArg (bump w.ints) ?_
                  refine split_counter hmem _ _ ?_ ?_ <;> intro s <;> rfl
        · rename_i hsplit
          right
          cases hc : c_mod (w.q.first + 1) w.q.capacity with
          | none => simp [hc] at h
          | some f1 =>
            simp only [hc] at h
            cases h
            have hcap : w.q.capacity ≠ 0 := by
              intro h0
              simp [c_mod, h0] at hc
            refine ⟨hsplit, rfl, hcap, ?_⟩
            simp only [c_mod, hcap, if_false, Option.some.injEq] at hc
            simp [after_removal, hc]

theorem extract_cases {w : World} {c : Call} {r : Ret} (h : extract w c = .returned r) :
    (r.out = none ∧ r.w = w) ∨
    (∃ p w1, jobqueue_get_subtask_chunk w (if c.steal then 1 else 0) c.env.fresh
        = .returned (p, w1) ∧
      w.q.dead = 0 ∧ w.q.num_used ≠ 0 ∧ r.out = some p ∧
      r.w.mem = w1.mem ∧ r.w.ints = w1.ints ∧ r.w.q.capacity = w1.q.capacity ∧
      r.w.q.first = w1.q.first ∧ r.w.q.num_used = w1.q.num_used ∧
      r.w.q.buffer = w1.q.buffer ∧ r.w.q.dead = w1.q.dead) := by
  unfold extract at h
  by_cases hst : c.steal = true
  · rw [if_pos hst] at h
    unfold subtask_queue_steal at h
    simp only at h
    split at h
    · cases h
      exact Or.inl ⟨rfl, rfl⟩
    · rename_i hemp
      cases hs : slot_read w.q.buffer w.q.first with
      | none => simp [hs] at h
      | some hp =>
        cases hm : deref w hp with
        | none => simp [hs, hm] at h
        | some hd =>
          simp only [hs, hm] at h
          split at h
          · cases h
            exact Or.inl ⟨rfl, rfl⟩
          · split at h
            · cases h
              exact Or.inl ⟨rfl, rfl⟩
            · rename_i hdead
              have hlive : w.q.dead = 0 := by
                simpa using hdead
              have hne : w.q.num_used ≠ 0 := by
                intro h0
                simp [subtask_queue_is_empty, h0, hlive] at hemp
              cases hg : jobqueue_get_subtask_chunk w 1 c.env.fresh with
              | blocked => simp [hg] at h
              | crashed => simp [hg] at h
              | returned pw =>
                obtain ⟨p, w1⟩ := pw
                simp only [hg] at h
                right
                refine ⟨p, w1, by simpa [hst] using hg, hlive, hne, ?_⟩
                split at h
                · cases h
                  exact ⟨rfl, rfl, rfl, rfl, rfl, rfl, rfl, rfl⟩
                · cases h
                  have hc := steal_exit_core w.q.profile w1 c.env
                  exact ⟨rfl, rfl, rfl, hc.1, hc.2.1, hc.2.2.1, hc.2.2.2.1, hc.2.2.2.2.1⟩
  · rw [if_neg hst] at h
    unfold subtask_queue_dequeue at h
    split at h
    · exact Outcome.noConfusion h
    · rename_i hblk
      split at h
      · cases h
        exact Or.inl ⟨rfl, rfl⟩
      · rename_i hdead
        have hlive : w.q.dead = 0 := by
          simpa using hdead
        have hne : w.q.num_used ≠ 0 := by
          intro h0
          exact hblk ⟨h0, hlive⟩
        cases hg : jobqueue_get_subtask_chunk w 0 c.env.fresh with
        | blocked => simp [hg] at h
        | crashed => simp [hg] at h
        | returned pw =>
          obtain ⟨p, w1⟩ := pw
          simp only [hg] at h
          right
          refine ⟨p, w1, by simpa [hst] using hg, hlive, hne, ?_⟩
          split at h
          · exact Outcome.noConfusion h
          · cases h
            have hc := dequeue_exit_core w1 c.env
            exact ⟨rfl, rfl, rfl, hc.1, hc.2.1, hc.2.2.1, hc.2.2.2.1, hc.2.2.2.2.1⟩

theorem extract_split {w : World} {c : Call} {hp : Ptr} {hd : subtask}
    (hlive : w.q.dead = 0) (hne : w.q.num_used ≠ 0)
    (hs : slot_read w.q.buffer w.q.first = some hp) (hm : deref w hp = some hd)
    (hwr : well_ranged hd) (hc : 0 < hd.chunk) (hr : hd.chunk < hd.end_ - hd.start)
    (hctr : hd.counter ≠ NULL) (hf : c.env.fresh ≠ NULL) (hfr : c.env.fresh ≠ hp) :
    ∃ r, extract w c = .returned r ∧ r.code = 0 ∧ r.out = some c.env.fresh ∧
      r.w.mem = store (store w.mem c.env.fresh (piece_of c.steal hd)) hp (rest_of c.steal hd) ∧
      r.w.ints = bump w.ints hd.counter ∧
      r.w.q.capacity = w.q.capacity ∧ r.w.q.first = w.q.first ∧
      r.w.q.num_used = w.q.num_used ∧ r.w.q.buffer = w.q.buffer ∧ r.w.q.dead = w.q.dead := by
  unfold extract
  by_cases hst : c.steal = true
  · rw [if_pos hst, steal_split hlive hne hs hm hwr hc hr hctr hf hfr]
    refine ⟨_, rfl, rfl, rfl, ?_⟩
    have hcore := steal_exit_core w.q.profile
      (after_split w hp c.env.fresh (piece_back hd) (shrink_back hd)) c.env
    simp only [steal_exit_mem, steal_exit_ints, hcore]
    simp [after_split, piece_of, rest_of, hst, shrink_back]
  · rw [if_neg hst, dequeue_split hlive hne hs hm hwr hc hr hctr hf hfr]
    refine ⟨_, rfl, rfl, rfl, ?_⟩
    have hcore := dequeue_exit_core
      (after_split w hp c.env.fresh (piece_front hd) (shrink_front hd)) c.env
    simp only [dequeue_exit_mem, dequeue_exit_ints, hcore]
    simp [after_split, piece_of, rest_of, hst, shrink_front]

theorem extract_whole {w : World} {c : Call} {hp : Ptr} {hd : subtask}
    (hlive : w.q.dead = 0) (hne : w.q.num_used ≠ 0)
    (hs : slot_read w.q.buffer w.q.first = some hp) (hm : deref w hp = some hd)
    (hc : hd.chunk ≠ 0 ∨ c.steal = false)
    (hpos : well_ranged hd) (hno : ¬ (0 < hd.chunk ∧ hd.chunk < hd.end_ - hd.start))
    (hcap : w.q.capacity ≠ 0) :
    ∃ r, extract w c = .returned r ∧ r.code = 0 ∧ r.out = some hp ∧
      r.w.mem = w.mem ∧ r.w.ints = w.ints ∧
      r.w.q.capacity = w.q.capacity ∧
      r.w.q.first = Int.tmod (w.q.first + 1) w.q.capacity ∧
      r.w.q.num_used = w.q.num_used - 1 ∧ r.w.q.buffer = w.q.buffer ∧
      r.w.q.dead = w.q.dead := by
  unfold extract
  by_cases hst : c.steal = true
  · have hc2 : hd.chunk ≠ 0 := by
      rcases hc with h | h
      · exact h
      · rw [hst] at h
        exact Bool.noConfusion h
    rw [if_pos hst, steal_whole hlive hne hs hm hc2 hpos hno hcap]
    refine ⟨_, rfl, rfl, rfl, ?_⟩
    have hcore := steal_exit_core w.q.profile (after_removal w) c.env
    simp only [steal_exit_mem, steal_exit_ints, hcore]
    simp [after_removal]
  · rw [if_neg hst, dequeue_whole hlive hne hs hm hpos hno hcap]
    refine ⟨_, rfl, rfl, rfl, ?_⟩
    have hcore := dequeue_exit_core (after_removal w) c.env
    simp only [dequeue_exit_mem, dequeue_exit_ints, hcore]
    simp [after_removal]

theorem extract_nothing {w : World} {c : Call} {hp : Ptr} {hd : subtask}
    (hne : w.q.num_used ≠ 0)
    (hs : slot_read w.q.buffer w.q.first = some hp) (hm : deref w hp = some hd)
    (hc : hd.chunk = 0) (hst : c.steal = true) :
    extract w c = .returned ⟨0, none, w⟩ := by
  unfold extract
  rw [if_pos hst, steal_unsplittable c.env hne hs hm hc]

/-! ## Unfolding a run on one entry -/

theorem consume_cons_none {w : World} {c : Call} {cs : List Call} {r : Ret}
    (he : extract w c = .returned r) (ho : r.out = none) :
    consume w (c :: cs) = consume r.w cs := by
  simp [consume, he, ho]

theorem consume_cons_removed {w : World} {c : Call} {cs : List Call} {r : Ret} {p : Ptr}
    {d : subtask} (he : extract w c = .returned r) (ho : r.out = some p)
    (hd : deref r.w p = some d) (hn : r.w.q.num_used ≠ w.q.num_used) :
    consume w (c :: cs) = .returned ⟨[], some d, r.w⟩ := by
  simp [consume, he, ho, hd, hn]

theorem consume_cons_piece {w : World} {c : Call} {cs : List Call} {r : Ret} {p : Ptr}
    {d : subtask} {dr : Drained} (he : extract w c = .returned r) (ho : r.out = some p)
    (hd : deref r.w p = some d) (hn : r.w.q.num_used = w.q.num_used)
    (hrest : consume r.w cs = .returned dr) :
    consume w (c :: cs) = .returned ⟨⟨c.steal, p, d⟩ :: dr.pieces, dr.removed, dr.w⟩ := by
  simp [consume, he, ho, hd, hn, hrest]

/-! ## Ranges laid end to end -/

theorem tiles_single {a b : Int} (h : a < b) : Tiles a b [(a, b)] := by
  simp [Tiles, h]

theorem tiles_append {l1 : List (Int × Int)} : ∀ {s m e : Int} {l2 : List (Int × Int)},
    Tiles s m l1 → Tiles m e l2 → Tiles s e (l1 ++ l2) := by
  induction l1 with
  | nil =>
    intro s m e l2 h1 h2
    simp only [Tiles] at h1
    subst h1
    simpa using h2
  | cons r rs ih =>
    intro s m e l2 h1 h2
    simp only [Tiles] at h1
    simp only [List.cons_append, Tiles]
    exact ⟨h1.1, h1.2.1, ih h1.2.2 h2⟩

theorem tiles_le {l : List (Int × Int)} : ∀ {s e : Int}, Tiles s e l → s ≤ e := by
  induction l with
  | nil =>
    intro s e h
    simp only [Tiles] at h
    omega
  | cons r rs ih =>
    intro s e h
    simp only [Tiles] at h
    have := ih h.2.2
    omega

theorem tiles_covered {l : List (Int × Int)} : ∀ {s e : Int}, Tiles s e l →
    ∀ i, Covered l i ↔ s ≤ i ∧ i < e := by
  induction l with
  | nil =>
    intro s e h i
    simp only [Tiles] at h
    simp only [Covered, List.not_mem_nil, false_and, exists_false, false_iff]
    omega
  | cons r rs ih =>
    intro s e h i
    simp only [Tiles] at h
    have hle := tiles_le h.2.2
    have hrec := ih h.2.2 i
    simp only [Covered] at hrec ⊢
    constructor
    · rintro ⟨x, hx, h1, h2⟩
      rcases List.mem_cons.mp hx with hx | hx
      · subst hx
        omega
      · have := hrec.mp ⟨x, hx, h1, h2⟩
        omega
    · intro hi
      by_cases hlt : i < r.2
      · exact ⟨r, List.mem_cons_self _ _, by omega, hlt⟩
      · obtain ⟨x, hx, h1, h2⟩ := hrec.mpr ⟨by omega, hi.2⟩
        exact ⟨x, List.mem_cons_of_mem _ hx, h1, h2⟩

theorem tiles_from {l : List (Int × Int)} : ∀ {s e : Int}, Tiles s e l →
    ∀ x, x ∈ l → s ≤ x.1 ∧ x.1 < x.2 ∧ x.2 ≤ e := by
  induction l with
  | nil =>
    intro s e _ x hx
    exact absurd hx (List.not_mem_nil x)
  | cons r rs ih =>
    intro s e h x hx
    simp only [Tiles] at h
    have hle := tiles_le h.2.2
    rcases List.mem_cons.mp hx with hx | hx
    · subst hx
      omega
    · have := ih h.2.2 x hx
      omega

theorem tiles_pairwise {l : List (Int × Int)} : ∀ {s e : Int}, Tiles s e l →
    l.Pairwise Disjoint2 := by
  induction l with
  | nil =>
    intro s e _
    exact List.Pairwise.nil
  | cons r rs ih =>
    intro s e h
    simp only [Tiles] at h
    refine List.Pairwise.cons ?_ (ih h.2.2)
    intro x hx
    have := tiles_from h.2.2 x hx
    exact Or.inl this.1

/-! ## A run of extraction calls on one entry -/

theorem same_job_refl (a : subtask) : same_job a a :=
  ⟨rfl, rfl, rfl, rfl, rfl, rfl⟩

theorem same_job_trans {a b c : subtask} (h1 : same_job a b) (h2 : same_job b c) :
    same_job a c :=
  ⟨h1.1.trans h2.1, h1.2.1.trans h2.2.1, h1.2.2.1.trans h2.2.2.1,
    h1.2.2.2.1.trans h2.2.2.2.1, h1.2.2.2.2.1.trans h2.2.2.2.2.1,
    h1.2.2.2.2.2.trans h2.2.2.2.2.2⟩

theorem same_job_rest (b : Bool) (hd : subtask) : same_job (rest_of b hd) hd := by
  cases b <;> exact ⟨rfl, rfl, rfl, rfl, rfl, rfl⟩

theorem same_job_piece (b : Bool) (hd : subtask) : same_job (piece_of b hd) hd := by
  cases b <;> exact ⟨rfl, rfl, rfl, rfl, rfl, rfl⟩

theorem fronts_cons_steal (p : Piece) (ps : List Piece) (h : p.steal = true) :
    fronts (p :: ps) = fronts ps ∧ backs (p :: ps) = range_of p.desc :: backs ps := by
  simp [fronts, backs, h]

theorem fronts_cons_owner (p : Piece) (ps : List Piece) (h : p.steal = false) :
    fronts (p :: ps) = range_of p.desc :: fronts ps ∧ backs (p :: ps) = backs ps := by
  simp [fronts, backs, h]

theorem consume_spec (calls : List Call) : ∀ (w : World) (hp : Ptr) (hd : subtask),
    w.q.dead = 0 → w.q.num_used ≠ 0 → w.q.capacity ≠ 0 →
    slot_read w.q.buffer w.q.first = some hp → deref w hp = some hd →
    well_ranged hd →
    (0 < hd.chunk → hd.chunk < hd.end_ - hd.start → hd.counter ≠ NULL) →
    (∀ c, c ∈ calls → c.env.fresh ≠ NULL ∧ c.env.fresh ≠ hp) →
    ∃ dr last, consume w calls = .returned dr ∧
      (dr.removed = some last ∨
        (dr.removed = none ∧ deref dr.w hp = some last ∧ dr.w.q.dead = 0 ∧
          dr.w.q.num_used = w.q.num_used ∧ dr.w.q.first = w.q.first ∧
          dr.w.q.buffer = w.q.buffer)) ∧
      same_job last hd ∧
      Tiles hd.start hd.end_
        (fronts dr.pieces ++ [range_of last] ++ (backs dr.pieces).reverse) ∧
      dr.w.ints hd.counter = incremented dr.pieces.length (w.ints hd.counter) ∧
      (∀ x, x ≠ hd.counter → dr.w.ints x = w.ints x) ∧
      (∀ p, p ∈ dr.pieces →
        same_job p.desc hd ∧ p.desc.end_ - p.desc.start = hd.chunk ∧ 0 < hd.chunk) ∧
      (dr.removed = some last →
        dr.w.q.num_used = w.q.num_used - 1 ∧
        dr.w.q.first = Int.tmod (w.q.first + 1) w.q.capacity ∧
        (0 < hd.chunk → last.end_ - last.start ≤ hd.chunk)) ∧
      hd.end_ - hd.start = dr.pieces.length * hd.chunk + (last.end_ - last.start) ∧
      (0 < hd.chunk → hd.end_ - hd.start ≤ calls.length → dr.removed ≠ none) := by
  induction calls with
  | nil =>
    intro w hp hd hlive hne hcap hs hm hwr _ _
    have hpos : hd.start < hd.end_ := hwr.2.2.1
    refine ⟨⟨[], none, w⟩, hd, rfl, Or.inr ⟨rfl, hm, hlive, rfl, rfl, rfl⟩, same_job_refl hd,
      ?_, ?_, ?_, ?_, ?_, ?_, ?_⟩
    · simpa [fronts, backs, range_of] using tiles_single hpos
    · rfl
    · intro x _
      rfl
    · intro p hpmem
      exact absurd hpmem (List.not_mem_nil p)
    · intro h
      exact Option.noConfusion h
    · simp
    · intro _ hle
      simp only [List.length_nil, Nat.cast_zero] at hle
      omega
  | cons c cs ih =>
    intro w hp hd hlive hne hcap hs hm hwr hcn0 hfresh
    have hpos : hd.start < hd.end_ := hwr.2.2.1
    have hfc := hfresh c (List.mem_cons_self _ _)
    have hfcs : ∀ c', c' ∈ cs → c'.env.fresh ≠ NULL ∧ c'.env.fresh ≠ hp :=
      fun c' hc' => hfresh c' (List.mem_cons_of_mem _ hc')
    have hmem := (deref_some hm).2
    have hpn := (deref_some hm).1
    by_cases hsplit : 0 < hd.chunk ∧ hd.chunk < hd.end_ - hd.start
    · have hcn : hd.counter ≠ NULL := hcn0 hsplit.1 hsplit.2
      obtain ⟨r, he, _, hout, hrmem, hrints, hrcap, hrfirst, hrnum, hrbuf, hrdead⟩ :=
        extract_split (c := c) hlive hne hs hm hwr hsplit.1 hsplit.2 hcn hfc.1 hfc.2
      have hpiece : deref r.w c.env.fresh = some (piece_of c.steal hd) := by
        simp [deref, hfc.1, hrmem, store, hfc.2]
      have hrest : deref r.w hp = some (rest_of c.steal hd) := by
        simp [deref, hpn, hrmem, store]
      have hrpos : well_ranged (rest_of c.steal hd) :=
        well_ranged_rest c.steal hwr hsplit.1 hsplit.2
      have hctr : (rest_of c.steal hd).counter = hd.counter := (same_job_rest _ _).2.2.2.1
      have hchk : (rest_of c.steal hd).chunk = hd.chunk := (same_job_rest _ _).2.2.1
      have hwid : (rest_of c.steal hd).end_ - (rest_of c.steal hd).start
          = hd.end_ - hd.start - hd.chunk := by
        cases hst : c.steal <;> simp [rest_of, shrink_back, shrink_front] <;> omega
      obtain ⟨dr, last, hcons, hlast, hjob, htiles, hcount, hother, hpieces, hrem, hsum,
          hlong⟩ :=
        ih r.w hp (rest_of c.steal hd) (by rw [hrdead]; exact hlive)
          (by rw [hrnum]; exact hne) (by rw [hrcap]; exact hcap)
          (by rw [hrbuf, hrfirst]; exact hs) hrest hrpos
          (fun _ _ => by rw [hctr]; exact hcn) hfcs
      refine ⟨_, last, consume_cons_piece he hout hpiece hrnum hcons, ?_, ?_, ?_, ?_, ?_, ?_, ?_,
        ?_, ?_⟩
      · rcases hlast with h | ⟨h1, h2, h3, h4, h5, h6⟩
        · exact Or.inl h
        · exact Or.inr ⟨h1, h2, h3, by rw [h4, hrnum], by rw [h5, hrfirst], by rw [h6, hrbuf]⟩
      · exact same_job_trans hjob (same_job_rest _ _)
      · show Tiles hd.start hd.end_
          (fronts (⟨c.steal, c.env.fresh, piece_of c.steal hd⟩ :: dr.pieces)
            ++ [range_of last]
            ++ (backs (⟨c.steal, c.env.fresh, piece_of c.steal hd⟩ :: dr.pieces)).reverse)
        cases hst : c.steal with
        | true =>
          rw [hst] at htiles
          rw [(fronts_cons_steal ⟨true, c.env.fresh, piece_of true hd⟩ dr.pieces rfl).1,
            (fronts_cons_steal ⟨true, c.env.fresh, piece_of true hd⟩ dr.pieces rfl).2,
            List.reverse_cons, ← List.append_assoc]
          refine tiles_append htiles ?_
          have : (hd.end_ - hd.chunk) < hd.end_ := by omega
          simpa [range_of, piece_of, piece_back, rest_of, shrink_back] using tiles_single this
        | false =>
          rw [hst] at htiles
          rw [(fronts_cons_owner ⟨false, c.env.fresh, piece_of false hd⟩ dr.pieces rfl).1,
            (fronts_cons_owner ⟨false, c.env.fresh, piece_of false hd⟩ dr.pieces rfl).2]
          simp only [List.cons_append, Tiles]
          refine ⟨?_, ?_, ?_⟩
          · simp [range_of, piece_of, piece_front]
          · simp [range_of, piece_of, piece_front]
            omega
          · simpa [range_of, piece_of, piece_front, rest_of, shrink_front] using htiles
      · rw [hctr] at hcount
        rw [hcount, hrints]
        simp only [bump, if_true, List.length_cons]
        rfl
      · intro x hx
        rw [hctr] at hother
        rw [hother x hx, hrints]
        simp [bump, hx]
      · intro p hpm
        rcases List.mem_cons.mp hpm with hpe | hpe
        · subst hpe
          refine ⟨same_job_piece _ _, ?_, hsplit.1⟩
          cases hst : c.steal <;> simp [piece_of, piece_back, piece_front]
        · obtain ⟨h1, h2, h3⟩ := hpieces p hpe
          rw [hchk] at h2 h3
          exact ⟨same_job_trans h1 (same_job_rest _ _), h2, h3⟩
      · intro hr
        obtain ⟨h1, h2, h3⟩ := hrem hr
        rw [hchk] at h3
        rw [hrnum] at h1
        rw [hrfirst, hrcap] at h2
        exact ⟨h1, h2, h3⟩
      · rw [hwid, hchk] at hsum
        simp only [List.length_cons, Nat.cast_add, Nat.cast_one]
        linarith
      · intro hcpos hle
        rw [hwid, hchk] at hlong
        refine hlong hcpos ?_
        simp only [List.length_cons, Nat.cast_add, Nat.cast_one] at hle
        omega
    · by_cases hnothing : hd.chunk = 0 ∧ c.steal = true
      · have he := extract_nothing (c := c) hne hs hm hnothing.1 hnothing.2
        obtain ⟨dr, last, hcons, h1, h2, h3, h4, h5, h6, h7, h8, _⟩ :=
          ih w hp hd hlive hne hcap hs hm hwr hcn0 hfcs
        refine ⟨dr, last, by rw [consume_cons_none he rfl]; exact hcons, h1, h2, h3, h4, h5,
          h6, h7, h8, ?_⟩
        intro hcpos
        omega
      · have hc : hd.chunk ≠ 0 ∨ c.steal = false := by
          by_cases h0 : hd.chunk = 0
          · right
            cases hst : c.steal
            · rfl
            · exact absurd ⟨h0, hst⟩ hnothing
          · exact Or.inl h0
        obtain ⟨r, he, _, hout, hrmem, hrints, hrcap, hrfirst, hrnum, hrbuf, hrdead⟩ :=
          extract_whole (c := c) hlive hne hs hm hc hwr hsplit hcap
        have hhead : deref r.w hp = some hd := by
          simp [deref, hpn, hrmem, hmem]
        have hchg : r.w.q.num_used ≠ w.q.num_used := by
          rw [hrnum]
          omega
        refine ⟨_, hd, consume_cons_removed he hout hhead hchg, Or.inl rfl, same_job_refl hd,
          ?_, ?_, ?_, ?_, ?_, ?_, ?_⟩
        · simpa [fronts, backs, range_of] using tiles_single hpos
        · simp [hrints, incremented]
        · intro x _
          simp [hrints]
        · intro p hpmem
          exact absurd hpmem (List.not_mem_nil p)
        · intro _
          refine ⟨hrnum, hrfirst, ?_⟩
          intro hcpos
          by_contra hcon
          exact hsplit ⟨hcpos, by omega⟩
        · simp
        · intro _ _ h
          exact Option.noConfusion h

/-! ## Head entries the routine cannot serve -/

theorem extract_stuck {w : World} {c : Call} {hp : Ptr} {hd : subtask}
    (hlive : w.q.dead = 0) (hne : w.q.num_used ≠ 0)
    (hs : slot_read w.q.buffer w.q.first = some hp) (hm : deref w hp = some hd)
    (hc : hd.chunk ≠ 0 ∨ c.steal = false)
    (hcr : ∀ fe fresh, jobqueue_get_subtask_chunk w fe fresh = .crashed) :
    extract w c = .crashed := by
  unfold extract
  by_cases hst : c.steal = true
  · have hc2 : hd.chunk ≠ 0 := by
      rcases hc with h | h
      · exact h
      · rw [hst] at h
        exact Bool.noConfusion h
    rw [if_pos hst]
    simp [subtask_queue_steal, subtask_queue_is_empty, hlive, hne, hs, hm, hc2, hcr]
  · rw [if_neg hst]
    simp [subtask_queue_dequeue, hlive, hne, hcr]

/-- When the routine dies on the head entry, a run of extraction calls hands out nothing: it
returns only if every call was a steal that found `chunk == 0`. -/
theorem consume_stuck (calls : List Call) : ∀ (w : World) (hp : Ptr) (hd : subtask),
    w.q.dead = 0 → w.q.num_used ≠ 0 →
    slot_read w.q.buffer w.q.first = some hp → deref w hp = some hd →
    (∀ fe fresh, jobqueue_get_subtask_chunk w fe fresh = .crashed) →
    ∀ dr, consume w calls = .returned dr →
      dr.pieces = [] ∧ dr.removed = none ∧ dr.w = w := by
  induction calls with
  | nil =>
    intro w hp hd _ _ _ _ _ dr hdr
    simp only [consume, Outcome.returned.injEq] at hdr
    rw [← hdr]
    exact ⟨rfl, rfl, rfl⟩
  | cons c cs ih =>
    intro w hp hd hlive hne hs hm hcr dr hdr
    by_cases hnothing : hd.chunk = 0 ∧ c.steal = true
    · have he := extract_nothing (c := c) hne hs hm hnothing.1 hnothing.2
      rw [consume_cons_none he rfl] at hdr
      exact ih w hp hd hlive hne hs hm hcr dr hdr
    · have hc : hd.chunk ≠ 0 ∨ c.steal = false := by
        by_cases h0 : hd.chunk = 0
        · right
          cases hst : c.steal
          · rfl
          · exact absurd ⟨h0, hst⟩ hnothing
        · exact Or.inl h0
      have he := extract_stuck (c := c) hlive hne hs hm hc hcr
      simp [consume, he] at hdr

/-- A run of extraction calls on a head entry whose `start` and `end` are `int` values with
`start < end`: whatever the run returns, the pieces handed out and the entry tile the range,
the counter was incremented once per piece, and every piece is one chunk wide.  (If the width
`end - start` is not an `int`, or the entry has to be split through a `NULL` counter pointer,
the run hands out nothing.) -/
theorem consume_legal (calls : List Call) (w : World) (hp : Ptr) (hd : subtask)
    (hlive : w.q.dead = 0) (hne : w.q.num_used ≠ 0) (hcap : w.q.capacity ≠ 0)
    (hs : slot_read w.q.buffer w.q.first = some hp) (hm : deref w hp = some hd)
    (hst : in_int hd.start) (hen : in_int hd.end_) (hse : hd.start < hd.end_)
    (hfresh : ∀ c, c ∈ calls → c.env.fresh ≠ NULL ∧ c.env.fresh ≠ hp) :
    ∀ dr, consume w calls = .returned dr →
    ∃ last,
      (dr.removed = some last ∨
        (dr.removed = none ∧ deref dr.w hp = some last ∧ dr.w.q.dead = 0 ∧
          dr.w.q.num_used = w.q.num_used ∧ dr.w.q.first = w.q.first ∧
          dr.w.q.buffer = w.q.buffer)) ∧
      same_job last hd ∧
      Tiles hd.start hd.end_
        (fronts dr.pieces ++ [range_of last] ++ (backs dr.pieces).reverse) ∧
      dr.w.ints hd.counter = incremented dr.pieces.length (w.ints hd.counter) ∧
      (∀ x, x ≠ hd.counter → dr.w.ints x = w.ints x) ∧
      (∀ p, p ∈ dr.pieces →
        same_job p.desc hd ∧ p.desc.end_ - p.desc.start = hd.chunk ∧ 0 < hd.chunk) ∧
      (dr.removed = some last →
        dr.w.q.num_used = w.q.num_used - 1 ∧
        dr.w.q.first = Int.tmod (w.q.first + 1) w.q.capacity ∧
        (0 < hd.chunk → last.end_ - last.start ≤ hd.chunk)) ∧
      hd.end_ - hd.start = dr.pieces.length * hd.chunk + (last.end_ - last.start) := by
  intro dr hdr
  have hstuck : (∀ fe fresh, jobqueue_get_subtask_chunk w fe fresh = .crashed) →
      ∃ last,
        (dr.removed = some last ∨
          (dr.removed = none ∧ deref dr.w hp = some last ∧ dr.w.q.dead = 0 ∧
            dr.w.q.num_used = w.q.num_used ∧ dr.w.q.first = w.q.first ∧
            dr.w.q.buffer = w.q.buffer)) ∧
        same_job last hd ∧
        Tiles hd.start hd.end_
          (fronts dr.pieces ++ [range_of last] ++ (backs dr.pieces).reverse) ∧
        dr.w.ints hd.counter = incremented dr.pieces.length (w.ints hd.counter) ∧
        (∀ x, x ≠ hd.counter → dr.w.ints x = w.ints x) ∧
        (∀ p, p ∈ dr.pieces →
          same_job p.desc hd ∧ p.desc.end_ - p.desc.start = hd.chunk ∧ 0 < hd.chunk) ∧
        (dr.removed = some last →
          dr.w.q.num_used = w.q.num_used - 1 ∧
          dr.w.q.first = Int.tmod (w.q.first + 1) w.q.capacity ∧
          (0 < hd.chunk → last.end_ - last.start ≤ hd.chunk)) ∧
        hd.end_ - hd.start = dr.pieces.length * hd.chunk + (last.end_ - last.start) := by
    intro hcr
    obtain ⟨h1, h2, h3⟩ := consume_stuck calls w hp hd hlive hne hs hm hcr dr hdr
    rw [h1, h2, h3]
    refine ⟨hd, Or.inr ⟨rfl, hm, hlive, rfl, rfl, rfl⟩, same_job_refl hd, ?_, rfl,
      fun _ _ => rfl, ?_, ?_, ?_⟩
    · simpa [fronts, backs, range_of] using tiles_single hse
    · intro p hpmem
      exact absurd hpmem (List.not_mem_nil p)
    · intro h
      exact Option.noConfusion h
    · simp
  by_cases hw : hd.end_ - hd.start ≤ INT_MAX
  · have hwr : well_ranged hd := ⟨hst, hen, hse, hw⟩
    by_cases hsafe : 0 < hd.chunk → hd.chunk < hd.end_ - hd.start → hd.counter ≠ NULL
    · obtain ⟨dr0, last, hcons, hlast, hjob, htiles, hcount, hother, hpieces, hrem, hsum, _⟩ :=
        consume_spec calls w hp hd hlive hne hcap hs hm hwr hsafe hfresh
      rw [hcons] at hdr
      cases hdr
      exact ⟨last, hlast, hjob, htiles, hcount, hother, hpieces, hrem, hsum⟩
    · push_neg at hsafe
      apply hstuck
      intro fe fresh
      exact chunk_null_counter fe fresh hs hm
        (by rw [well_ranged_width hwr]; simp only [gt_iff_lt, not_not]; omega)
        (by rw [well_ranged_width hwr]; exact ⟨hsafe.1, hsafe.2.1⟩) hsafe.2.2
  · apply hstuck
    intro fe fresh
    exact chunk_assert_fails fe fresh hs hm (wide_range_wraps hst hen hw)

/-! ## What a returning enqueue or destroy can have done -/

theorem enqueue_cases {w : World} {p : Ptr} {env : Env} {r : Ret}
    (h : subtask_queue_enqueue w p env = .returned r) :
    (r.code = -1 ∧ r.out = none ∧ r.w = w ∧ w.q.dead ≠ 0) ∨
    (r.code = 0 ∧ r.out = none ∧ w.q.dead = 0 ∧ w.q.num_used ≠ w.q.capacity ∧
      w.q.capacity ≠ 0 ∧
      slot_write w.q.buffer (Int.tmod (wrap32 (w.q.first + w.q.num_used)) w.q.capacity) p
        = some r.w.q.buffer ∧
      r.w.q.num_used = w.q.num_used + 1 ∧ r.w.q.first = w.q.first ∧
      r.w.q.capacity = w.q.capacity ∧ r.w.q.dead = w.q.dead ∧
      r.w.mem = w.mem ∧ r.w.ints = w.ints) := by
  unfold subtask_queue_enqueue at h
  split at h
  · exact Outcome.noConfusion h
  · rename_i hblk
    split at h
    · rename_i hdead
      cases h
      exact Or.inl ⟨rfl, rfl, rfl, hdead⟩
    · rename_i hdead
      have hlive : w.q.dead = 0 := by
        simpa using hdead
      have hroom : w.q.num_used ≠ w.q.capacity := fun h0 => hblk ⟨h0, hlive⟩
      by_cases hcap : w.q.capacity = 0
      · simp [c_mod, hcap] at h
      · simp only [c_mod, hcap, if_false] at h
        cases hw : slot_write w.q.buffer
            (Int.tmod (wrap32 (w.q.first + w.q.num_used)) w.q.capacity) p with
        | none => simp [hw] at h
        | some b1 =>
          simp only [hw] at h
          cases h
          right
          refine ⟨rfl, rfl, hlive, hroom, hcap, ?_, ?_, ?_, ?_, ?_, rfl, rfl⟩ <;>
            (simp only []; split <;> simp [record_enqueue])

theorem destroy_cases {w : World} {code : Int} {w1 : World}
    (h : subtask_queue_destroy w = .returned (code, w1)) :
    w.q.num_used = 0 ∧ code = 0 ∧ w1 = { w with q := { w.q with dead := 1 } } := by
  unfold subtask_queue_destroy at h
  split at h
  · exact Outcome.noConfusion h
  · rename_i h0
    cases h
    exact ⟨by simpa using h0, rfl, rfl⟩

theorem extract_steal (w : World) (env : Env) :
    extract w ⟨true, env⟩ = subtask_queue_steal w env := rfl

theorem extract_dequeue (w : World) (env : Env) :
    extract w ⟨false, env⟩ = subtask_queue_dequeue w env := rfl

/-- The effect of a returning extraction call on the queue record: nothing but the profiling
totals changes, or the head entry was removed from a live, non-empty queue. -/
theorem extract_queue {w : World} {c : Call} {r : Ret} (h : extract w c = .returned r) :
    r.w.q.capacity = w.q.capacity ∧ r.w.q.buffer = w.q.buffer ∧ r.w.q.dead = w.q.dead ∧
    ((r.w.q.first = w.q.first ∧ r.w.q.num_used = w.q.num_used) ∨
      (w.q.dead = 0 ∧ w.q.num_used ≠ 0 ∧ w.q.capacity ≠ 0 ∧
        r.w.q.first = Int.tmod (w.q.first + 1) w.q.capacity ∧
        r.w.q.num_used = w.q.num_used - 1 ∧
        r.out = slot_read w.q.buffer w.q.first ∧ r.w.mem = w.mem ∧ r.w.ints = w.ints)) := by
  rcases extract_cases h with ⟨_, hw⟩ | ⟨p, w1, hg, hlive, hne, hout, hmem, hints, h1, h2, h3,
    h4, h5⟩
  · rw [hw]
    exact ⟨rfl, rfl, rfl, Or.inl ⟨rfl, rfl⟩⟩
  · obtain ⟨hp, hd, hs, _, _, hcase⟩ := chunk_cases hg
    rcases hcase with ⟨_, _, _, _, hq, _⟩ | ⟨_, hpe, hcap, hw1⟩
    · rw [h1, h2, h3, h4, h5, hq]
      exact ⟨rfl, rfl, rfl, Or.inl ⟨rfl, rfl⟩⟩
    · rw [h1, h2, h3, h4, h5, hmem, hints, hout, hw1, hpe, hs]
      exact ⟨rfl, rfl, rfl, Or.inr ⟨hlive, hne, hcap, rfl, rfl, rfl, rfl, rfl⟩⟩

/-! ## Reachable queue records -/

theorem tmod_step_bounds {first capacity : Int} (h0 : 0 ≤ first) (hcap : 0 < capacity) :
    0 ≤ Int.tmod (first + 1) capacity ∧ Int.tmod (first + 1) capacity < capacity := by
  rw [Int.tmod_eq_emod (by omega) (by omega)]
  exact ⟨Int.emod_nonneg _ (by omega), Int.emod_lt_of_pos _ hcap⟩

theorem reachable_inv {capacity : Int} (hcap : 0 < capacity) {q : subtask_queue}
    (h : Reachable capacity q) :
    0 ≤ q.num_used ∧ q.num_used ≤ q.capacity ∧ 0 ≤ q.first ∧ q.first < q.capacity ∧
      q.capacity = capacity := by
  induction h with
  | init oom q hq =>
    unfold subtask_queue_init at hq
    simp only [Prod.mk.injEq] at hq
    rw [← hq.2]
    simp only [le_refl, true_and, and_true]
    omega
  | enqueue w p env r _ he ih =>
    rcases enqueue_cases he with h | h
    · rw [h.2.2.1]
      exact ih
    · obtain ⟨_, _, _, hroom, _, _, hn, hf, hc, _⟩ := h
      rw [hn, hf, hc]
      omega
  | dequeue w env r _ he ih =>
    rw [← extract_dequeue] at he
    obtain ⟨hc, _, _, hcase⟩ := extract_queue he
    rcases hcase with ⟨hf, hn⟩ | ⟨_, hne, _, hf, hn, _⟩
    · rw [hc, hf, hn]
      exact ih
    · have hb := tmod_step_bounds ih.2.2.1 (by omega : 0 < w.q.capacity)
      rw [hc, hf, hn]
      omega
  | steal w env r _ he ih =>
    rw [← extract_steal] at he
    obtain ⟨hc, _, _, hcase⟩ := extract_queue he
    rcases hcase with ⟨hf, hn⟩ | ⟨_, hne, _, hf, hn, _⟩
    · rw [hc, hf, hn]
      exact ih
    · have hb := tmod_step_bounds ih.2.2.1 (by omega : 0 < w.q.capacity)
      rw [hc, hf, hn]
      omega
  | destroy w code w1 _ he ih =>
    obtain ⟨_, _, hw1⟩ := destroy_cases he
    rw [hw1]
    exact ih

/-! ## Entries behind the head -/

/-- A returning extraction call writes no slot of the buffer, and the only subtask objects it
can change are the head entry and the block `malloc` handed out. -/
theorem extract_frame {w : World} {c : Call} {r : Ret} (h : extract w c = .returned r) :
    r.w.q.buffer = w.q.buffer ∧
    ∀ hp, slot_read w.q.buffer w.q.first = some hp →
      ∀ x, x ≠ hp → x ≠ c.env.fresh → r.w.mem x = w.mem x := by
  rcases extract_cases h with ⟨_, hw⟩ | ⟨p, w1, hg, _, _, _, hmem, _, _, _, _, hbuf, _⟩
  · rw [hw]
    exact ⟨rfl, fun _ _ _ _ _ => rfl⟩
  · obtain ⟨hp, hd, hs, _, _, hcase⟩ := chunk_cases hg
    rcases hcase with ⟨_, _, _, _, hq, hfr⟩ | ⟨_, _, _, hw1⟩
    · refine ⟨by rw [hbuf, hq], ?_⟩
      intro hp2 hs2 x hx1 hx2
      rw [hs] at hs2
      cases hs2
      rw [hmem]
      exact hfr.1 x hx1 hx2
    · refine ⟨by rw [hbuf, hw1]; rfl, ?_⟩
      intro _ _ x _ _
      rw [hmem, hw1]
      rfl

theorem slot_shift {first capacity : Int} (m : Nat) (h0 : 0 ≤ first) (hcap : 0 < capacity) :
    (Int.tmod (first + 1) capacity + (m : Int)) % capacity
      = (first + ((m + 1 : Nat) : Int)) % capacity := by
  rw [Int.tmod_eq_emod (by omega) (by omega), Int.emod_add_emod]
  congr 1
  push_cast
  omega

theorem slot_zero {first capacity : Int} (h0 : 0 ≤ first) (h1 : first < capacity) :
    (first + ((0 : Nat) : Int)) % capacity = first := by
  simp only [Nat.cast_zero, add_zero]
  exact Int.emod_eq_of_lt h0 h1

theorem slot_write_read {b b1 : List Ptr} {i : Int} {p : Ptr}
    (h : slot_write b i p = some b1) :
    slot_read b1 i = some p ∧ ∀ k : Int, k ≠ i → slot_read b1 k = slot_read b k := by
  unfold slot_write at h
  split at h
  · exact Option.noConfusion h
  · rename_i hin
    have hi0 : 0 ≤ i := by omega
    have hi1 : i < (b.length : Int) := by omega
    have hlt : i.toNat < b.length := by omega
    cases h
    refine ⟨?_, ?_⟩
    · have hneg : ¬ i < 0 := by omega
      simp [slot_read, hneg, hlt]
    · intro k hk
      unfold slot_read
      by_cases hk0 : k < 0
      · simp [hk0]
      · have hne : i.toNat ≠ k.toNat := by omega
        simp [hk0, List.getElem?_set_ne hne]

theorem ring_offsets_distinct {first capacity m n : Int} (hm : 0 ≤ m) (hmn : m < n)
    (hn : n < capacity) : (first + m) % capacity ≠ (first + n) % capacity := by
  intro h
  have h2 : (first + n) % capacity = (first + m) % capacity := h.symm
  rw [Int.emod_eq_emod_iff_emod_sub_eq_zero] at h2
  have hd : capacity ∣ first + n - (first + m) := Int.dvd_of_emod_eq_zero h2
  have hle := Int.le_of_dvd (by omega) hd
  omega

theorem enqueue_slot {w : World} {p : Ptr} {env : Env} {r : Ret}
    (h : subtask_queue_enqueue w p env = .returned r) (hcode : r.code = 0)
    (h0 : 0 ≤ w.q.first) (hn0 : 0 ≤ w.q.num_used) (hn1 : w.q.num_used ≤ w.q.capacity)
    (hsum : w.q.first + w.q.num_used ≤ INT_MAX) :
    r.w.q.first = w.q.first ∧ r.w.q.num_used = w.q.num_used + 1 ∧
    slot_read r.w.q.buffer ((w.q.first + w.q.num_used) % w.q.capacity) = some p ∧
    ∀ m : Nat, (m : Int) < w.q.num_used →
      slot_read r.w.q.buffer ((w.q.first + (m : Int)) % w.q.capacity)
        = slot_read w.q.buffer ((w.q.first + (m : Int)) % w.q.capacity) := by
  rcases enqueue_cases h with hc | hc
  · rw [hc.1] at hcode
    exact absurd hcode (by decide)
  · obtain ⟨_, _, _, hroom, _, hw, hn, hf, _⟩ := hc
    rw [wrap32_of_in_int ⟨by unfold INT_MIN; omega, hsum⟩,
      Int.tmod_eq_emod (by omega) (by omega)] at hw
    obtain ⟨hr1, hr2⟩ := slot_write_read hw
    refine ⟨hf, hn, hr1, ?_⟩
    intro m hm
    exact hr2 _ (ring_offsets_distinct (by omega) hm (by omega))

/-! ## A successful enqueue -/

theorem reachable_dead {capacity : Int} {q : subtask_queue} (h : Reachable capacity q) :
    (q.dead ≠ 0 → q.num_used = 0) ∧ (q.dead = 0 ∨ q.dead = 1) := by
  induction h with
  | init oom q hq =>
    unfold subtask_queue_init at hq
    simp only [Prod.mk.injEq] at hq
    rw [← hq.2]
    simp
  | enqueue w p env r _ he ih =>
    rcases enqueue_cases he with h | h
    · rw [h.2.2.1]
      exact ih
    · obtain ⟨_, _, hlive, _, _, _, _, _, _, hdd, _⟩ := h
      rw [hdd, hlive]
      simp
  | dequeue w env r _ he ih =>
    rw [← extract_dequeue] at he
    obtain ⟨_, _, hdd, hcase⟩ := extract_queue he
    rcases hcase with ⟨_, hn⟩ | ⟨hlive, _⟩
    · rw [hdd, hn]
      exact ih
    · rw [hdd, hlive]
      simp
  | steal w env r _ he ih =>
    rw [← extract_steal] at he
    obtain ⟨_, _, hdd, hcase⟩ := extract_queue he
    rcases hcase with ⟨_, hn⟩ | ⟨hlive, _⟩
    · rw [hdd, hn]
      exact ih
    · rw [hdd, hlive]
      simp
  | destroy w code w1 _ he ih =>
    obtain ⟨hn, _, hw1⟩ := destroy_cases he
    rw [hw1]
    exact ⟨fun _ => hn, Or.inr rfl⟩

/-- A returning extraction call leaves `dead` as it was, and on a queue with `dead` set it
leaves `num_used` as it was. -/
theorem extract_dead {w : World} {c : Call} {r : Ret} (h : extract w c = .returned r) :
    r.w.q.dead = w.q.dead ∧ (w.q.dead ≠ 0 → r.w.q.num_used = w.q.num_used) := by
  obtain ⟨_, _, hdd, hcase⟩ := extract_queue h
  refine ⟨hdd, ?_⟩
  intro hdead
  rcases hcase with ⟨_, hn⟩ | ⟨hlive, _⟩
  · exact hn
  · exact absurd hlive hdead

/-! ## Counting the extractions from one entry -/

theorem chunk_split {w : World} {hp fresh : Ptr} {hd : subtask} (from_end : Int)
    (hs : slot_read w.q.buffer w.q.first = some hp) (hm : deref w hp = some hd)
    (hwr : well_ranged hd) (hc : 0 < hd.chunk) (hr : hd.chunk < hd.end_ - hd.start)
    (hctr : hd.counter ≠ NULL) (hf : fresh ≠ NULL) (hne : fresh ≠ hp) :
    jobqueue_get_subtask_chunk w from_end fresh
      = .returned (fresh, after_split w hp fresh
          (piece_of (decide (from_end ≠ 0)) hd) (rest_of (decide (from_end ≠ 0)) hd)) := by
  by_cases h0 : from_end = 0
  · subst h0
    simpa [piece_of, rest_of] using chunk_split_front hs hm hwr hc hr hctr hf hne
  · rw [chunk_exact_of_well_ranged from_end fresh hs hm hwr]
    have hpos : 0 < hd.end_ - hd.start := by omega
    have hne2 : ¬ hp = fresh := fun h => hne h.symm
    have hmem := (deref_some hm).2
    have e1 : peek (store w.mem fresh hd) hp hd = hd := by simp [peek, store, hne2, hmem]
    simp only [jobqueue_get_subtask_chunk_exact, hs, hm, after_split]
    simp only [gt_iff_lt, hpos, not_true_eq_false, if_false, hc, hr, and_self, if_true, hf,
      ne_eq, e1, h0, not_false_eq_true, decide_True, piece_of, rest_of]
    split
    · rename_i hnull
      refine absurd (Eq.trans (Eq.symm (split_counter hmem _ _ ?_ ?_)) hnull) hctr <;>
        intro s <;> rfl
    · congr 3
      · funext x
        by_cases hx : x = hp
        · subst hx
          simp [modify, store, hne2, hmem, shrink_back, peek]
        · by_cases hy : x = fresh
          · subst hy
            simp [modify, store, hx, piece_back]
          · simp [modify, store, hx, hy]
      · simp [peek, modify, store, hne2, hmem, shrink_back]

theorem ceil_div_step {n c : Int} (hc : 0 < c) : ceil_div n c = ceil_div (n - c) c + 1 := by
  unfold ceil_div
  have h : n + c - 1 = (n - c + c - 1) + 1 * c := by omega
  rw [h, Int.add_mul_ediv_right _ _ (by omega)]

theorem ceil_div_small {n c : Int} (hn : 0 < n) (hnc : n ≤ c) : ceil_div n c = 1 := by
  unfold ceil_div
  have h : n + c - 1 = (n - 1) + 1 * c := by omega
  rw [h, Int.add_mul_ediv_right _ _ (by omega), Int.ediv_eq_zero_of_lt (by omega) (by omega)]
  rfl

theorem ceil_div_pos {n c : Int} (hn : 0 < n) (hc : 0 < c) : 1 ≤ ceil_div n c := by
  unfold ceil_div
  have h : n + c - 1 = (n - 1) + 1 * c := by omega
  rw [h, Int.add_mul_ediv_right _ _ (by omega)]
  have := Int.ediv_nonneg (by omega : (0 : Int) ≤ n - 1) (by omega : (0 : Int) ≤ c)
  omega

/-- The rounded-up quotient is the least `k` with `n <= k * c`. -/
theorem ceil_div_bounds {n c : Int} (hc : 0 < c) :
    (ceil_div n c - 1) * c < n ∧ n ≤ ceil_div n c * c := by
  unfold ceil_div
  have h1 := Int.ediv_mul_le (n + c - 1) (by omega : c ≠ 0)
  have h2 := Int.lt_ediv_add_one_mul_self (n + c - 1) hc
  constructor
  · have : ((n + c - 1) / c - 1) * c = (n + c - 1) / c * c - c := by ring
    omega
  · have : ((n + c - 1) / c + 1) * c = (n + c - 1) / c * c + c := by ring
    omega

theorem extractions_spec (dirs : List (Int × Ptr)) : ∀ (w : World) (hp : Ptr) (hd : subtask),
    w.q.capacity ≠ 0 →
    slot_read w.q.buffer w.q.first = some hp → deref w hp = some hd →
    well_ranged hd → hd.counter ≠ NULL → 0 < hd.chunk →
    (∀ d, d ∈ dirs → d.2 ≠ NULL ∧ d.2 ≠ hp) →
    extractions w dirs = .returned
      (if ceil_div (hd.end_ - hd.start) hd.chunk ≤ dirs.length
        then some (ceil_div (hd.end_ - hd.start) hd.chunk).toNat else none) := by
  induction dirs with
  | nil =>
    intro w hp hd _ _ _ hwr _ hc _
    have hse : hd.start < hd.end_ := hwr.2.2.1
    have := ceil_div_pos (by omega : 0 < hd.end_ - hd.start) hc
    have hlt : ¬ ceil_div (hd.end_ - hd.start) hd.chunk ≤ ((([] : List (Int × Ptr)).length : Nat) : Int) := by
      simp only [List.length_nil, Nat.cast_zero]
      omega
    simp only [extractions, hlt, if_false]
  | cons d ds ih =>
    intro w hp hd hcap hs hm hwr hcn hc hfresh
    have hse : hd.start < hd.end_ := hwr.2.2.1
    have hfd := hfresh d (List.mem_cons_self _ _)
    have hfds : ∀ d', d' ∈ ds → d'.2 ≠ NULL ∧ d'.2 ≠ hp :=
      fun d' hd' => hfresh d' (List.mem_cons_of_mem _ hd')
    have hpn := (deref_some hm).1
    by_cases hsplit : hd.chunk < hd.end_ - hd.start
    · have hg := chunk_split d.1 hs hm hwr hc hsplit hcn hfd.1 hfd.2
      have hrest : deref (after_split w hp d.2 (piece_of (decide (d.1 ≠ 0)) hd)
          (rest_of (decide (d.1 ≠ 0)) hd)) hp = some (rest_of (decide (d.1 ≠ 0)) hd) := by
        simp [deref, hpn, after_split, store]
      have hwid : (rest_of (decide (d.1 ≠ 0)) hd).end_ - (rest_of (decide (d.1 ≠ 0)) hd).start
          = hd.end_ - hd.start - hd.chunk := by
        cases decide (d.1 ≠ 0) <;> simp [rest_of, shrink_back, shrink_front] <;> omega
      have hchk : (rest_of (decide (d.1 ≠ 0)) hd).chunk = hd.chunk := (same_job_rest _ _).2.2.1
      have hih := ih (after_split w hp d.2 (piece_of (decide (d.1 ≠ 0)) hd)
          (rest_of (decide (d.1 ≠ 0)) hd)) hp (rest_of (decide (d.1 ≠ 0)) hd) hcap hs hrest
        (well_ranged_rest _ hwr hc hsplit)
        (by rw [(same_job_rest _ _).2.2.2.1]; exact hcn) (by rw [hchk]; exact hc) hfds
      rw [hwid, hchk] at hih
      have hstep := ceil_div_step (n := hd.end_ - hd.start) hc
      have hpos := ceil_div_pos (by omega : 0 < hd.end_ - hd.start - hd.chunk) hc
      simp only [extractions, hg]
      have hsame : ¬ (after_split w hp d.2 (piece_of (decide (d.1 ≠ 0)) hd)
          (rest_of (decide (d.1 ≠ 0)) hd)).q.num_used ≠ w.q.num_used := by
        simp [after_split]
      simp only [hsame, if_false, hih]
      by_cases hlen : ceil_div (hd.end_ - hd.start - hd.chunk) hd.chunk ≤ (ds.length : Int)
      · have hlen2 : ceil_div (hd.end_ - hd.start) hd.chunk ≤ ((d :: ds).length : Int) := by
          simp only [List.length_cons, Nat.cast_add, Nat.cast_one]
          omega
        simp only [hlen, hlen2, if_true]
        congr 2
        omega
      · have hlen2 : ¬ ceil_div (hd.end_ - hd.start) hd.chunk ≤ ((d :: ds).length : Int) := by
          simp only [List.length_cons, Nat.cast_add, Nat.cast_one]
          omega
        simp only [hlen, hlen2, if_false]
    · have hno : ¬ (0 < hd.chunk ∧ hd.chunk < hd.end_ - hd.start) := fun h => hsplit h.2
      have hg : jobqueue_get_subtask_chunk w d.1 d.2 = .returned (hp, after_removal w) :=
        chunk_whole d.1 hs hm hwr hno hcap
      have hone : ceil_div (hd.end_ - hd.start) hd.chunk = 1 :=
        ceil_div_small (by omega) (by omega)
      have hchg : (after_removal w).q.num_used ≠ w.q.num_used := by
        simp [after_removal]
      have hlen2 : ceil_div (hd.end_ - hd.start) hd.chunk ≤ ((d :: ds).length : Int) := by
        rw [hone]
        simp only [List.length_cons, Nat.cast_add, Nat.cast_one]
        omega
      simp only [extractions, hg]
      rw [if_pos hchg, if_pos hlen2, hone]
      rfl

theorem consume_removes (calls : List Call) : ∀ (w : World) (hp : Ptr) (hd : subtask),
    w.q.dead = 0 → w.q.num_used ≠ 0 → w.q.capacity ≠ 0 →
    slot_read w.q.buffer w.q.first = some hp → deref w hp = some hd →
    well_ranged hd → hd.counter ≠ NULL → 0 < hd.chunk →
    (∀ c, c ∈ calls → c.env.fresh ≠ NULL ∧ c.env.fresh ≠ hp) →
    ceil_div (hd.end_ - hd.start) hd.chunk ≤ calls.length →
    ∀ dr, consume w calls = .returned dr → dr.removed ≠ none := by
  induction calls with
  | nil =>
    intro w hp hd _ _ _ _ _ hwr _ hc _ hlen
    have hse : hd.start < hd.end_ := hwr.2.2.1
    have := ceil_div_pos (by omega : 0 < hd.end_ - hd.start) hc
    simp only [List.length_nil, Nat.cast_zero] at hlen
    omega
  | cons c cs ih =>
    intro w hp hd hlive hne hcap hs hm hwr hcn hc hfresh hlen dr hdr
    have hse : hd.start < hd.end_ := hwr.2.2.1
    have hfc := hfresh c (List.mem_cons_self _ _)
    have hfcs : ∀ c', c' ∈ cs → c'.env.fresh ≠ NULL ∧ c'.env.fresh ≠ hp :=
      fun c' hc' => hfresh c' (List.mem_cons_of_mem _ hc')
    have hmem := (deref_some hm).2
    have hpn := (deref_some hm).1
    simp only [List.length_cons, Nat.cast_add, Nat.cast_one] at hlen
    by_cases hsplit : hd.chunk < hd.end_ - hd.start
    · obtain ⟨r, he, _, hout, hrmem, _, hrcap, hrfirst, hrnum, hrbuf, hrdead⟩ :=
        extract_split (c := c) hlive hne hs hm hwr hc hsplit hcn hfc.1 hfc.2
      have hpiece : deref r.w c.env.fresh = some (piece_of c.steal hd) := by
        simp [deref, hfc.1, hrmem, store, hfc.2]
      have hrest : deref r.w hp = some (rest_of c.steal hd) := by
        simp [deref, hpn, hrmem, store]
      have hwid : (rest_of c.steal hd).end_ - (rest_of c.steal hd).start
          = hd.end_ - hd.start - hd.chunk := by
        cases hst : c.steal <;> simp [rest_of, shrink_back, shrink_front] <;> omega
      have hchk : (rest_of c.steal hd).chunk = hd.chunk := (same_job_rest _ _).2.2.1
      have hlive1 : r.w.q.dead = 0 := by rw [hrdead]; exact hlive
      have hne1 : r.w.q.num_used ≠ 0 := by rw [hrnum]; exact hne
      have hcap1 : r.w.q.capacity ≠ 0 := by rw [hrcap]; exact hcap
      have hs1 : slot_read r.w.q.buffer r.w.q.first = some hp := by
        rw [hrbuf, hrfirst]; exact hs
      have hpos1 : well_ranged (rest_of c.steal hd) := well_ranged_rest _ hwr hc hsplit
      have hcn1 : (rest_of c.steal hd).counter ≠ NULL := by
        rw [(same_job_rest _ _).2.2.2.1]
        exact hcn
      obtain ⟨dr1, _, hcons1, _⟩ :=
        consume_spec cs r.w hp (rest_of c.steal hd) hlive1 hne1 hcap1 hs1 hrest hpos1
          (fun _ _ => hcn1) hfcs
      have hstep := ceil_div_step (n := hd.end_ - hd.start) hc
      have hrem1 := ih r.w hp (rest_of c.steal hd) hlive1 hne1 hcap1 hs1 hrest hpos1 hcn1
        (by rw [hchk]; exact hc) hfcs (by rw [hwid, hchk]; omega) dr1 hcons1
      rw [consume_cons_piece he hout hpiece hrnum hcons1] at hdr
      cases hdr
      exact hrem1
    · have hno : ¬ (0 < hd.chunk ∧ hd.chunk < hd.end_ - hd.start) := fun h => hsplit h.2
      obtain ⟨r, he, _, hout, hrmem, _, _, _, hrnum, _⟩ :=
        extract_whole (c := c) hlive hne hs hm (Or.inl (by omega)) hwr hno hcap
      have hhead : deref r.w hp = some hd := by
        simp [deref, hpn, hrmem, hmem]
      have hchg : r.w.q.num_used ≠ w.q.num_used := by
        rw [hrnum]
        omega
      rw [consume_cons_removed he hout hhead hchg] at hdr
      cases hdr
      exact fun h => Option.noConfusion h

/-! ## Profiling data does not steer the calls -/

theorem chunk_same_but_profiling {w w2 : World} (h : same_but_profiling w w2)
    (from_end : Int) (fresh : Ptr) :
    (jobqueue_get_subtask_chunk w2 from_end fresh).map
        (fun x => (x.1, visible ⟨0, none, x.2⟩))
      = (jobqueue_get_subtask_chunk w from_end fresh).map
        (fun x => (x.1, visible ⟨0, none, x.2⟩)) := by
  obtain ⟨hcap, hfirst, hnum, hbuf, hdead, hmem, hints⟩ := h
  have hd2 : ∀ p, deref w2 p = deref w p := by
    intro p
    simp [deref, hmem]
  unfold jobqueue_get_subtask_chunk
  rw [hbuf, hfirst]
  cases hs : slot_read w.q.buffer w.q.first with
  | none => rfl
  | some hp =>
    simp only [hd2]
    cases hm : deref w hp with
    | none => rfl
    | some hd =>
      simp only [hcap, hfirst, hnum, hmem, hints]
      split
      · rfl
      · split
        · split
          · rfl
          · by_cases hfe : from_end ≠ 0
            · simp only [if_pos hfe]
              split
              · rfl
              · simp [Outcome.map, visible, hcap, hfirst, hnum, hbuf, hdead]
            · simp only [if_neg hfe]
              split
              · rfl
              · simp [Outcome.map, visible, hcap, hfirst, hnum, hbuf, hdead]
        · cases hc : c_mod (w.q.first + 1) w.q.capacity with
          | none => rfl
          | some f1 => simp [Outcome.map, visible, hcap, hnum, hbuf, hdead, hmem, hints]

/-! ## Queued entries keep a range of positive `int` width -/

theorem execution_reachable {ok : subtask → Prop} {capacity : Int} {w : World}
    (h : Execution ok capacity w) : Reachable capacity w.q := by
  induction h with
  | init q mem ints hq => exact Reachable.init false q hq
  | enqueue w p d env r _ _ _ he ih => exact Reachable.enqueue w p env r ih he
  | dequeue w env r _ _ he ih => exact Reachable.dequeue w env r ih he
  | steal w env r _ _ he ih => exact Reachable.steal w env r ih he
  | destroy w code w1 _ he ih => exact Reachable.destroy w code w1 ih he
  | outside w mem2 ints2 _ _ ih => exact ih

theorem entries_well_ranged_nonempty {w : World} (h : entries_well_ranged w) :
    entries_nonempty w := by
  intro m hm
  obtain ⟨p, d, hp, hd, hwr⟩ := h m hm
  exact ⟨p, d, hp, hd, hwr.2.2.1⟩

/-- An extraction call on a memory whose queued entries have ranges of `int` width leaves such
a memory. -/
theorem extract_entries {w : World} {c : Call} {r : Ret}
    (hcap : 0 < w.q.capacity) (h0 : 0 ≤ w.q.first) (h1 : w.q.first < w.q.capacity)
    (hn0 : 0 ≤ w.q.num_used) (hinv : entries_well_ranged w)
    (hfresh : w.mem c.env.fresh = none) (he : extract w c = .returned r) :
    entries_well_ranged r.w := by
  rcases extract_cases he with ⟨_, hw⟩ | ⟨p, w1, hg, hlive, hne, _⟩
  · rw [hw]
    exact hinv
  · -- the head entry is a valid descriptor
    obtain ⟨hp, hd, hs, hm, hpos⟩ := hinv 0 (by
      simp only [Nat.cast_zero]
      omega)
    rw [slot_zero h0 h1] at hs
    have hmem := (deref_some hm).2
    have hpn := (deref_some hm).1
    have hfr : c.env.fresh ≠ hp := by
      intro h
      rw [h, hmem] at hfresh
      exact Option.noConfusion hfresh
    by_cases hsplit : 0 < hd.chunk ∧ hd.chunk < hd.end_ - hd.start
    · have hfn : c.env.fresh ≠ NULL ∧ hd.counter ≠ NULL := by
        obtain ⟨hp2, hd2, hs2, hm2, _, hcase⟩ := chunk_cases hg
        rw [hs] at hs2
        cases hs2
        rw [hm] at hm2
        cases hm2
        rcases hcase with ⟨_, _, _, hfn, _, _, hcn, _⟩ | ⟨hno, _⟩
        · exact ⟨hfn, hcn⟩
        · rw [well_ranged_width hpos] at hno
          exact absurd hsplit hno
      obtain ⟨r2, he2, _, _, hrmem, _, hrcap, hrfirst, hrnum, hrbuf, _⟩ :=
        extract_split (c := c) hlive hne hs hm hpos hsplit.1 hsplit.2 hfn.2 hfn.1 hfr
      rw [he] at he2
      cases he2
      intro m hm2
      rw [hrnum] at hm2
      obtain ⟨q, d, hq, hdq, hdpos⟩ := hinv m hm2
      rw [hrbuf, hrfirst, hrcap]
      by_cases hqh : q = hp
      · refine ⟨q, rest_of c.steal hd, hq, ?_, well_ranged_rest _ hpos hsplit.1 hsplit.2⟩
        simp [deref, hqh, hpn, hrmem, store]
      · have hqf : q ≠ c.env.fresh := by
          intro h
          rw [h] at hdq
          rw [(deref_some hdq).2] at hfresh
          exact Option.noConfusion hfresh
        refine ⟨q, d, hq, ?_, hdpos⟩
        have hqn := (deref_some hdq).1
        simp [deref, hqn, hrmem, store, hqh, hqf, (deref_some hdq).2]
    · obtain ⟨hbuf, _⟩ := extract_frame he
      obtain ⟨hc, _, _, hcase⟩ := extract_queue he
      -- without a split no subtask object changes
      have hmemsame : r.w.mem = w.mem := by
        rcases extract_cases he with ⟨_, hw⟩ | ⟨p2, w2, hg2, _, _, _, hmem2, _⟩
        · rw [hw]
        · obtain ⟨hp2, hd2, hs2, hm2, _, hcase2⟩ := chunk_cases hg2
          rw [hs] at hs2
          cases hs2
          rw [hm] at hm2
          cases hm2
          rcases hcase2 with ⟨ha, hb, _⟩ | ⟨_, _, _, hw2⟩
          · rw [well_ranged_width hpos] at hb
            exact absurd ⟨ha, hb⟩ hsplit
          · rw [hmem2, hw2]
            rfl
      have hderef : ∀ q, deref r.w q = deref w q := by
        intro q
        simp [deref, hmemsame]
      rcases hcase with ⟨hf, hn⟩ | ⟨_, _, _, hf, hn, _⟩
      · intro m hm2
        rw [hn] at hm2
        obtain ⟨q, d, hq, hdq, hdpos⟩ := hinv m hm2
        exact ⟨q, d, by rw [hbuf, hf, hc]; exact hq, by rw [hderef]; exact hdq, hdpos⟩
      · intro m hm2
        rw [hn] at hm2
        obtain ⟨q, d, hq, hdq, hdpos⟩ := hinv (m + 1) (by
          push_cast
          omega)
        refine ⟨q, d, ?_, by rw [hderef]; exact hdq, hdpos⟩
        rw [hbuf, hf, hc, slot_shift m h0 hcap]
        exact hq

theorem execution_entries {capacity : Int} (hcap : 0 < capacity)
    (hcap30 : capacity ≤ 1073741824) {w : World}
    (h : Execution well_ranged capacity w) : entries_well_ranged w := by
  induction h with
  | init q mem ints hq =>
    intro m hm
    unfold subtask_queue_init at hq
    simp only [Prod.mk.injEq] at hq
    rw [← hq.2] at hm
    simp only at hm
    omega
  | enqueue w p d env r hex hd hpos he ih =>
    have hinv := reachable_inv hcap (execution_reachable hex)
    rcases enqueue_cases he with h | h
    · rw [h.2.2.1]
      exact ih
    · obtain ⟨hcode, _, _, _, _, _, hn, hf, hc, _, hmem, _⟩ := h
      obtain ⟨_, _, hnew, hold⟩ := enqueue_slot he hcode hinv.2.2.1 hinv.1 (by omega) (by
        unfold INT_MAX
        omega)
      have hderef : ∀ q, deref r.w q = deref w q := by
        intro q
        simp [deref, hmem]
      intro m hm
      rw [hn] at hm
      rw [hf, hc]
      by_cases hlt : (m : Int) < w.q.num_used
      · obtain ⟨q, d2, hq, hdq, hdpos⟩ := ih m hlt
        exact ⟨q, d2, by rw [hold m hlt]; exact hq, by rw [hderef]; exact hdq, hdpos⟩
      · have hmeq : (m : Int) = w.q.num_used := by omega
        refine ⟨p, d, ?_, by rw [hderef]; exact hd, hpos⟩
        rw [hmeq]
        exact hnew
  | dequeue w env r hex hfresh he ih =>
    have hinv := reachable_inv hcap (execution_reachable hex)
    rw [← extract_dequeue] at he
    exact extract_entries (by omega) hinv.2.2.1 (by omega) hinv.1 ih hfresh he
  | steal w env r hex hfresh he ih =>
    have hinv := reachable_inv hcap (execution_reachable hex)
    rw [← extract_steal] at he
    exact extract_entries (by omega) hinv.2.2.1 (by omega) hinv.1 ih hfresh he
  | destroy w code w1 _ he ih =>
    obtain ⟨_, _, hw1⟩ := destroy_cases he
    rw [hw1]
    exact ih
  | outside w mem2 ints2 _ hsame ih =>
    intro m hm
    obtain ⟨q, d, hq, hdq, hdpos⟩ := ih m hm
    refine ⟨q, d, hq, ?_, hdpos⟩
    have hqd : queued w q := ⟨m, hm, hq⟩
    have hqn := (deref_some hdq).1
    simp only [deref, hqn, if_false, hsame q hqd]
    exact (deref_some hdq).2

theorem dequeue_blocked {w : World} (env : Env) (hlive : w.q.dead = 0)
    (he : w.q.num_used = 0) : subtask_queue_dequeue w env = .blocked := by
  simp [subtask_queue_dequeue, hlive, he]

/-- On a live queue whose head entry, if there is one, is a valid descriptor with a range of
`int` width and a non-null counter pointer, an extraction call with a fresh non-null block
from `malloc` does not crash. -/
theorem extract_safe {w : World} (c : Call) (hlive : w.q.dead = 0) (hcap : w.q.capacity ≠ 0)
    (hhead : w.q.num_used ≠ 0 → ∃ hp hd, slot_read w.q.buffer w.q.first = some hp ∧
      deref w hp = some hd ∧ well_ranged hd ∧ hd.counter ≠ NULL)
    (hf : c.env.fresh ≠ NULL) (hfresh : w.mem c.env.fresh = none) :
    (extract w c).is_crashed = false := by
  by_cases hne : w.q.num_used = 0
  · unfold extract
    cases hst : c.steal
    · simp [dequeue_blocked c.env hlive hne, Outcome.is_crashed]
    · simp [steal_empty c.env hlive hne, Outcome.is_crashed]
  · obtain ⟨hp, hd, hs, hm, hpos, hcn⟩ := hhead hne
    have hmem := (deref_some hm).2
    have hfr : c.env.fresh ≠ hp := by
      intro h
      rw [h, hmem] at hfresh
      exact Option.noConfusion hfresh
    by_cases hsplit : 0 < hd.chunk ∧ hd.chunk < hd.end_ - hd.start
    · obtain ⟨r, he, _⟩ :=
        extract_split (c := c) hlive hne hs hm hpos hsplit.1 hsplit.2 hcn hf hfr
      rw [he]
      rfl
    · by_cases hnothing : hd.chunk = 0 ∧ c.steal = true
      · rw [extract_nothing hne hs hm hnothing.1 hnothing.2]
        rfl
      · have hc : hd.chunk ≠ 0 ∨ c.steal = false := by
          by_cases h0 : hd.chunk = 0
          · right
            cases hst : c.steal
            · rfl
            · exact absurd ⟨h0, hst⟩ hnothing
          · exact Or.inl h0
        obtain ⟨r, he, _⟩ := extract_whole (c := c) hlive hne hs hm hc hpos hsplit hcap
        rw [he]
        rfl

/-! ## The queue as a list -/

theorem held_after_append (l1 : List Sync) : ∀ (h : Held) (l2 : List Sync),
    h.after (l1 ++ l2) = (h.after l1).bind (fun h2 => h2.after l2) := by
  induction l1 with
  | nil =>
    intro h l2
    rfl
  | cons e es ih =>
    intro h l2
    simp only [List.cons_append, Held.after]
    cases h.step e with
    | none => rfl
    | some h2 => exact ih h2 l2

theorem held_after_waits (n : Nat) :
    (⟨true, none⟩ : Held).after (List.replicate n .wait_queue) = some ⟨true, none⟩ := by
  induction n with
  | zero => rfl
  | succ k ih =>
    simp only [List.replicate_succ, Held.after, Held.step]
    simpa using ih

/-- The calls of an operation after `lock_queue` and the wait loop. -/
theorem held_after_entry (n : Nat) (l : List Sync) :
    (⟨false, none⟩ : Held).after ([.lock_queue] ++ List.replicate n .wait_queue ++ l)
      = (⟨true, none⟩ : Held).after l := by
  rw [List.append_assoc, held_after_append]
  have h1 : (⟨false, none⟩ : Held).after [.lock_queue] = some ⟨true, none⟩ := rfl
  rw [h1, Option.some_bind, held_after_append, held_after_waits, Option.some_bind]

/-- The locks held after the synchronisation calls of the routine: the queue mutex, and the
head's mutex only if the process died at the increment through a `NULL` counter pointer. -/
theorem held_after_chunk (w : World) (fe : Int) (fresh : Ptr) :
    ∃ s, (⟨true, none⟩ : Held).after (jobqueue_get_subtask_chunk_sync w fresh)
        = some ⟨true, s⟩ ∧
      (s = none ∨
        (jobqueue_get_subtask_chunk w fe fresh = .crashed ∧
          ∃ hp hd, slot_read w.q.buffer w.q.first = some hp ∧ deref w hp = some hd ∧
            hd.counter = NULL ∧ s = some hd.mutex)) := by
  unfold jobqueue_get_subtask_chunk_sync
  cases hs : slot_read w.q.buffer w.q.first with
  | none => exact ⟨none, rfl, Or.inl rfl⟩
  | some hp =>
    simp only []
    cases hm : deref w hp with
    | none => exact ⟨none, rfl, Or.inl rfl⟩
    | some hd =>
      simp only []
      split
      · exact ⟨none, rfl, Or.inl rfl⟩
      · rename_i hpos
        split
        · rename_i hsplit
          split
          · exact ⟨none, rfl, Or.inl rfl⟩
          · rename_i hf
            split
            · rename_i hc
              refine ⟨some hd.mutex, by simp [Held.after, Held.step], Or.inr ⟨?_, hp, hd, rfl,
                hm, hc, rfl⟩⟩
              exact chunk_null_counter fe fresh hs hm hpos hsplit hc
            · exact ⟨none, by simp [Held.after, Held.step], Or.inl rfl⟩
        · exact ⟨none, rfl, Or.inl rfl⟩

theorem chunk_sync_lock {w : World} {fresh : Ptr} {m : Ptr}
    (h : Sync.lock_subtask m ∈ jobqueue_get_subtask_chunk_sync w fresh) :
    ∃ hp hd, slot_read w.q.buffer w.q.first = some hp ∧ deref w hp = some hd ∧
      0 < hd.chunk ∧ hd.chunk < wrap32 (hd.end_ - hd.start) ∧ m = hd.mutex ∧
      fresh ≠ NULL := by
  unfold jobqueue_get_subtask_chunk_sync at h
  cases hs : slot_read w.q.buffer w.q.first with
  | none => simp [hs] at h
  | some hp =>
    cases hm : deref w hp with
    | none => simp [hs, hm] at h
    | some hd =>
      simp only [hs, hm] at h
      split at h
      · simp at h
      · split at h
        · rename_i hsplit
          split at h
          · simp at h
          · rename_i hfn
            split at h
            · simp at h
              exact ⟨hp, hd, rfl, hm, hsplit.1, hsplit.2, h, hfn⟩
            · simp at h
              exact ⟨hp, hd, rfl, hm, hsplit.1, hsplit.2, h, hfn⟩
        · simp at h

theorem dequeue_sync_after (waits : Nat) (w : World) (env : Env) :
    ∃ h, (⟨false, none⟩ : Held).after (subtask_queue_dequeue_sync waits w env) = some h ∧
      h.queue = !(subtask_queue_dequeue w env).is_returned ∧
      (h.subtask = none ∨
        ((subtask_queue_dequeue w env).is_crashed = true ∧
          ∃ hp hd, slot_read w.q.buffer w.q.first = some hp ∧ deref w hp = some hd ∧
            hd.counter = NULL ∧ h.subtask = some hd.mutex)) := by
  unfold subtask_queue_dequeue_sync subtask_queue_dequeue
  rw [held_after_entry]
  split
  · exact ⟨⟨true, none⟩, rfl, rfl, Or.inl rfl⟩
  · split
    · exact ⟨⟨false, none⟩, rfl, rfl, Or.inl rfl⟩
    · obtain ⟨s, hs, hcase⟩ := held_after_chunk w 0 env.fresh
      rw [held_after_append, hs, Option.some_bind]
      rcases hcase with h0 | ⟨hcr, hwit⟩
      · subst h0
        cases jobqueue_get_subtask_chunk w 0 env.fresh with
        | blocked => exact ⟨⟨true, none⟩, rfl, rfl, Or.inl rfl⟩
        | crashed => exact ⟨⟨true, none⟩, rfl, rfl, Or.inl rfl⟩
        | returned x =>
          obtain ⟨p, w1⟩ := x
          simp only []
          split
          · exact ⟨⟨true, none⟩, rfl, rfl, Or.inl rfl⟩
          · exact ⟨⟨false, none⟩, rfl, rfl, Or.inl rfl⟩
      · rw [hcr]
        exact ⟨⟨true, s⟩, rfl, rfl, Or.inr ⟨rfl, hwit⟩⟩

theorem steal_sync_after (w : World) (env : Env) :
    ∃ h, (⟨false, none⟩ : Held).after (subtask_queue_steal_sync w env) = some h ∧
      h.queue = !(subtask_queue_steal w env).is_returned ∧
      (h.subtask = none ∨
        ((subtask_queue_steal w env).is_crashed = true ∧
          ∃ hp hd, slot_read w.q.buffer w.q.first = some hp ∧ deref w hp = some hd ∧
            hd.counter = NULL ∧ h.subtask = some hd.mutex)) := by
  unfold subtask_queue_steal_sync subtask_queue_steal
  rw [held_after_append]
  have h1 : (⟨false, none⟩ : Held).after [.lock_queue] = some ⟨true, none⟩ := rfl
  rw [h1, Option.some_bind]
  simp only []
  split
  · exact ⟨⟨false, none⟩, rfl, rfl, Or.inl rfl⟩
  · cases hs0 : slot_read w.q.buffer w.q.first with
    | none => exact ⟨⟨true, none⟩, rfl, rfl, Or.inl rfl⟩
    | some hp =>
      simp only []
      cases deref w hp with
      | none => exact ⟨⟨true, none⟩, rfl, rfl, Or.inl rfl⟩
      | some hd =>
        simp only []
        split
        · exact ⟨⟨false, none⟩, rfl, rfl, Or.inl rfl⟩
        · split
          · exact ⟨⟨false, none⟩, rfl, rfl, Or.inl rfl⟩
          · obtain ⟨s, hs, hcase⟩ := held_after_chunk w 1 env.fresh
            rw [held_after_append, hs, Option.some_bind]
            rcases hcase with h0 | ⟨hcr, hwit⟩
            · subst h0
              cases jobqueue_get_subtask_chunk w 1 env.fresh with
              | blocked => exact ⟨⟨true, none⟩, rfl, rfl, Or.inl rfl⟩
              | crashed => exact ⟨⟨true, none⟩, rfl, rfl, Or.inl rfl⟩
              | returned x =>
                obtain ⟨p, w1⟩ := x
                simp only []
                split
                · exact ⟨⟨false, none⟩, rfl, rfl, Or.inl rfl⟩
                · exact ⟨⟨false, none⟩, rfl, rfl, Or.inl rfl⟩
            · rw [hcr]
              rw [hs0] at hwit
              exact ⟨⟨true, s⟩, rfl, rfl, Or.inr ⟨rfl, hwit⟩⟩

theorem enqueue_sync_after (waits : Nat) (w : World) (p : Ptr) (env : Env) :
    (⟨false, none⟩ : Held).after (subtask_queue_enqueue_sync waits w p env)
      = some ⟨!(subtask_queue_enqueue w p env).is_returned, none⟩ := by
  unfold subtask_queue_enqueue_sync
  rw [held_after_entry]
  split
  · rename_i hblk
    simp [subtask_queue_enqueue, hblk, Outcome.is_returned, Held.after, Held.step]
  · rename_i hblk
    split
    · rename_i hdead
      simp [subtask_queue_enqueue, hblk, hdead, Outcome.is_returned, Held.after, Held.step]
    · cases subtask_queue_enqueue w p env with
      | blocked => rfl
      | crashed => rfl
      | returned r => rfl

theorem destroy_sync_after (waits : Nat) (w : World) :
    (⟨false, none⟩ : Held).after (subtask_queue_destroy_sync waits w)
      = some ⟨!(subtask_queue_destroy w).is_returned, none⟩ := by
  unfold subtask_queue_destroy_sync subtask_queue_destroy
  rw [held_after_entry]
  split <;> rfl

/-! ## C1 — coverage -/

/-- C1.  Take a live queue whose head entry `hd` (at address `hp`) has a range `[s, e)` of `int`
indices with `s < e` and `chunk > 0`, and any finite list of dequeue (front) and steal (back)
calls, each with a `malloc` that hands out a non-null block other than the queued entry; the
calls are made until one of them removes the entry.  Whatever such a run returns: once the entry
is removed, the ranges of the front pieces in return order, then the removed entry, then the
back pieces in reverse return order, are non-empty and laid end to end from `s` to `e`; hence
they are pairwise disjoint and an index lies in one of them exactly when it lies in `[s, e)`.
Before the removal the same holds with the entry's current range in the middle.  When the
width `e - s` is an `int` (at most `INT_MAX`) and the counter pointer is not `NULL`, the run
never blocks or crashes, and a list of at least `e - s` calls does reach the removal. -/
theorem coverage (w : World) (hp : Ptr) (hd : subtask) (calls : List Call)
    (hlive : w.q.dead = 0) (hne : w.q.num_used ≠ 0) (hcap : w.q.capacity ≠ 0)
    (hs : slot_read w.q.buffer w.q.first = some hp) (hm : deref w hp = some hd)
    (hst : in_int hd.start) (hen : in_int hd.end_)
    (hse : hd.start < hd.end_) (hc : 0 < hd.chunk)
    (hfresh : ∀ c, c ∈ calls → c.env.fresh ≠ NULL ∧ c.env.fresh ≠ hp) :
    (∀ dr, consume w calls = .returned dr →
      (∀ last, dr.removed = some last →
        Tiles hd.start hd.end_
          (fronts dr.pieces ++ [range_of last] ++ (backs dr.pieces).reverse) ∧
        (fronts dr.pieces ++ [range_of last] ++ (backs dr.pieces).reverse).Pairwise Disjoint2 ∧
        ∀ i, Covered (fronts dr.pieces ++ [range_of last] ++ (backs dr.pieces).reverse) i
          ↔ hd.start ≤ i ∧ i < hd.end_) ∧
      (dr.removed = none → ∃ cur, deref dr.w hp = some cur ∧
        Tiles hd.start hd.end_
          (fronts dr.pieces ++ [range_of cur] ++ (backs dr.pieces).reverse))) ∧
    (hd.end_ - hd.start ≤ INT_MAX → hd.counter ≠ NULL →
      ∃ dr, consume w calls = .returned dr ∧
        (hd.end_ - hd.start ≤ calls.length → dr.removed ≠ none)) := by
  refine ⟨?_, ?_⟩
  · intro dr hdr
    obtain ⟨last, hlast, _, htiles, _⟩ :=
      consume_legal calls w hp hd hlive hne hcap hs hm hst hen hse hfresh dr hdr
    refine ⟨?_, ?_⟩
    · intro last2 hl2
      have hsame : last2 = last := by
        rcases hlast with h | h
        · rw [h] at hl2
          exact (Option.some.inj hl2).symm
        · rw [h.1] at hl2
          exact Option.noConfusion hl2
      subst hsame
      exact ⟨htiles, tiles_pairwise htiles, tiles_covered htiles⟩
    · intro hnone
      rcases hlast with h | h
      · rw [hnone] at h
        exact Option.noConfusion h
      · exact ⟨last, h.2.1, htiles⟩
  · intro hw hcn
    obtain ⟨dr, _, hcons, _, _, _, _, _, _, _, _, hlong⟩ :=
      consume_spec calls w hp hd hlive hne hcap hs hm ⟨hst, hen, hse, hw⟩ (fun _ _ => hcn)
        hfresh
    exact ⟨dr, hcons, hlong hc⟩

/-- Witness for C1: a dequeue, a steal and a dequeue on the entry `[0, 25)` with chunk 10. -/
theorem coverage_witness :
    ∃ dr, consume (demo_world 0 25 10) demo_calls = .returned dr ∧
      dr.removed = some (demo_subtask 10 15 10) ∧
      fronts dr.pieces ++ [range_of (demo_subtask 10 15 10)] ++ (backs dr.pieces).reverse
        = [(0, 10), (10, 15), (15, 25)] ∧
      Tiles 0 25
        (fronts dr.pieces ++ [range_of (demo_subtask 10 15 10)] ++ (backs dr.pieces).reverse) := by
  have hcov :=
    coverage (demo_world 0 25 10) 1 (demo_subtask 0 25 10) demo_calls
      (by decide) (by decide) (by decide) (by decide) (by decide)
      ⟨by decide, by decide⟩ ⟨by decide, by decide⟩ (by decide) (by decide) (by decide)
  obtain ⟨dr, h, _⟩ := hcov.2 (by decide) (by decide)
  have hv : (consume (demo_world 0 25 10) demo_calls).view
      (fun d => (d.removed, d.pieces))
        = some (some (demo_subtask 10 15 10),
            [⟨false, 2, demo_subtask 0 10 10⟩, ⟨true, 2, demo_subtask 15 25 10⟩]) := by
    decide
  rw [h] at hv
  simp only [Outcome.view, Option.some.injEq, Prod.mk.injEq] at hv
  refine ⟨dr, h, hv.1, ?_, ((hcov.1 dr h).1 _ hv.1).1⟩
  rw [hv.2]
  decide

/-! ## C2 — capacity invariant -/

/-- C2.  Let `capacity > 0`.  Every queue record reachable from a successful
`subtask_queue_init capacity` (which sets `first = 0`, `num_used = 0`, `dead = 0`) through
returning calls of enqueue, dequeue, steal and destroy, on any memory and in any order,
satisfies `0 <= num_used <= capacity` and `0 <= first < capacity`.  In such a state an enqueue
that returns `0` found `num_used < capacity` and adds one entry, an enqueue that returns
anything else changes nothing, and a dequeue or steal that changes `num_used` found
`num_used > 0` and takes exactly one entry away. -/
theorem capacity_invariant (capacity : Int) (hcap : 0 < capacity) (q : subtask_queue)
    (hq : Reachable capacity q) :
    ((subtask_queue_init capacity false).1 = 0 ∧
      (subtask_queue_init capacity false).2.first = 0 ∧
      (subtask_queue_init capacity false).2.num_used = 0 ∧
      (subtask_queue_init capacity false).2.dead = 0) ∧
    (0 ≤ q.num_used ∧ q.num_used ≤ q.capacity ∧ 0 ≤ q.first ∧ q.first < q.capacity ∧
      q.capacity = capacity) ∧
    (∀ mem ints p env r, subtask_queue_enqueue ⟨q, mem, ints⟩ p env = .returned r →
      (r.code = 0 → q.num_used < q.capacity ∧ r.w.q.num_used = q.num_used + 1) ∧
      (r.code ≠ 0 → r.w.q = q)) ∧
    (∀ mem ints env r, subtask_queue_dequeue ⟨q, mem, ints⟩ env = .returned r →
      r.w.q.num_used ≠ q.num_used → 0 < q.num_used ∧ r.w.q.num_used = q.num_used - 1) ∧
    (∀ mem ints env r, subtask_queue_steal ⟨q, mem, ints⟩ env = .returned r →
      r.w.q.num_used ≠ q.num_used → 0 < q.num_used ∧ r.w.q.num_used = q.num_used - 1) := by
  have hinv := reachable_inv hcap hq
  refine ⟨?_, hinv, ?_, ?_, ?_⟩
  · have hnn : ¬ capacity < 0 := by omega
    simp [subtask_queue_init, hnn]
  · intro mem ints p env r he
    rcases enqueue_cases he with h | h
    · refine ⟨?_, ?_⟩
      · intro h0
        rw [h.1] at h0
        exact absurd h0 (by decide)
      · intro _
        rw [h.2.2.1]
    · obtain ⟨hcode, _, _, hroom, _, _, hn, _⟩ := h
      refine ⟨?_, ?_⟩
      · intro _
        have hroom2 : q.num_used ≠ q.capacity := hroom
        exact ⟨by omega, hn⟩
      · intro hne
        exact absurd hcode hne
  · intro mem ints env r he hchg
    rw [← extract_dequeue] at he
    obtain ⟨_, _, _, hcase⟩ := extract_queue he
    rcases hcase with ⟨_, hn⟩ | ⟨_, hne, _, _, hn, _⟩
    · exact absurd hn hchg
    · have hne2 : q.num_used ≠ 0 := hne
      exact ⟨by omega, hn⟩
  · intro mem ints env r he hchg
    rw [← extract_steal] at he
    obtain ⟨_, _, _, hcase⟩ := extract_queue he
    rcases hcase with ⟨_, hn⟩ | ⟨_, hne, _, _, hn, _⟩
    · exact absurd hn hchg
    · have hne2 : q.num_used ≠ 0 := hne
      exact ⟨by omega, hn⟩

/-- Witness for C2: the state after `subtask_queue_init` with capacity 4 and one enqueue. -/
theorem capacity_invariant_witness :
    Reachable 4 demo_queue ∧
    0 ≤ demo_queue.num_used ∧ demo_queue.num_used ≤ demo_queue.capacity ∧
    0 ≤ demo_queue.first ∧ demo_queue.first < demo_queue.capacity ∧
    demo_queue.capacity = 4 :=
  have h : Reachable 4 demo_queue :=
    Reachable.enqueue (init_world 4 (fun _ => none)) 1 demo_env
      ⟨0, none, ⟨demo_queue, fun _ => none, fun _ => 0⟩⟩ (Reachable.init false _ rfl) rfl
  ⟨h, (capacity_invariant 4 (by decide) demo_queue h).2.1⟩

/-! ## C3 — FIFO at entry granularity -/

/-- C4.  Take a live queue whose head entry `hd` has `int` fields `start < end` and
`chunk >= 0`, and any finite list of dequeue and steal calls, run until one of them removes the
entry.  Whatever the run returns, the cell `*counter` of the entry has been incremented (as an
`int`, `incremented n` being `n` applications of `(*counter)++`) once for each split piece
handed out, no other counter cell having changed; so when the entry has been removed after `k`
descriptors were handed out in all (the `k - 1` pieces and the entry), the counter has been
incremented `k - 1` times, and no cell has changed if no split took place.  As long as the
counter does not pass `INT_MAX` its value is `k - 1` higher.  The call that removes the entry
changes no counter cell, a call that splits increments the cell once and no other cell, and
`subtask_queue_enqueue` changes no counter cell.  When the width `end - start` is an `int` and
the counter pointer is not `NULL`, the run does return. -/
theorem counter_accounting (w : World) (hp : Ptr) (hd : subtask) (calls : List Call)
    (hlive : w.q.dead = 0) (hne : w.q.num_used ≠ 0) (hcap : w.q.capacity ≠ 0)
    (hs : slot_read w.q.buffer w.q.first = some hp) (hm : deref w hp = some hd)
    (hst : in_int hd.start) (hen : in_int hd.end_)
    (hse : hd.start < hd.end_) (_hc : 0 ≤ hd.chunk)
    (hfresh : ∀ c, c ∈ calls → c.env.fresh ≠ NULL ∧ c.env.fresh ≠ hp) :
    (∀ dr, consume w calls = .returned dr →
      dr.w.ints hd.counter = incremented dr.pieces.length (w.ints hd.counter) ∧
      (∀ x, x ≠ hd.counter → dr.w.ints x = w.ints x) ∧
      (dr.removed ≠ none →
        dr.w.ints hd.counter = incremented (returned_total dr - 1) (w.ints hd.counter)) ∧
      (dr.removed ≠ none → returned_total dr = 1 → dr.w.ints = w.ints) ∧
      (dr.removed ≠ none → in_int (w.ints hd.counter) →
        w.ints hd.counter + ((returned_total dr : Nat) : Int) - 1 ≤ INT_MAX →
        dr.w.ints hd.counter = w.ints hd.counter + ((returned_total dr : Nat) : Int) - 1)) ∧
    (∀ c r, c.env.fresh ≠ hp → extract w c = .returned r →
      (r.out = some hp → r.w.ints = w.ints) ∧
      (r.out = some c.env.fresh →
        r.w.ints hd.counter = wrap32 (w.ints hd.counter + 1) ∧
        ∀ x, x ≠ hd.counter → r.w.ints x = w.ints x)) ∧
    (∀ p env r, subtask_queue_enqueue w p env = .returned r → r.w.ints = w.ints) ∧
    (hd.end_ - hd.start ≤ INT_MAX → hd.counter ≠ NULL →
      ∃ dr, consume w calls = .returned dr) := by
  refine ⟨?_, ?_, ?_, ?_⟩
  · intro dr hdr
    obtain ⟨last, _, _, _, hcount, hother, _⟩ :=
      consume_legal calls w hp hd hlive hne hcap hs hm hst hen hse hfresh dr hdr
    have htot : dr.removed ≠ none → returned_total dr - 1 = dr.pieces.length := by
      intro hrem
      have hsome : dr.removed.isSome = true := Option.isSome_iff_ne_none.mpr hrem
      simp [returned_total, hsome]
    refine ⟨hcount, hother, ?_, ?_, ?_⟩
    · intro hrem
      rw [htot hrem]
      exact hcount
    · intro hrem h1
      have hlen : dr.pieces.length = 0 := by
        rw [← htot hrem, h1]
      funext x
      by_cases hx : x = hd.counter
      · rw [hx, hcount, hlen]
        rfl
      · exact hother x hx
    · intro hrem hin hle
      have hsome : dr.removed.isSome = true := Option.isSome_iff_ne_none.mpr hrem
      have hcast : ((returned_total dr : Nat) : Int) = (dr.pieces.length : Int) + 1 := by
        simp [returned_total, hsome]
      rw [hcast] at hle ⊢
      rw [hcount, incremented_exact _ _ hin (by omega)]
      omega
  · intro c r hfr he
    rcases extract_cases he with ⟨ho, _⟩ | ⟨p, w1, hg, _, _, hout, _, hints, _⟩
    · rw [ho]
      exact ⟨fun h => Option.noConfusion h, fun h => Option.noConfusion h⟩
    · obtain ⟨hp2, hd2, hs2, hm2, _, hcase⟩ := chunk_cases hg
      rw [hs] at hs2
      cases hs2
      rw [hm] at hm2
      cases hm2
      rw [hout, hints]
      rcases hcase with ⟨_, _, hpe, _, _, _, _, hb⟩ | ⟨_, hpe, _, hw1⟩
      · rw [hpe, hb]
        refine ⟨fun h => absurd (Option.some.inj h) hfr, fun _ => ⟨?_, ?_⟩⟩
        · simp [bump]
        · intro x hx
          simp [bump, hx]
      · rw [hpe, hw1]
        exact ⟨fun _ => rfl, fun h => absurd (Option.some.inj h).symm hfr⟩
  · intro p env r he
    rcases enqueue_cases he with h | h
    · rw [h.2.2.1]
    · exact h.2.2.2.2.2.2.2.2.2.2.2
  · intro hw hcn
    obtain ⟨dr, _, hcons, _⟩ :=
      consume_spec calls w hp hd hlive hne hcap hs hm ⟨hst, hen, hse, hw⟩ (fun _ _ => hcn)
        hfresh
    exact ⟨dr, hcons⟩

/-- Witness for C4: three descriptors handed out, the counter two higher. -/
theorem counter_accounting_witness :
    ∃ dr, consume (demo_world 0 25 10) demo_calls = .returned dr ∧
      returned_total dr = 3 ∧ dr.w.ints 300 = (demo_world 0 25 10).ints 300 + 3 - 1 := by
  have hacc :=
    counter_accounting (demo_world 0 25 10) 1 (demo_subtask 0 25 10) demo_calls
      (by decide) (by decide) (by decide) (by decide) (by decide)
      ⟨by decide, by decide⟩ ⟨by decide, by decide⟩ (by decide) (by decide) (by decide)
  obtain ⟨dr, h⟩ := hacc.2.2.2 (by decide) (by decide)
  have hv : (consume (demo_world 0 25 10) demo_calls).view
      (fun d => (d.removed.isSome, returned_total d)) = some (true, 3) := by
    decide
  rw [h] at hv
  simp only [Outcome.view, Option.some.injEq, Prod.mk.injEq] at hv
  have hne : dr.removed ≠ none := Option.isSome_iff_ne_none.mp hv.1
  have h4 := (hacc.1 dr h).2.2.2.2 hne ⟨by decide, by decide⟩ (by rw [hv.2]; decide)
  rw [hv.2] at h4
  exact ⟨dr, h, hv.2, h4⟩

/-! ## C5 — what steal takes -/

/-- C5, as stated, fails: on a live queue whose only entry is `[0, 5)` with `chunk = 10`,
`subtask_queue_steal` succeeds and hands out the head object itself (address 1) with its whole
range `[0, 5)`; the entry leaves the queue (`num_used` drops from 1 to 0 and `first` moves
from 0 to 1). -/
theorem steal_removes_whole_entry :
    (demo_world 0 5 10).q.dead = 0 ∧ (demo_world 0 5 10).q.num_used = 1 ∧
    (demo_world 0 5 10).q.first = 0 ∧
    slot_read (demo_world 0 5 10).q.buffer (demo_world 0 5 10).q.first = some 1 ∧
    (subtask_queue_steal (demo_world 0 5 10) demo_env).view
        (fun r => (r.code, r.out, r.w.q.num_used, r.w.q.first, deref r.w 1))
      = some (0, some 1, 0, 1, some (demo_subtask 0 5 10)) := by
  decide

/-- C5, amended.  On a live, non-empty queue whose head entry `hd` has `int` fields
`start < end`, with `malloc` handing out a fresh non-null block: if `chunk == 0`,
`subtask_queue_steal` returns `0` and hands out nothing.  A steal that hands out a descriptor
returns `0` and does one of two things.  If `0 < chunk < end - start` it hands out a new
descriptor covering `[end - chunk, end)`, a proper sub-range at the tail of the head's range,
and the head stays queued with range `[start, end - chunk)`, `first`, `num_used` and the slot
array unchanged.  Otherwise (`chunk < 0`, or `chunk > 0` and `end - start <= chunk`) it hands
out the head pointer itself and removes the entry whole: no subtask object changes, `num_used`
drops by one and `first` advances.  In no case does the descriptor handed out have
`chunk == 0`.  When `chunk != 0`, the width `end - start` is an `int` and the counter pointer
is not `NULL`, the steal does hand out a descriptor. -/
theorem steal_step (w : World) (env : Env) (hp : Ptr) (hd : subtask)
    (hlive : w.q.dead = 0) (hne : w.q.num_used ≠ 0)
    (hs : slot_read w.q.buffer w.q.first = some hp) (hm : deref w hp = some hd)
    (hst : in_int hd.start) (hen : in_int hd.end_)
    (hpos : hd.start < hd.end_) (hcap : w.q.capacity ≠ 0)
    (hf : env.fresh ≠ NULL) (hfresh : w.mem env.fresh = none) :
    (hd.chunk = 0 → subtask_queue_steal w env = .returned ⟨0, none, w⟩) ∧
    (∀ r p, subtask_queue_steal w env = .returned r → r.out = some p →
      r.code = 0 ∧ hd.chunk ≠ 0 ∧
      ((0 < hd.chunk ∧ hd.chunk < hd.end_ - hd.start ∧ p = env.fresh ∧
          r.w.mem env.fresh = some { hd with start := hd.end_ - hd.chunk } ∧
          hd.start < hd.end_ - hd.chunk ∧ hd.end_ - hd.chunk < hd.end_ ∧
          r.w.mem hp = some { hd with end_ := hd.end_ - hd.chunk } ∧
          r.w.q.buffer = w.q.buffer ∧ r.w.q.first = w.q.first ∧
          r.w.q.num_used = w.q.num_used) ∨
       (¬ (0 < hd.chunk ∧ hd.chunk < hd.end_ - hd.start) ∧ p = hp ∧
          r.w.mem = w.mem ∧ r.w.q.buffer = w.q.buffer ∧
          r.w.q.num_used = w.q.num_used - 1 ∧
          r.w.q.first = Int.tmod (w.q.first + 1) w.q.capacity))) ∧
    (∀ r p d, subtask_queue_steal w env = .returned r → r.out = some p →
      r.w.mem p = some d → d.chunk ≠ 0) ∧
    (hd.chunk ≠ 0 → hd.end_ - hd.start ≤ INT_MAX → hd.counter ≠ NULL →
      ∃ r p, subtask_queue_steal w env = .returned r ∧ r.out = some p) := by
  have hmem := (deref_some hm).2
  have hfr : env.fresh ≠ hp := by
    intro h
    rw [h, hmem] at hfresh
    exact Option.noConfusion hfresh
  have hfr2 : ¬ hp = env.fresh := fun h => hfr h.symm
  have hmain : ∀ r p, subtask_queue_steal w env = .returned r → r.out = some p →
      r.code = 0 ∧ hd.chunk ≠ 0 ∧
      ((0 < hd.chunk ∧ hd.chunk < hd.end_ - hd.start ∧ p = env.fresh ∧
          r.w.mem env.fresh = some { hd with start := hd.end_ - hd.chunk } ∧
          hd.start < hd.end_ - hd.chunk ∧ hd.end_ - hd.chunk < hd.end_ ∧
          r.w.mem hp = some { hd with end_ := hd.end_ - hd.chunk } ∧
          r.w.q.buffer = w.q.buffer ∧ r.w.q.first = w.q.first ∧
          r.w.q.num_used = w.q.num_used) ∨
       (¬ (0 < hd.chunk ∧ hd.chunk < hd.end_ - hd.start) ∧ p = hp ∧
          r.w.mem = w.mem ∧ r.w.q.buffer = w.q.buffer ∧
          r.w.q.num_used = w.q.num_used - 1 ∧
          r.w.q.first = Int.tmod (w.q.first + 1) w.q.capacity)) := by
    intro r p hret hout
    by_cases hc : hd.chunk = 0
    · rw [steal_unsplittable env hne hs hm hc] at hret
      cases hret
      exact Option.noConfusion hout
    · have hstuck : ¬ ∀ fe fresh, jobqueue_get_subtask_chunk w fe fresh = .crashed := by
        intro hcr
        have he := extract_stuck (c := ⟨true, env⟩) hlive hne hs hm (Or.inl hc) hcr
        rw [extract_steal, hret] at he
        exact Outcome.noConfusion he
      have hw : hd.end_ - hd.start ≤ INT_MAX := by
        by_contra hw
        exact hstuck (fun fe fresh =>
          chunk_assert_fails fe fresh hs hm (wide_range_wraps hst hen hw))
      have hwr : well_ranged hd := ⟨hst, hen, hpos, hw⟩
      by_cases hsplit : 0 < hd.chunk ∧ hd.chunk < hd.end_ - hd.start
      · have hcn : hd.counter ≠ NULL := by
          intro hcn
          exact hstuck (fun fe fresh => chunk_null_counter fe fresh hs hm
            (by rw [well_ranged_width hwr]; simp only [gt_iff_lt, not_not]; omega)
            (by rw [well_ranged_width hwr]; exact hsplit) hcn)
        rw [steal_split hlive hne hs hm hwr hsplit.1 hsplit.2 hcn hf hfr] at hret
        cases hret
        cases hout
        refine ⟨rfl, hc, Or.inl ⟨hsplit.1, hsplit.2, rfl, ?_⟩⟩
        simp only [steal_exit_mem, steal_exit_core]
        simp only [after_split, store, shrink_back, piece_back]
        exact ⟨by simp [hfr], by omega, by omega, by simp, trivial, trivial, trivial⟩
      · rw [steal_whole hlive hne hs hm hc hwr hsplit hcap] at hret
        cases hret
        cases hout
        refine ⟨rfl, hc, Or.inr ⟨hsplit, rfl, ?_⟩⟩
        simp only [steal_exit_mem, steal_exit_core]
        exact ⟨rfl, rfl, rfl, rfl⟩
  refine ⟨fun hc => steal_unsplittable env hne hs hm hc, hmain, ?_, ?_⟩
  · intro r p d hret hout hd2
    obtain ⟨_, hc, hcase⟩ := hmain r p hret hout
    rcases hcase with ⟨_, _, hpe, hpiece, _⟩ | ⟨_, hpe, hsame, _⟩
    · rw [hpe, hpiece] at hd2
      cases hd2
      exact hc
    · rw [hpe, hsame, hmem] at hd2
      cases hd2
      exact hc
  · intro hc hw hcn
    have hwr : well_ranged hd := ⟨hst, hen, hpos, hw⟩
    by_cases hsplit : 0 < hd.chunk ∧ hd.chunk < hd.end_ - hd.start
    · exact ⟨_, _, steal_split hlive hne hs hm hwr hsplit.1 hsplit.2 hcn hf hfr, rfl⟩
    · exact ⟨_, _, steal_whole hlive hne hs hm hc hwr hsplit hcap, rfl⟩

/-- Witness for C5 (amended): the steal that takes the whole entry `[0, 5)` with chunk 10. -/
theorem steal_step_witness :
    ∃ r, subtask_queue_steal (demo_world 0 5 10) demo_env = .returned r ∧ r.code = 0 ∧
      r.out = some 1 ∧ r.w.mem = (demo_world 0 5 10).mem ∧ r.w.q.num_used = 0 ∧
      r.w.q.first = 1 := by
  have hstep :=
    steal_step (demo_world 0 5 10) demo_env 1 (demo_subtask 0 5 10)
      (by decide) (by decide) (by decide) (by decide) ⟨by decide, by decide⟩
      ⟨by decide, by decide⟩ (by decide) (by decide) (by decide) (by decide)
  obtain ⟨r, p, h, hout⟩ := hstep.2.2.2 (by decide) (by decide) (by decide)
  obtain ⟨hcode, _, hcase⟩ := hstep.2.1 r p h hout
  rcases hcase with ⟨_, hlt, _⟩ | ⟨_, hpe, hsame, _, hnum, hfirst⟩
  · exact absurd hlt (by decide)
  · rw [hpe] at hout
    exact ⟨r, h, hcode, hout, hsame, hnum, hfirst⟩

/-! ## C6 — terminated enqueue and dequeue -/

/-- C6. On a queue whose `dead` flag is set, `subtask_queue_enqueue` and
`subtask_queue_dequeue` both return `-1` at once (they do not wait), write nothing through the
output argument, insert nothing, and leave the whole memory (buffer, `first`, `num_used` and
everything else) as it was. -/
theorem terminated_enqueue_dequeue (w : World) (p : Ptr) (env : Env) (hdead : w.q.dead ≠ 0) :
    subtask_queue_enqueue w p env = .returned ⟨-1, none, w⟩ ∧
    subtask_queue_dequeue w env = .returned ⟨-1, none, w⟩ :=
  ⟨enqueue_dead p env hdead, dequeue_dead env hdead⟩

/-- Witness for C6: the demo queue with `dead` set. -/
theorem terminated_enqueue_dequeue_witness :
    subtask_queue_enqueue
        { demo_world 0 100 10 with q := { demo_queue with dead := 1 } } 7 demo_env
      = .returned ⟨-1, none, { demo_world 0 100 10 with q := { demo_queue with dead := 1 } }⟩ ∧
    subtask_queue_dequeue
        { demo_world 0 100 10 with q := { demo_queue with dead := 1 } } demo_env
      = .returned ⟨-1, none, { demo_world 0 100 10 with q := { demo_queue with dead := 1 } }⟩ :=
  terminated_enqueue_dequeue _ 7 demo_env (by decide)

/-! ## C7 — steal on a destroyed queue -/

/-- C7.  What `subtask_queue_steal` does on a destroyed queue.  First run: a queue of
capacity 1 takes the descriptor at address 1 (range `[0, 1)`, `chunk == 0`), gives it back
through dequeue and is destroyed; destroy returns with `dead` set and `num_used == 0`, and the
steal that follows returns `0`, not `-1`, because the slot it inspects still names the old
descriptor, whose `chunk` is zero.  Second run: a queue is created and destroyed at once; the
steal that follows dereferences the null pointer left in slot 0.  Third run: with a stale
descriptor of non-zero `chunk` the steal does return `-1`.  Last: on a queue that still holds an
entry, destroy does not return but waits. -/
theorem steal_after_destroy :
    (∃ w1 w2 w3,
      subtask_queue_enqueue
          (init_world 1 (fun p => if p = 1 then some (demo_subtask 0 1 0) else none)) 1 demo_env
        = .returned ⟨0, none, w1⟩ ∧
      subtask_queue_dequeue w1 demo_env = .returned ⟨0, some 1, w2⟩ ∧
      subtask_queue_destroy w2 = .returned (0, w3) ∧
      w3.q.dead = 1 ∧ w3.q.num_used = 0 ∧
      subtask_queue_steal w3 demo_env = .returned ⟨0, none, w3⟩) ∧
    (∃ w3,
      subtask_queue_destroy (init_world 1 (fun _ => none)) = .returned (0, w3) ∧
      w3.q.dead = 1 ∧ w3.q.num_used = 0 ∧
      subtask_queue_steal w3 demo_env = .crashed) ∧
    (∃ w1 w2 w3,
      subtask_queue_enqueue
          (init_world 1 (fun p => if p = 1 then some (demo_subtask 0 1 1) else none)) 1 demo_env
        = .returned ⟨0, none, w1⟩ ∧
      subtask_queue_dequeue w1 demo_env = .returned ⟨0, some 1, w2⟩ ∧
      subtask_queue_destroy w2 = .returned (0, w3) ∧
      w3.q.dead = 1 ∧ w3.q.num_used = 0 ∧
      subtask_queue_steal w3 demo_env = .returned ⟨-1, none, w3⟩) ∧
    (subtask_queue_destroy (demo_world 0 100 10)).is_blocked = true := by
  refine ⟨⟨_, _, _, rfl, rfl, rfl, rfl, rfl, rfl⟩, ⟨_, rfl, rfl, rfl, rfl⟩,
    ⟨_, _, _, rfl, rfl, rfl, rfl, rfl, rfl⟩, rfl⟩

/-! ## C8 — steal finding no work -/

/-- C8.  On a live queue, `subtask_queue_steal` returns `0` whenever it returns.  If the queue
is empty, or its head entry has `chunk == 0`, it returns `0` without writing the output slot and
leaves the whole memory (slot array, `first`, `num_used`, the head's range, the counters) as it
was.  The output slot is left unwritten exactly in those no-work states; when it is written,
the pointer stored is non-null and is the one `jobqueue_get_subtask_chunk` extracted.  When the
head entry is a valid descriptor with `chunk != 0`, with `int` fields `start < end` whose
difference `end - start` is an `int` as well, and with a non-null counter pointer (and `malloc`
succeeds), the call does return and does write the slot. -/
theorem steal_no_work (w : World) (env : Env) (hlive : w.q.dead = 0) :
    (no_work w → subtask_queue_steal w env = .returned ⟨0, none, w⟩) ∧
    (∀ r, subtask_queue_steal w env = .returned r →
      r.code = 0 ∧ (r.out = none ↔ no_work w) ∧ (r.out = none → r.w = w) ∧
      (∀ p, r.out = some p → p ≠ NULL ∧
        ∃ w1, jobqueue_get_subtask_chunk w 1 env.fresh = .returned (p, w1) ∧
          r.w.mem = w1.mem ∧ r.w.ints = w1.ints ∧ r.w.q.num_used = w1.q.num_used ∧
          r.w.q.first = w1.q.first ∧ r.w.q.buffer = w1.q.buffer)) ∧
    (∀ hp hd, w.q.num_used ≠ 0 → slot_read w.q.buffer w.q.first = some hp →
      deref w hp = some hd → hd.chunk ≠ 0 → well_ranged hd → hd.counter ≠ NULL →
      w.q.capacity ≠ 0 → env.fresh ≠ NULL → w.mem env.fresh = none →
      ∃ r p, subtask_queue_steal w env = .returned r ∧ r.code = 0 ∧ r.out = some p) := by
  have hnw : no_work w → subtask_queue_steal w env = .returned ⟨0, none, w⟩ := by
    intro h
    rcases h with he | ⟨hp, hd, hs, hm, hc⟩
    · exact steal_empty env hlive he
    · by_cases he : w.q.num_used = 0
      · exact steal_empty env hlive he
      · exact steal_unsplittable env he hs hm hc
  refine ⟨hnw, ?_, ?_⟩
  · intro r hret
    by_cases hw : no_work w
    · rw [hnw hw] at hret
      cases hret
      simp [hw]
    · have he : w.q.num_used ≠ 0 := fun h => hw (Or.inl h)
      unfold subtask_queue_steal at hret
      simp only [subtask_queue_is_empty, he, decide_False, Bool.false_and] at hret
      cases hs : slot_read w.q.buffer w.q.first with
      | none => simp [hs] at hret
      | some hp =>
        cases hm : deref w hp with
        | none => simp [hs, hm] at hret
        | some hd =>
          have hc : hd.chunk ≠ 0 := fun h => hw (Or.inr ⟨hp, hd, hs, hm, h⟩)
          simp only [hs, hm, hc, hlive, ne_eq, not_true_eq_false, if_false] at hret
          cases hg : jobqueue_get_subtask_chunk w 1 env.fresh with
          | blocked => simp [hg] at hret
          | crashed => simp [hg] at hret
          | returned pw =>
            obtain ⟨p, w1⟩ := pw
            simp only [hg] at hret
            have hpn : p ≠ NULL := by
              obtain ⟨hp2, hd2, hs2, hm2, _, hcase⟩ := chunk_cases hg
              rcases hcase with ⟨_, _, hpe, hfn, _⟩ | ⟨_, hpe, _⟩
              · rw [hpe]
                exact hfn
              · rw [hpe]
                exact (deref_some hm2).1
            simp only [hpn, if_false] at hret
            cases hret
            refine ⟨rfl, ?_, ?_, ?_⟩
            · simp [hw]
            · intro h
              exact Option.noConfusion h
            · intro p2 hp2
              cases hp2
              exact ⟨hpn, w1, rfl, rfl, rfl, by
                split <;> simp [record_dequeue], by split <;> simp [record_dequeue], by
                split <;> simp [record_dequeue]⟩
  · intro hp hd he hs hm hc hpos hcn hcap hf hfresh
    have hmem := (deref_some hm).2
    have hfr : env.fresh ≠ hp := by
      intro h
      rw [h, hmem] at hfresh
      exact Option.noConfusion hfresh
    by_cases hsplit : 0 < hd.chunk ∧ hd.chunk < hd.end_ - hd.start
    · exact ⟨_, _, steal_split hlive he hs hm hpos hsplit.1 hsplit.2 hcn hf hfr, rfl, rfl⟩
    · exact ⟨_, _, steal_whole hlive he hs hm hc hpos hsplit hcap, rfl, rfl⟩

/-- Witness for C8: a steal on a head entry with `chunk == 0`. -/
theorem steal_no_work_witness :
    subtask_queue_steal (demo_world 0 100 0) demo_env
      = .returned ⟨0, none, demo_world 0 100 0⟩ :=
  (steal_no_work (demo_world 0 100 0) demo_env (by decide)).1
    (Or.inr ⟨1, demo_subtask 0 100 0, by decide, by decide, by decide⟩)

/-! ## C9 — the split step -/

/-- C9, as stated, fails: the head entry with `start = -1`, `end = 2147483647` and `chunk = 10`
has `chunk > 0` and `end - start = 2147483648 > chunk`, all three fields being `int` values, and
on a live queue holding it neither `subtask_queue_dequeue` nor `subtask_queue_steal` returns a
descriptor: the difference `end - start` is not an `int`, the value the routine computes for it
is `-2147483648`, and the check `assert(remaining_iter > 0)` stops the process. -/
theorem split_step_needs_int_width :
    (demo_world (-1) 2147483647 10).q.dead = 0 ∧
    (demo_world (-1) 2147483647 10).q.num_used = 1 ∧
    slot_read (demo_world (-1) 2147483647 10).q.buffer (demo_world (-1) 2147483647 10).q.first
      = some 1 ∧
    deref (demo_world (-1) 2147483647 10) 1 = some (demo_subtask (-1) 2147483647 10) ∧
    0 < (demo_subtask (-1) 2147483647 10).chunk ∧
    (demo_subtask (-1) 2147483647 10).chunk
      < (demo_subtask (-1) 2147483647 10).end_ - (demo_subtask (-1) 2147483647 10).start ∧
    INT_MIN ≤ (demo_subtask (-1) 2147483647 10).start ∧
    (demo_subtask (-1) 2147483647 10).end_ ≤ INT_MAX ∧
    wrap32 ((demo_subtask (-1) 2147483647 10).end_ - (demo_subtask (-1) 2147483647 10).start)
      = -2147483648 ∧
    (subtask_queue_dequeue (demo_world (-1) 2147483647 10) demo_env).is_crashed = true ∧
    (subtask_queue_steal (demo_world (-1) 2147483647 10) demo_env).is_crashed = true := by
  decide

/-- C9, amended.  On a live, non-empty queue whose head entry `hd` (the object at
`buffer[first]`) has `int` fields `start` and `end`, `chunk > 0` and
`chunk < end - start <= INT_MAX`, and a non-null counter pointer, with `malloc` handing out a
fresh non-null block: `subtask_queue_dequeue` returns `0` with a new descriptor equal to the
head except that it ends at `start + chunk`, and moves the head's `start` to `start + chunk`;
`subtask_queue_steal` returns `0` with a new descriptor equal to the head except that it starts
at `end - chunk`, and moves the head's `end` to `end - chunk`.  In both cases the slot array,
`first` and `num_used` are unchanged (the head stays in its slot), the shared counter has been
incremented once as an `int`, which makes it one higher unless it was `INT_MAX`, no other
counter cell changes and no other subtask object changes. -/
theorem split_step (w : World) (env : Env) (hp : Ptr) (hd : subtask)
    (hlive : w.q.dead = 0) (hne : w.q.num_used ≠ 0)
    (hs : slot_read w.q.buffer w.q.first = some hp) (hm : deref w hp = some hd)
    (hst : in_int hd.start) (hen : in_int hd.end_)
    (hc : 0 < hd.chunk) (hr : hd.chunk < hd.end_ - hd.start)
    (hw : hd.end_ - hd.start ≤ INT_MAX) (hcn : hd.counter ≠ NULL)
    (hf : env.fresh ≠ NULL) (hfresh : w.mem env.fresh = none) :
    (∃ r, subtask_queue_dequeue w env = .returned r ∧ r.code = 0 ∧ r.out = some env.fresh ∧
      r.w.mem env.fresh = some { hd with end_ := hd.start + hd.chunk } ∧
      r.w.mem hp = some { hd with start := hd.start + hd.chunk } ∧
      r.w.q.buffer = w.q.buffer ∧ r.w.q.first = w.q.first ∧ r.w.q.num_used = w.q.num_used ∧
      r.w.ints hd.counter = wrap32 (w.ints hd.counter + 1) ∧
      (in_int (w.ints hd.counter) → w.ints hd.counter < INT_MAX →
        r.w.ints hd.counter = w.ints hd.counter + 1) ∧
      (∀ c, c ≠ hd.counter → r.w.ints c = w.ints c) ∧
      (∀ x, x ≠ hp → x ≠ env.fresh → r.w.mem x = w.mem x)) ∧
    (∃ r, subtask_queue_steal w env = .returned r ∧ r.code = 0 ∧ r.out = some env.fresh ∧
      r.w.mem env.fresh = some { hd with start := hd.end_ - hd.chunk } ∧
      r.w.mem hp = some { hd with end_ := hd.end_ - hd.chunk } ∧
      r.w.q.buffer = w.q.buffer ∧ r.w.q.first = w.q.first ∧ r.w.q.num_used = w.q.num_used ∧
      r.w.ints hd.counter = wrap32 (w.ints hd.counter + 1) ∧
      (in_int (w.ints hd.counter) → w.ints hd.counter < INT_MAX →
        r.w.ints hd.counter = w.ints hd.counter + 1) ∧
      (∀ c, c ≠ hd.counter → r.w.ints c = w.ints c) ∧
      (∀ x, x ≠ hp → x ≠ env.fresh → r.w.mem x = w.mem x)) := by
  have hmem := (deref_some hm).2
  have hfr : env.fresh ≠ hp := by
    intro h
    rw [h, hmem] at hfresh
    exact Option.noConfusion hfresh
  have hfr2 : ¬ hp = env.fresh := fun h => hfr h.symm
  have hwr : well_ranged hd := ⟨hst, hen, by omega, hw⟩
  have hone : in_int (w.ints hd.counter) → w.ints hd.counter < INT_MAX →
      wrap32 (w.ints hd.counter + 1) = w.ints hd.counter + 1 := by
    intro hin hlt
    apply wrap32_of_in_int
    unfold in_int INT_MIN INT_MAX at hin ⊢
    unfold INT_MAX at hlt
    omega
  constructor
  · refine ⟨_, dequeue_split hlive hne hs hm hwr hc hr hcn hf hfr, rfl, rfl, ?_⟩
    simp only [dequeue_exit_mem, dequeue_exit_ints, dequeue_exit_core]
    simp only [after_split, store, bump, shrink_front, piece_front]
    refine ⟨by simp [hfr], by simp, trivial, trivial, trivial, by simp, ?_, ?_, ?_⟩
    · intro hin hlt
      simpa using hone hin hlt
    · intro c hcne
      simp [hcne]
    · intro x hx1 hx2
      simp [hx1, hx2]
  · refine ⟨_, steal_split hlive hne hs hm hwr hc hr hcn hf hfr, rfl, rfl, ?_⟩
    simp only [steal_exit_mem, steal_exit_ints, steal_exit_core]
    simp only [after_split, store, bump, shrink_back, piece_back]
    refine ⟨by simp [hfr], by simp, trivial, trivial, trivial, by simp, ?_, ?_, ?_⟩
    · intro hin hlt
      simpa using hone hin hlt
    · intro c hcne
      simp [hcne]
    · intro x hx1 hx2
      simp [hx1, hx2]

/-- Witness for C9 (amended): the entry `[0, 100)` with chunk 10. -/
theorem split_step_witness :
    (∃ r, subtask_queue_dequeue (demo_world 0 100 10) demo_env = .returned r ∧
      r.code = 0 ∧ r.out = some 2 ∧
      r.w.mem 2 = some (demo_subtask 0 10 10) ∧ r.w.mem 1 = some (demo_subtask 10 100 10) ∧
      r.w.q.first = 0 ∧ r.w.q.num_used = 1 ∧ r.w.ints 300 = 1) ∧
    (∃ r, subtask_queue_steal (demo_world 0 100 10) demo_env = .returned r ∧
      r.code = 0 ∧ r.out = some 2 ∧
      r.w.mem 2 = some (demo_subtask 90 100 10) ∧ r.w.mem 1 = some (demo_subtask 0 90 10) ∧
      r.w.q.first = 0 ∧ r.w.q.num_used = 1 ∧ r.w.ints 300 = 1) := by
  obtain ⟨⟨r, h, h1, h2, h3, h4, _, h6, h7, _, h8, _⟩,
      ⟨r2, k, k1, k2, k3, k4, _, k6, k7, _, k8, _⟩⟩ :=
    split_step (demo_world 0 100 10) demo_env 1 (demo_subtask 0 100 10)
      (by decide) (by decide) (by decide) (by decide) ⟨by decide, by decide⟩
      ⟨by decide, by decide⟩ (by decide) (by decide) (by decide) (by decide) (by decide)
      (by decide)
  exact ⟨⟨r, h, h1, h2, h3, h4, h6, h7, h8 ⟨by decide, by decide⟩ (by decide)⟩,
    ⟨r2, k, k1, k2, k3, k4, k6, k7, k8 ⟨by decide, by decide⟩ (by decide)⟩⟩

/-! ## C10 — wholesale removal -/

/-- C10, as stated, fails: the head entry with `start = -1`, `end = 2147483647` and
`chunk == 0` has `int` fields with `start < end`, and on a live queue holding it
`subtask_queue_dequeue` does not return: the difference `end - start = 2147483648` is not an
`int`, the value the routine computes for it is `-2147483648`, and the check
`assert(remaining_iter > 0)` stops the process. -/
theorem wholesale_removal_needs_int_width :
    (demo_world (-1) 2147483647 0).q.dead = 0 ∧ (demo_world (-1) 2147483647 0).q.num_used = 1 ∧
    slot_read (demo_world (-1) 2147483647 0).q.buffer (demo_world (-1) 2147483647 0).q.first
      = some 1 ∧
    deref (demo_world (-1) 2147483647 0) 1 = some (demo_subtask (-1) 2147483647 0) ∧
    (demo_subtask (-1) 2147483647 0).chunk = 0 ∧
    (demo_subtask (-1) 2147483647 0).start < (demo_subtask (-1) 2147483647 0).end_ ∧
    INT_MIN ≤ (demo_subtask (-1) 2147483647 0).start ∧
    (demo_subtask (-1) 2147483647 0).end_ ≤ INT_MAX ∧
    wrap32 ((demo_subtask (-1) 2147483647 0).end_ - (demo_subtask (-1) 2147483647 0).start)
      = -2147483648 ∧
    (subtask_queue_dequeue (demo_world (-1) 2147483647 0) demo_env).is_crashed = true := by
  decide

/-- C10, amended.  On a live, non-empty queue whose head entry `hd` has `int` fields
`start < end` with `end - start <= INT_MAX`, and either `chunk == 0` or `end - start <= chunk`,
`subtask_queue_dequeue` returns `0` with the head pointer itself, leaves every subtask object as
it was (so the head's `start`, `end` and `chunk` are unmodified), decrements `num_used`, sets
`first` to `(first + 1) % capacity`, leaves the slot array alone and increments no counter. -/
theorem wholesale_removal (w : World) (env : Env) (hp : Ptr) (hd : subtask)
    (hlive : w.q.dead = 0) (hne : w.q.num_used ≠ 0)
    (hs : slot_read w.q.buffer w.q.first = some hp) (hm : deref w hp = some hd)
    (hst : in_int hd.start) (hen : in_int hd.end_)
    (hpos : hd.start < hd.end_) (hw : hd.end_ - hd.start ≤ INT_MAX)
    (hfit : hd.chunk = 0 ∨ hd.end_ - hd.start ≤ hd.chunk)
    (hcap : 0 < w.q.capacity) (hfirst : 0 ≤ w.q.first) :
    ∃ r, subtask_queue_dequeue w env = .returned r ∧ r.code = 0 ∧ r.out = some hp ∧
      r.w.mem = w.mem ∧ deref r.w hp = some hd ∧
      r.w.q.num_used = w.q.num_used - 1 ∧
      r.w.q.first = (w.q.first + 1) % w.q.capacity ∧
      r.w.q.buffer = w.q.buffer ∧ r.w.ints = w.ints := by
  have hno : ¬ (0 < hd.chunk ∧ hd.chunk < hd.end_ - hd.start) := by omega
  refine ⟨_, dequeue_whole hlive hne hs hm ⟨hst, hen, hpos, hw⟩ hno (by omega), rfl, rfl, ?_⟩
  have hmod : Int.tmod (w.q.first + 1) w.q.capacity = (w.q.first + 1) % w.q.capacity :=
    Int.tmod_eq_emod (by omega) (by omega)
  simp only [dequeue_exit_mem, dequeue_exit_ints, dequeue_exit_core]
  refine ⟨rfl, ?_, rfl, ?_, rfl, rfl⟩
  · simpa [deref, dequeue_exit, after_removal] using hm
  · simpa [after_removal] using hmod

/-- Witness for C10 (amended): the entry `[80, 90)` with chunk 10. -/
theorem wholesale_removal_witness :
    ∃ r, subtask_queue_dequeue (demo_world 80 90 10) demo_env = .returned r ∧
      r.code = 0 ∧ r.out = some 1 ∧ deref r.w 1 = some (demo_subtask 80 90 10) ∧
      r.w.q.num_used = 0 ∧ r.w.q.first = 1 ∧ r.w.ints = (demo_world 80 90 10).ints := by
  obtain ⟨r, h, h1, h2, _, h4, h5, h6, _, h8⟩ :=
    wholesale_removal (demo_world 80 90 10) demo_env 1 (demo_subtask 80 90 10)
      (by decide) (by decide) (by decide) (by decide) ⟨by decide, by decide⟩
      ⟨by decide, by decide⟩ (by decide) (by decide) (by decide) (by decide) (by decide)
  exact ⟨r, h, h1, h2, h4, h5, h6, h8⟩

/-! ## C11 — enqueue postcondition and frame -/

/-- C12.  The scenario: a queue is created with capacity 4 and the descriptor `[0, 100)` with
chunk 10 and counter 0 (the object at address 1) is enqueued, which returns `0` and leaves
`num_used = 1`.  The dequeue that follows returns the new descriptor `[0, 10)` and leaves the
entry `[10, 100)`, `num_used = 1`, counter 1.  The steal returns `[90, 100)` and leaves the
entry `[10, 90)`, counter 2.  The next seven dequeues return the new descriptors `[10, 20)`,
`[20, 30)`, ..., `[70, 80)`, each leaving `num_used = 1` and raising the counter by one.  The
last dequeue returns the entry itself (address 1) with range `[80, 90)`, leaves `num_used = 0`
and does not touch the counter. -/
theorem spec_scenario :
    ∃ w1, subtask_queue_enqueue scenario_start 1 demo_env = .returned ⟨0, none, w1⟩ ∧
      w1.q.capacity = 4 ∧ w1.q.num_used = 1 ∧ w1.ints 300 = 0 ∧
      deref w1 1 = some (demo_subtask 0 100 10) ∧
      (run w1 scenario_calls).view (fun x => x.1.map observe)
        = some
          [(0, some 2, some (0, 10), some (10, 100), 1, 1),
           (0, some 3, some (90, 100), some (10, 90), 1, 2),
           (0, some 4, some (10, 20), some (20, 90), 1, 3),
           (0, some 5, some (20, 30), some (30, 90), 1, 4),
           (0, some 6, some (30, 40), some (40, 90), 1, 5),
           (0, some 7, some (40, 50), some (50, 90), 1, 6),
           (0, some 8, some (50, 60), some (60, 90), 1, 7),
           (0, some 9, some (60, 70), some (70, 90), 1, 8),
           (0, some 10, some (70, 80), some (80, 90), 1, 9),
           (0, some 1, some (80, 90), some (80, 90), 0, 9)] := by
  exact ⟨demo_world 0 100 10, rfl, rfl, rfl, rfl, rfl, rfl⟩

/-! ## C13 — the dead flag -/

/-- C13.  In every queue record reachable from `subtask_queue_init` through returning calls,
`dead` set implies `num_used == 0` (and `dead` is 0 or 1).  On any memory: a destroy that
returns found `num_used == 0` and leaves `dead = 1` with `num_used` still `0`; a returning
enqueue, dequeue or steal leaves `dead` exactly as it was, so none of them sets or clears it,
and if `dead` was set it leaves `num_used` as it was. -/
theorem dead_flag_monotonic (capacity : Int) (q : subtask_queue) (hq : Reachable capacity q) :
    ((q.dead ≠ 0 → q.num_used = 0) ∧ (q.dead = 0 ∨ q.dead = 1)) ∧
    (∀ (w : World) code w1, subtask_queue_destroy w = .returned (code, w1) →
      w.q.num_used = 0 ∧ w1.q.dead = 1 ∧ w1.q.num_used = 0) ∧
    (∀ (w : World) p env r, subtask_queue_enqueue w p env = .returned r →
      r.w.q.dead = w.q.dead ∧ (w.q.dead ≠ 0 → r.w.q.num_used = w.q.num_used)) ∧
    (∀ (w : World) env r, subtask_queue_dequeue w env = .returned r →
      r.w.q.dead = w.q.dead ∧ (w.q.dead ≠ 0 → r.w.q.num_used = w.q.num_used)) ∧
    (∀ (w : World) env r, subtask_queue_steal w env = .returned r →
      r.w.q.dead = w.q.dead ∧ (w.q.dead ≠ 0 → r.w.q.num_used = w.q.num_used)) := by
  refine ⟨reachable_dead hq, ?_, ?_, ?_, ?_⟩
  · intro w code w1 he
    obtain ⟨hn, _, hw1⟩ := destroy_cases he
    rw [hw1]
    exact ⟨hn, rfl, hn⟩
  · intro w p env r he
    rcases enqueue_cases he with h | h
    · rw [h.2.2.1]
      exact ⟨rfl, fun _ => rfl⟩
    · obtain ⟨_, _, hlive, _, _, _, _, _, _, hdd, _⟩ := h
      exact ⟨hdd, fun hdead => absurd hlive hdead⟩
  · intro w env r he
    rw [← extract_dequeue] at he
    exact extract_dead he
  · intro w env r he
    rw [← extract_steal] at he
    exact extract_dead he

/-- Witness for C13: the state after `subtask_queue_init` with capacity 4 and a destroy. -/
theorem dead_flag_monotonic_witness :
    Reachable 4 { (subtask_queue_init 4 false).2 with dead := 1 } ∧
    ({ (subtask_queue_init 4 false).2 with dead := 1 } : subtask_queue).dead = 1 ∧
    ({ (subtask_queue_init 4 false).2 with dead := 1 } : subtask_queue).num_used = 0 :=
  have h : Reachable 4 { (subtask_queue_init 4 false).2 with dead := 1 } :=
    Reachable.destroy (init_world 4 (fun _ => none)) 0
      ⟨{ (subtask_queue_init 4 false).2 with dead := 1 }, fun _ => none, fun _ => 0⟩
      (Reachable.init false _ rfl) rfl
  ⟨h, rfl, (dead_flag_monotonic 4 _ h).1.1 (by decide)⟩

/-! ## C14 — lock discipline -/

/-- C14.  Take the synchronisation calls an operation makes, in order, for any number of
rounds of its wait loop and any memory at the moment the loop is left.  For dequeue, steal,
enqueue and destroy the sequence keeps the discipline of `Held.step` from start to end: a
subtask mutex is locked only while the queue mutex is held, it is unlocked before the queue
mutex is unlocked, and no wait on the queue's condition variable happens while a subtask mutex
is held; so the queue mutex always comes first.  At the end the queue mutex is held exactly
when the call has not returned, and no subtask mutex is held, with one exception: a dequeue or
steal that dies at the increment through a `NULL` counter pointer dies holding the head's mutex
(which it took after the queue mutex).  A subtask mutex is locked by dequeue and steal only in
the split branch of `jobqueue_get_subtask_chunk` (head entry with `0 < chunk < end - start`,
the difference as the routine computes it in `int`), and it is the head's mutex; enqueue and
destroy lock no subtask mutex at all. -/
theorem lock_discipline (waits : Nat) (w : World) (p : Ptr) (env : Env) :
    (∃ h, (⟨false, none⟩ : Held).after (subtask_queue_dequeue_sync waits w env) = some h ∧
      h.queue = !(subtask_queue_dequeue w env).is_returned ∧
      (h.subtask = none ∨
        ((subtask_queue_dequeue w env).is_crashed = true ∧
          ∃ hp hd, slot_read w.q.buffer w.q.first = some hp ∧ deref w hp = some hd ∧
            hd.counter = NULL ∧ h.subtask = some hd.mutex))) ∧
    (∃ h, (⟨false, none⟩ : Held).after (subtask_queue_steal_sync w env) = some h ∧
      h.queue = !(subtask_queue_steal w env).is_returned ∧
      (h.subtask = none ∨
        ((subtask_queue_steal w env).is_crashed = true ∧
          ∃ hp hd, slot_read w.q.buffer w.q.first = some hp ∧ deref w hp = some hd ∧
            hd.counter = NULL ∧ h.subtask = some hd.mutex))) ∧
    ((⟨false, none⟩ : Held).after (subtask_queue_enqueue_sync waits w p env)
      = some ⟨!(subtask_queue_enqueue w p env).is_returned, none⟩) ∧
    ((⟨false, none⟩ : Held).after (subtask_queue_destroy_sync waits w)
      = some ⟨!(subtask_queue_destroy w).is_returned, none⟩) ∧
    (∀ m, Sync.lock_subtask m ∈ subtask_queue_dequeue_sync waits w env ∨
        Sync.lock_subtask m ∈ subtask_queue_steal_sync w env →
      w.q.dead = 0 ∧
      ∃ hp hd, slot_read w.q.buffer w.q.first = some hp ∧ deref w hp = some hd ∧
        0 < hd.chunk ∧ hd.chunk < wrap32 (hd.end_ - hd.start) ∧ m = hd.mutex ∧
        env.fresh ≠ NULL) ∧
    (∀ m, Sync.lock_subtask m ∉ subtask_queue_enqueue_sync waits w p env ∧
      Sync.lock_subtask m ∉ subtask_queue_destroy_sync waits w) := by
  refine ⟨dequeue_sync_after waits w env, steal_sync_after w env,
    enqueue_sync_after waits w p env, destroy_sync_after waits w, ?_, ?_⟩
  · intro m hm
    rcases hm with hm | hm
    · unfold subtask_queue_dequeue_sync at hm
      simp only [List.mem_append, List.mem_cons, List.mem_singleton, List.mem_replicate,
        List.not_mem_nil, false_or, or_false, and_false, reduceCtorEq] at hm
      split at hm
      · simp at hm
      · split at hm
        · simp at hm
        · rename_i hdead
          have hlive : w.q.dead = 0 := by simpa using hdead
          simp only [List.mem_append] at hm
          rcases hm with hm | hm
          · exact ⟨hlive, chunk_sync_lock hm⟩
          · cases hg : jobqueue_get_subtask_chunk w 0 env.fresh with
            | blocked => simp [hg] at hm
            | crashed => simp [hg] at hm
            | returned x =>
              obtain ⟨q, w1⟩ := x
              simp only [hg] at hm
              split at hm <;> simp at hm
    · unfold subtask_queue_steal_sync at hm
      simp only [List.mem_append, List.mem_cons, List.mem_singleton, List.not_mem_nil,
        false_or, or_false, reduceCtorEq] at hm
      split at hm
      · simp at hm
      · cases hs : slot_read w.q.buffer w.q.first with
        | none => simp [hs] at hm
        | some hp =>
          cases hd : deref w hp with
          | none => simp [hs, hd] at hm
          | some d =>
            simp only [hs, hd] at hm
            split at hm
            · simp at hm
            · split at hm
              · simp at hm
              · rename_i hdead
                have hlive : w.q.dead = 0 := by simpa using hdead
                simp only [List.mem_append] at hm
                rcases hm with hm | hm
                · have hk := chunk_sync_lock hm
                  rw [hs] at hk
                  exact ⟨hlive, hk⟩
                · cases hg : jobqueue_get_subtask_chunk w 1 env.fresh with
                  | blocked => simp [hg] at hm
                  | crashed => simp [hg] at hm
                  | returned x =>
                    obtain ⟨q, w1⟩ := x
                    simp only [hg] at hm
                    split at hm <;> simp at hm
  · intro m
    constructor
    · unfold subtask_queue_enqueue_sync
      simp only [List.mem_append, List.mem_cons, List.mem_singleton, List.mem_replicate,
        List.not_mem_nil, false_or, or_false, and_false, reduceCtorEq]
      split
      · simp
      · split
        · simp
        · cases subtask_queue_enqueue w p env <;> simp
    · unfold subtask_queue_destroy_sync
      simp only [List.mem_append, List.mem_cons, List.mem_singleton, List.mem_replicate,
        List.not_mem_nil, false_or, or_false, and_false, reduceCtorEq]
      split <;> simp

/-! ## C15 — queued ranges stay non-empty -/

/-- C15, as stated, fails: take the queue created by `subtask_queue_init 4` and enqueue the
descriptor with `start = -1`, `end = 2147483647` and `chunk = 10`, which has `start < end`.
In the memory reached the queued entry still has `start < end`, but a dequeue or a steal that
reaches the assertion finds `remaining_iter = -2147483648` (the difference `end - start` formed
in `int`) and the process stops there. -/
theorem range_invariant_needs_int_width :
    Execution nonempty_range 4 (demo_world (-1) 2147483647 10) ∧
    (demo_world (-1) 2147483647 10).q.dead = 0 ∧
    (demo_world (-1) 2147483647 10).q.num_used = 1 ∧
    slot_read (demo_world (-1) 2147483647 10).q.buffer (demo_world (-1) 2147483647 10).q.first
      = some 1 ∧
    deref (demo_world (-1) 2147483647 10) 1 = some (demo_subtask (-1) 2147483647 10) ∧
    (demo_subtask (-1) 2147483647 10).start < (demo_subtask (-1) 2147483647 10).end_ ∧
    wrap32 ((demo_subtask (-1) 2147483647 10).end_ - (demo_subtask (-1) 2147483647 10).start)
      = -2147483648 ∧
    (subtask_queue_dequeue (demo_world (-1) 2147483647 10) demo_env).is_crashed = true ∧
    (subtask_queue_steal (demo_world (-1) 2147483647 10) demo_env).is_crashed = true :=
  ⟨Execution.enqueue (init_world 4 (demo_world (-1) 2147483647 10).mem) 1
      (demo_subtask (-1) 2147483647 10) demo_env ⟨0, none, demo_world (-1) 2147483647 10⟩
      (Execution.init _ _ _ rfl) rfl (by unfold nonempty_range; decide) rfl,
    by decide, by decide, by decide, by decide, by decide, by decide, by decide, by decide⟩

/-- C15, amended.  Let `0 < capacity <= 2 ^ 30` and consider the memories reachable from a
successful `subtask_queue_init capacity` when every descriptor passed to enqueue has `int`
fields `start < end` with `end - start <= INT_MAX` (`malloc` handing out blocks that hold no
live descriptor, the rest of the program leaving the queued descriptors alone).  In every such
memory every queued entry is a valid descriptor with `start < end` and `end - start` an `int`;
in particular, whenever the queue is non-empty the value `remaining_iter` that the routine
computes for the head entry is `end - start` and is positive, which is what
`assert(remaining_iter > 0)` checks; on a live queue neither dequeue nor steal crashes
(`malloc` returning a non-null block, the head's counter pointer not being `NULL`).  And a
split leaves the head with width `end - start - chunk > 0`. -/
theorem range_invariant (capacity : Int) (hcap : 0 < capacity)
    (hcap30 : capacity ≤ 1073741824) (w : World)
    (hw : Execution well_ranged capacity w) :
    entries_well_ranged w ∧ entries_nonempty w ∧
    (w.q.num_used ≠ 0 → ∃ hp hd, slot_read w.q.buffer w.q.first = some hp ∧
      deref w hp = some hd ∧ wrap32 (hd.end_ - hd.start) = hd.end_ - hd.start ∧
      0 < wrap32 (hd.end_ - hd.start)) ∧
    (∀ env, w.q.dead = 0 → env.fresh ≠ NULL → w.mem env.fresh = none →
      (∀ hp hd, slot_read w.q.buffer w.q.first = some hp → deref w hp = some hd →
        hd.counter ≠ NULL) →
      (subtask_queue_dequeue w env).is_crashed = false ∧
      (subtask_queue_steal w env).is_crashed = false) ∧
    (∀ (c : Call) hp hd, w.q.dead = 0 → w.q.num_used ≠ 0 →
      slot_read w.q.buffer w.q.first = some hp → deref w hp = some hd →
      c.env.fresh ≠ NULL → w.mem c.env.fresh = none → hd.counter ≠ NULL →
      0 < hd.chunk → hd.chunk < hd.end_ - hd.start →
      ∃ r rest, extract w c = .returned r ∧ deref r.w hp = some rest ∧
        rest.end_ - rest.start = hd.end_ - hd.start - hd.chunk ∧
        0 < rest.end_ - rest.start) := by
  have hinv := reachable_inv hcap (execution_reachable hw)
  have hent := execution_entries hcap hcap30 hw
  have hhead : w.q.num_used ≠ 0 → ∃ hp hd, slot_read w.q.buffer w.q.first = some hp ∧
      deref w hp = some hd ∧ well_ranged hd := by
    intro hne
    obtain ⟨hp, hd, hs, hm, hpos⟩ := hent 0 (by
      simp only [Nat.cast_zero]
      omega)
    rw [slot_zero hinv.2.2.1 (by omega)] at hs
    exact ⟨hp, hd, hs, hm, hpos⟩
  refine ⟨hent, entries_well_ranged_nonempty hent, ?_, ?_, ?_⟩
  · intro hne
    obtain ⟨hp, hd, hs, hm, hwr⟩ := hhead hne
    refine ⟨hp, hd, hs, hm, well_ranged_width hwr, ?_⟩
    rw [well_ranged_width hwr]
    have := hwr.2.2.1
    omega
  · intro env hlive hf hfresh hcn
    have hhead2 : w.q.num_used ≠ 0 → ∃ hp hd, slot_read w.q.buffer w.q.first = some hp ∧
        deref w hp = some hd ∧ well_ranged hd ∧ hd.counter ≠ NULL := by
      intro hne
      obtain ⟨hp, hd, hs, hm, hwr⟩ := hhead hne
      exact ⟨hp, hd, hs, hm, hwr, hcn hp hd hs hm⟩
    exact ⟨extract_safe ⟨false, env⟩ hlive (by omega) hhead2 hf hfresh,
      extract_safe ⟨true, env⟩ hlive (by omega) hhead2 hf hfresh⟩
  · intro c hp hd hlive hne hs hm hf hfresh hcn hc hr
    have hmem := (deref_some hm).2
    have hpn := (deref_some hm).1
    have hfr : c.env.fresh ≠ hp := by
      intro h
      rw [h, hmem] at hfresh
      exact Option.noConfusion hfresh
    obtain ⟨hp2, hd2, hs2, hm2, hwr⟩ := hhead hne
    rw [hs] at hs2
    cases hs2
    rw [hm] at hm2
    cases hm2
    obtain ⟨r, he, _, _, hrmem, _⟩ :=
      extract_split (c := c) hlive hne hs hm hwr hc hr hcn hf hfr
    refine ⟨r, rest_of c.steal hd, he, ?_, ?_, ?_⟩
    · simp [deref, hpn, hrmem, store]
    · cases hst : c.steal <;> simp [rest_of, shrink_back, shrink_front] <;> omega
    · cases hst : c.steal <;> simp [rest_of, shrink_back, shrink_front] <;> omega

/-- Witness for C15 (amended): the state after `subtask_queue_init` with capacity 4 and the
enqueue of the descriptor `[0, 100)` at address 1. -/
theorem range_invariant_witness :
    Execution well_ranged 4 (demo_world 0 100 10) ∧ entries_nonempty (demo_world 0 100 10) ∧
    (subtask_queue_dequeue (demo_world 0 100 10) demo_env).is_crashed = false :=
  have h : Execution well_ranged 4 (demo_world 0 100 10) :=
    Execution.enqueue scenario_start 1 (demo_subtask 0 100 10) demo_env
      ⟨0, none, demo_world 0 100 10⟩ (Execution.init _ _ _ rfl) rfl
      ⟨⟨by decide, by decide⟩, ⟨by decide, by decide⟩, by decide, by decide⟩ rfl
  ⟨h, (range_invariant 4 (by decide) (by decide) _ h).2.1,
    ((range_invariant 4 (by decide) (by decide) _ h).2.2.2.1 demo_env (by decide) (by decide)
      (by decide) (by
        intro hp hd hs hm
        have h1 : hp = 1 := (Option.some.inj hs).symm
        subst h1
        have h2 : hd = demo_subtask 0 100 10 := (Option.some.inj hm).symm
        subst h2
        decide)).1⟩

/-! ## C16 — width of the pieces -/

/-- C16.  Take a live queue whose head entry `hd` has `int` fields `start < end` and
`chunk = c > 0`, and any finite list of dequeue and steal calls, run until one of them removes
the entry (with a `malloc` that hands out a non-null block other than the entry).  Whatever the
run returns: every piece split off has width exactly `c`, so between 1 and `c`; and the entry
finally removed has a width between 1 and `c`.  So only the removed entry can be narrower than
`c`.  When the width `end - start` is an `int` and the counter pointer is not `NULL`, the run
does return. -/
theorem piece_width_bound (w : World) (hp : Ptr) (hd : subtask) (calls : List Call)
    (hlive : w.q.dead = 0) (hne : w.q.num_used ≠ 0) (hcap : w.q.capacity ≠ 0)
    (hs : slot_read w.q.buffer w.q.first = some hp) (hm : deref w hp = some hd)
    (hst : in_int hd.start) (hen : in_int hd.end_)
    (hse : hd.start < hd.end_) (hc : 0 < hd.chunk)
    (hfresh : ∀ c, c ∈ calls → c.env.fresh ≠ NULL ∧ c.env.fresh ≠ hp) :
    (∀ dr, consume w calls = .returned dr →
      (∀ p, p ∈ dr.pieces →
        p.desc.end_ - p.desc.start = hd.chunk ∧
        1 ≤ p.desc.end_ - p.desc.start ∧ p.desc.end_ - p.desc.start ≤ hd.chunk) ∧
      (∀ last, dr.removed = some last →
        1 ≤ last.end_ - last.start ∧ last.end_ - last.start ≤ hd.chunk)) ∧
    (hd.end_ - hd.start ≤ INT_MAX → hd.counter ≠ NULL →
      ∃ dr, consume w calls = .returned dr) := by
  refine ⟨?_, ?_⟩
  · intro dr hdr
    obtain ⟨last, hlast, _, htiles, _, _, hpieces, hrem, _⟩ :=
      consume_legal calls w hp hd hlive hne hcap hs hm hst hen hse hfresh dr hdr
    refine ⟨?_, ?_⟩
    · intro p hpm
      obtain ⟨_, hw, _⟩ := hpieces p hpm
      exact ⟨hw, by omega, by omega⟩
    · intro last2 hl2
      have hsame : last2 = last := by
        rcases hlast with h | h
        · rw [h] at hl2
          exact (Option.some.inj hl2).symm
        · rw [h.1] at hl2
          exact Option.noConfusion hl2
      subst hsame
      have hmemb : range_of last2 ∈
          fronts dr.pieces ++ [range_of last2] ++ (backs dr.pieces).reverse := by
        simp
      have hpos := (tiles_from htiles _ hmemb).2.1
      have hle := (hrem hl2).2.2 hc
      simp only [range_of] at hpos
      exact ⟨by omega, hle⟩
  · intro hw hcn
    obtain ⟨dr, _, hcons, _⟩ :=
      consume_spec calls w hp hd hlive hne hcap hs hm ⟨hst, hen, hse, hw⟩ (fun _ _ => hcn)
        hfresh
    exact ⟨dr, hcons⟩

/-- Witness for C16: on `[0, 25)` with chunk 10 the pieces `[0, 10)` and `[15, 25)` have width
10 and the removed entry `[10, 15)` has width 5. -/
theorem piece_width_bound_witness :
    ∃ dr, consume (demo_world 0 25 10) demo_calls = .returned dr ∧
      dr.removed = some (demo_subtask 10 15 10) ∧
      (∀ p, p ∈ dr.pieces → p.desc.end_ - p.desc.start = 10) ∧
      (1 : Int) ≤ 15 - 10 ∧ (15 : Int) - 10 ≤ 10 := by
  have hpw :=
    piece_width_bound (demo_world 0 25 10) 1 (demo_subtask 0 25 10) demo_calls
      (by decide) (by decide) (by decide) (by decide) (by decide)
      ⟨by decide, by decide⟩ ⟨by decide, by decide⟩ (by decide) (by decide) (by decide)
  obtain ⟨dr, h⟩ := hpw.2 (by decide) (by decide)
  obtain ⟨h1, h2⟩ := hpw.1 dr h
  have hv : (consume (demo_world 0 25 10) demo_calls).view (fun d => d.removed)
      = some (some (demo_subtask 10 15 10)) := by
    decide
  rw [h] at hv
  simp only [Outcome.view, Option.some.injEq] at hv
  exact ⟨dr, h, hv, fun p hp => (h1 p hp).1, (h2 _ hv).1, (h2 _ hv).2⟩

/-! ## C17 — profiling has no impact -/

/-- C17.  Let two memories agree on everything except the profiling fields of the queue
(`profile`, `time_enqueue`, `time_dequeue`, `n_enqueues`, `n_dequeues`), and let two
environments agree on what `malloc` returns but not necessarily on the wall-clock readings.
Then enqueue, dequeue and steal each end the same way in both (both return, both wait or both
crash), and when they return they agree on the return code, on the pointer written to the
output slot, on `capacity`, `first`, `num_used`, `dead`, on the slot array, on every subtask
object and on every counter cell. -/
theorem profiling_no_impact (w w2 : World) (p : Ptr) (env env2 : Env)
    (hsame : same_but_profiling w w2) (hfresh : env2.fresh = env.fresh) :
    (subtask_queue_enqueue w2 p env2).map visible = (subtask_queue_enqueue w p env).map visible ∧
    (subtask_queue_dequeue w2 env2).map visible = (subtask_queue_dequeue w env).map visible ∧
    (subtask_queue_steal w2 env2).map visible = (subtask_queue_steal w env).map visible := by
  have hchunk := chunk_same_but_profiling hsame
  obtain ⟨hcap, hfirst, hnum, hbuf, hdead, hmem, hints⟩ := hsame
  have hd2 : ∀ p, deref w2 p = deref w p := by
    intro p
    simp [deref, hmem]
  refine ⟨?_, ?_, ?_⟩
  · unfold subtask_queue_enqueue
    simp only [hcap, hfirst, hnum, hbuf, hdead]
    split
    · rfl
    · split
      · simp [Outcome.map, visible, hcap, hfirst, hnum, hbuf, hdead, hmem, hints]
      · cases hc : c_mod (wrap32 (w.q.first + w.q.num_used)) w.q.capacity with
        | none => rfl
        | some i =>
          simp only []
          cases hw : slot_write w.q.buffer i p with
          | none => rfl
          | some b1 =>
            simp only [Outcome.map, visible]
            congr 1
            split <;> split <;>
              simp [record_enqueue, hcap, hfirst, hnum, hdead, hmem, hints]
  · unfold subtask_queue_dequeue
    simp only [hnum, hdead, hfresh]
    split
    · rfl
    · split
      · simp [Outcome.map, visible, hcap, hfirst, hnum, hbuf, hdead, hmem, hints]
      · have hx := hchunk 0 env.fresh
        cases hg : jobqueue_get_subtask_chunk w 0 env.fresh with
        | blocked =>
          cases hg2 : jobqueue_get_subtask_chunk w2 0 env.fresh with
          | blocked => rfl
          | crashed => simp [hg, hg2, Outcome.map] at hx
          | returned x => simp [hg, hg2, Outcome.map] at hx
        | crashed =>
          cases hg2 : jobqueue_get_subtask_chunk w2 0 env.fresh with
          | blocked => simp [hg, hg2, Outcome.map] at hx
          | crashed => rfl
          | returned x => simp [hg, hg2, Outcome.map] at hx
        | returned y =>
          cases hg2 : jobqueue_get_subtask_chunk w2 0 env.fresh with
          | blocked => simp [hg, hg2, Outcome.map] at hx
          | crashed => simp [hg, hg2, Outcome.map] at hx
          | returned x =>
            simp only [hg, hg2, Outcome.map, Outcome.returned.injEq, Prod.mk.injEq, visible,
              Visible.mk.injEq, true_and] at hx
            obtain ⟨h1, h2, h3, h4, h5, h6, h7, h8⟩ := hx
            simp only [h1]
            split
            · rfl
            · simp only [Outcome.map, visible]
              congr 1
              split <;> split <;> simp [record_dequeue, h2, h3, h4, h5, h6, h7, h8]
  · unfold subtask_queue_steal
    simp only [subtask_queue_is_empty, hnum, hdead, hfresh, hbuf, hfirst, hd2]
    split
    · simp [Outcome.map, visible, hcap, hfirst, hnum, hbuf, hdead, hmem, hints]
    · cases hs : slot_read w.q.buffer w.q.first with
      | none => rfl
      | some hp =>
        simp only []
        cases hm : deref w hp with
        | none => rfl
        | some hd =>
          simp only []
          split
          · simp [Outcome.map, visible, hcap, hfirst, hnum, hbuf, hdead, hmem, hints]
          · split
            · simp [Outcome.map, visible, hcap, hfirst, hnum, hbuf, hdead, hmem, hints]
            · have hx := hchunk 1 env.fresh
              cases hg : jobqueue_get_subtask_chunk w 1 env.fresh with
              | blocked =>
                cases hg2 : jobqueue_get_subtask_chunk w2 1 env.fresh with
                | blocked => rfl
                | crashed => simp [hg, hg2, Outcome.map] at hx
                | returned x => simp [hg, hg2, Outcome.map] at hx
              | crashed =>
                cases hg2 : jobqueue_get_subtask_chunk w2 1 env.fresh with
                | blocked => simp [hg, hg2, Outcome.map] at hx
                | crashed => rfl
                | returned x => simp [hg, hg2, Outcome.map] at hx
              | returned y =>
                cases hg2 : jobqueue_get_subtask_chunk w2 1 env.fresh with
                | blocked => simp [hg, hg2, Outcome.map] at hx
                | crashed => simp [hg, hg2, Outcome.map] at hx
                | returned x =>
                  simp only [hg, hg2, Outcome.map, Outcome.returned.injEq, Prod.mk.injEq,
                    visible, Visible.mk.injEq, true_and] at hx
                  obtain ⟨h1, h2, h3, h4, h5, h6, h7, h8⟩ := hx
                  simp only [h1]
                  split
                  · simp [Outcome.map, visible, h2, h3, h4, h5, h6, h7, h8]
                  · simp only [Outcome.map, visible]
                    congr 1
                    split <;> split <;> simp [record_dequeue, h2, h3, h4, h5, h6, h7, h8]

/-- Witness for C17: the demo queue without profiling, and with profiling on, other totals and
other clock readings. -/
theorem profiling_no_impact_witness :
    (subtask_queue_dequeue
        { demo_world 0 100 10 with
          q := { demo_queue with profile := 1, time_dequeue := 77, n_dequeues := 5 } }
        ⟨3, 9, 2⟩).map visible
      = (subtask_queue_dequeue (demo_world 0 100 10) demo_env).map visible :=
  (profiling_no_impact (demo_world 0 100 10)
    { demo_world 0 100 10 with
      q := { demo_queue with profile := 1, time_dequeue := 77, n_dequeues := 5 } }
    0 demo_env ⟨3, 9, 2⟩ ⟨rfl, rfl, rfl, rfl, rfl, rfl, rfl⟩ rfl).2.1

/-! ## C18 — number of extractions -/

/-- C18, as stated, fails: the head entry with `start = -1`, `end = 2147483647` and
`chunk = 10` has width `n = end - start = 2147483648 > 0` and `c = 10 > 0`, but applying
`jobqueue_get_subtask_chunk` to it never removes it: whatever the directions, the first
application finds `remaining_iter = -2147483648` (the difference formed in `int`) and the
process stops at `assert(remaining_iter > 0)`. -/
theorem extraction_count_needs_int_width :
    slot_read (demo_world (-1) 2147483647 10).q.buffer (demo_world (-1) 2147483647 10).q.first
      = some 1 ∧
    deref (demo_world (-1) 2147483647 10) 1 = some (demo_subtask (-1) 2147483647 10) ∧
    0 < (demo_subtask (-1) 2147483647 10).end_ - (demo_subtask (-1) 2147483647 10).start ∧
    0 < (demo_subtask (-1) 2147483647 10).chunk ∧
    INT_MIN ≤ (demo_subtask (-1) 2147483647 10).start ∧
    (demo_subtask (-1) 2147483647 10).end_ ≤ INT_MAX ∧
    wrap32 ((demo_subtask (-1) 2147483647 10).end_ - (demo_subtask (-1) 2147483647 10).start)
      = -2147483648 ∧
    (extractions (demo_world (-1) 2147483647 10) [(0, 2)]).is_crashed = true ∧
    (extractions (demo_world (-1) 2147483647 10) [(1, 2)]).is_crashed = true ∧
    (∀ d ds, (extractions (demo_world (-1) 2147483647 10) (d :: ds)).is_crashed = true) := by
  refine ⟨by decide, by decide, by decide, by decide, by decide, by decide, by decide,
    by decide, by decide, ?_⟩
  intro d ds
  have hs : slot_read (demo_world (-1) 2147483647 10).q.buffer
      (demo_world (-1) 2147483647 10).q.first = some 1 := by decide
  have hm : deref (demo_world (-1) 2147483647 10) 1
      = some (demo_subtask (-1) 2147483647 10) := by decide
  have h : jobqueue_get_subtask_chunk (demo_world (-1) 2147483647 10) d.1 d.2 = .crashed :=
    chunk_assert_fails d.1 d.2 hs hm (by decide)
  simp [extractions, h, Outcome.is_crashed]

/-- C18, amended.  Let the head entry `hd` have `int` fields `start` and `end`, a width
`n = end - start` with `0 < n <= INT_MAX`, `chunk = c > 0` and a non-null counter pointer, and
let `k` be `n / c` rounded up, that is the number with `(k - 1) * c < n <= k * c`.  For every
list of directions (with a `malloc` that hands out a non-null block other than the entry),
applying `jobqueue_get_subtask_chunk` once per direction removes the entry at the `k`-th call
exactly, whatever the directions: a list of at least `k` directions stops after `k` calls, a
shorter one runs out before the entry is removed, and no run blocks or crashes.  The `k - 1`
calls before the removing one are splits: a run of dequeue and steal calls on a live queue that
removes the entry hands out exactly `k - 1` pieces before it. -/
theorem extraction_count (w : World) (hp : Ptr) (hd : subtask) (dirs : List (Int × Ptr))
    (hcap : w.q.capacity ≠ 0)
    (hs : slot_read w.q.buffer w.q.first = some hp) (hm : deref w hp = some hd)
    (hst : in_int hd.start) (hen : in_int hd.end_)
    (hn : 0 < hd.end_ - hd.start) (hw : hd.end_ - hd.start ≤ INT_MAX) (hc : 0 < hd.chunk)
    (hcn : hd.counter ≠ NULL)
    (hfresh : ∀ d, d ∈ dirs → d.2 ≠ NULL ∧ d.2 ≠ hp) :
    ∃ k : Nat, (k : Int) = ceil_div (hd.end_ - hd.start) hd.chunk ∧ 1 ≤ k ∧
      ((k : Int) - 1) * hd.chunk < hd.end_ - hd.start ∧
      hd.end_ - hd.start ≤ (k : Int) * hd.chunk ∧
      (k ≤ dirs.length → extractions w dirs = .returned (some k)) ∧
      (dirs.length < k → extractions w dirs = .returned none) ∧
      (∀ calls : List Call, w.q.dead = 0 → w.q.num_used ≠ 0 →
        (∀ c, c ∈ calls → c.env.fresh ≠ NULL ∧ c.env.fresh ≠ hp) →
        ∃ dr, consume w calls = .returned dr ∧
          (dr.removed ≠ none → dr.pieces.length + 1 = k) ∧
          (k ≤ calls.length → dr.removed ≠ none)) := by
  have hwr : well_ranged hd := ⟨hst, hen, by omega, hw⟩
  have hpos := ceil_div_pos hn hc
  have hb := ceil_div_bounds (n := hd.end_ - hd.start) hc
  have hk : ((ceil_div (hd.end_ - hd.start) hd.chunk).toNat : Int)
      = ceil_div (hd.end_ - hd.start) hd.chunk := Int.toNat_of_nonneg (by omega)
  have hspec := extractions_spec dirs w hp hd hcap hs hm hwr hcn hc hfresh
  refine ⟨(ceil_div (hd.end_ - hd.start) hd.chunk).toNat, hk, by omega, ?_, ?_, ?_, ?_, ?_⟩
  · rw [hk]
    exact hb.1
  · rw [hk]
    exact hb.2
  · intro hlen
    have hlen2 : ceil_div (hd.end_ - hd.start) hd.chunk ≤ (dirs.length : Int) := by omega
    rw [hspec, if_pos hlen2]
  · intro hlen
    have hlen2 : ¬ ceil_div (hd.end_ - hd.start) hd.chunk ≤ (dirs.length : Int) := by omega
    rw [hspec, if_neg hlen2]
  · intro calls hlive hne hfr
    obtain ⟨dr, last, hcons, hlast, _, htiles, _, _, _, hrem, hsum, _⟩ :=
      consume_spec calls w hp hd hlive hne hcap hs hm hwr (fun _ _ => hcn) hfr
    refine ⟨dr, hcons, ?_, ?_⟩
    · intro hr
      have hl : dr.removed = some last := by
        rcases hlast with h | h
        · exact h
        · exact absurd h.1 hr
      have hle := (hrem hl).2.2 hc
      have hmemb : range_of last ∈
          fronts dr.pieces ++ [range_of last] ++ (backs dr.pieces).reverse := by
        simp
      have hlpos := (tiles_from htiles _ hmemb).2.1
      simp only [range_of] at hlpos
      -- `n = len * c + lw` with `0 < lw <= c`, and `(k - 1) * c < n <= k * c`
      have h1 : (dr.pieces.length : Int) * hd.chunk
          < ceil_div (hd.end_ - hd.start) hd.chunk * hd.chunk := by omega
      have h2 : (ceil_div (hd.end_ - hd.start) hd.chunk - 1) * hd.chunk
          < ((dr.pieces.length : Int) + 1) * hd.chunk := by
        have : ((dr.pieces.length : Int) + 1) * hd.chunk
            = (dr.pieces.length : Int) * hd.chunk + hd.chunk := by ring
        omega
      have h3 := Int.lt_of_mul_lt_mul_right h1 (by omega)
      have h4 := Int.lt_of_mul_lt_mul_right h2 (by omega)
      omega
    · intro hlen
      exact consume_removes calls w hp hd hlive hne hcap hs hm hwr hcn hc hfr (by omega)
        dr hcons

/-- Witness for C18 (amended): width 25 and chunk 10 give three extractions, whatever the
directions. -/
theorem extraction_count_witness :
    extractions (demo_world 0 25 10) [(1, 2), (0, 3), (1, 4), (0, 5)] = .returned (some 3) ∧
    extractions (demo_world 0 25 10) [(0, 2), (0, 3), (0, 4)] = .returned (some 3) ∧
    extractions (demo_world 0 25 10) [(1, 2), (1, 3)] = .returned none := by
  obtain ⟨k, hk, _, _, _, h1, _, _⟩ :=
    extraction_count (demo_world 0 25 10) 1 (demo_subtask 0 25 10) [(1, 2), (0, 3), (1, 4), (0, 5)]
      (by decide) (by decide) (by decide) ⟨by decide, by decide⟩ ⟨by decide, by decide⟩
      (by decide) (by decide) (by decide) (by decide) (by decide)
  have hk3 : k = 3 := by
    have : ceil_div ((demo_subtask 0 25 10).end_ - (demo_subtask 0 25 10).start)
        (demo_subtask 0 25 10).chunk = 3 := by decide
    omega
  subst hk3
  exact ⟨h1 (by decide), rfl, rfl⟩

/-! ## C19 — no wrap-around in the splitting arithmetic -/

/-- C19.  Let the head entry `hd` have `start`, `end` and `chunk` in the range of a 32-bit
`int`, with `0 <= start < end` and `chunk >= 0`.  Then `end - start`, which the routine always
computes, lies in the `int` range and its 32-bit result is its mathematical value; in the split
branch (`0 < chunk < end - start`), where the routine computes `end - chunk` or `start + chunk`,
these lie in the `int` range too and their 32-bit results are their mathematical values.  So
the routine, whose range arithmetic is done in 32 bits, does exactly what the routine with
exact arithmetic (`jobqueue_get_subtask_chunk_exact`) does, for every direction and every
`malloc` result.  And a split (with a non-null block other than the entry, and a non-null
counter pointer) returns a piece and leaves a rest whose ranges are non-empty and lie inside
`[start, end)`. -/
theorem no_wrap_around (w : World) (hp : Ptr) (hd : subtask)
    (hs : slot_read w.q.buffer w.q.first = some hp) (hm : deref w hp = some hd)
    (hstart : in_int hd.start) (hend : in_int hd.end_) (hchunk : in_int hd.chunk)
    (h0 : 0 ≤ hd.start) (hse : hd.start < hd.end_) (hc : 0 ≤ hd.chunk) :
    (in_int (hd.end_ - hd.start) ∧ wrap32 (hd.end_ - hd.start) = hd.end_ - hd.start) ∧
    (0 < hd.chunk → hd.chunk < hd.end_ - hd.start →
      in_int (hd.end_ - hd.chunk) ∧ wrap32 (hd.end_ - hd.chunk) = hd.end_ - hd.chunk ∧
      in_int (hd.start + hd.chunk) ∧ wrap32 (hd.start + hd.chunk) = hd.start + hd.chunk) ∧
    (∀ from_end fresh, jobqueue_get_subtask_chunk w from_end fresh
      = jobqueue_get_subtask_chunk_exact w from_end fresh) ∧
    (∀ from_end fresh, fresh ≠ NULL → fresh ≠ hp → hd.counter ≠ NULL → 0 < hd.chunk →
      hd.chunk < hd.end_ - hd.start →
      ∃ w1 piece rest,
        jobqueue_get_subtask_chunk w from_end fresh = .returned (fresh, w1) ∧
        deref w1 fresh = some piece ∧ deref w1 hp = some rest ∧
        hd.start ≤ piece.start ∧ piece.start < piece.end_ ∧ piece.end_ ≤ hd.end_ ∧
        hd.start ≤ rest.start ∧ rest.start < rest.end_ ∧ rest.end_ ≤ hd.end_) := by
  have hpn := (deref_some hm).1
  have hA : in_int (hd.end_ - hd.start) := by
    unfold in_int INT_MIN INT_MAX at *
    omega
  have hB : 0 < hd.chunk → hd.chunk < hd.end_ - hd.start →
      in_int (hd.end_ - hd.chunk) ∧ in_int (hd.start + hd.chunk) := by
    intro _ _
    unfold in_int INT_MIN INT_MAX at *
    omega
  have hwr : well_ranged hd := ⟨hstart, hend, hse, hA.2⟩
  have heq : ∀ from_end fresh, jobqueue_get_subtask_chunk w from_end fresh
      = jobqueue_get_subtask_chunk_exact w from_end fresh := by
    intro from_end fresh
    exact chunk_exact_eq from_end fresh hs hm (wrap32_of_in_int hA)
      (fun a b => ⟨wrap32_of_in_int (hB a b).1, wrap32_of_in_int (hB a b).2⟩)
  refine ⟨⟨hA, wrap32_of_in_int hA⟩, ?_, heq, ?_⟩
  · intro a b
    exact ⟨(hB a b).1, wrap32_of_in_int (hB a b).1, (hB a b).2, wrap32_of_in_int (hB a b).2⟩
  · intro from_end fresh hf hfr hcn hcp hr
    refine ⟨_, piece_of (decide (from_end ≠ 0)) hd, rest_of (decide (from_end ≠ 0)) hd,
      chunk_split from_end hs hm hwr hcp hr hcn hf hfr, ?_, ?_, ?_⟩
    · simp [deref, hf, after_split, store, hfr]
    · simp [deref, hpn, after_split, store]
    · cases decide (from_end ≠ 0) <;>
        simp [piece_of, rest_of, piece_back, piece_front, shrink_back, shrink_front] <;> omega

/-- Witness for C19: the entry `[0, 100)` with chunk 10. -/
theorem no_wrap_around_witness :
    wrap32 (100 - 0) = 100 - 0 ∧ wrap32 (100 - 10) = 100 - 10 ∧ wrap32 (0 + 10) = 0 + 10 ∧
    jobqueue_get_subtask_chunk (demo_world 0 100 10) 1 2
      = jobqueue_get_subtask_chunk_exact (demo_world 0 100 10) 1 2 := by
  obtain ⟨h1, h2, h3, _⟩ :=
    no_wrap_around (demo_world 0 100 10) 1 (demo_subtask 0 100 10)
      (by decide) (by decide) ⟨by decide, by decide⟩ ⟨by decide, by decide⟩
      ⟨by decide, by decide⟩ (by decide) (by decide) (by decide)
  obtain ⟨_, h4, _, h5⟩ := h2 (by decide) (by decide)
  exact ⟨h1.2, h4, h5, h3 1 2⟩

/-! ## C20 — the ring buffer as a bounded FIFO list -/

end SubtaskQueue
